import Mathlib

/-!
Verification development for the Bitrix24 channel connector.

The definitions below are a shallow embedding of the TypeScript sources:
  * `src/webhook.ts`   — webhook ingestion, secret verification, message and
    command handlers, attachment categorisation, voice transcription;
  * `src/accounts.ts`  — account resolution;
  * the REST client (`Bitrix24Client`) — rate limiting, typing indicator,
    BB-code/markdown conversion.

JavaScript-specific behaviour (falsiness of `undefined`/`""`, `parseInt`,
`String.prototype.includes`, global regex replacement) is modelled explicitly.
External collaborators (HTTP fetch, the agent dispatcher, the filesystem, the
clock) are supplied as oracle parameters so that every control path of the
embedded code can be examined.
-/

/-! ### JavaScript string and falsiness helpers -/

/-- JS `a || b` for optional strings: `undefined` and `""` are falsy. -/
def jsOr (a b : Option String) : Option String :=
  match a with
  | some s => if s = "" then b else some s
  | none => b

/-- JS `a || b` where `b` is a plain string default. -/
def jsStrOr (a : Option String) (b : String) : String :=
  match a with
  | some s => if s = "" then b else s
  | none => b

/-- JS truthiness of an optional string value. -/
def jsTruthy (a : Option String) : Bool :=
  match a with
  | some s => s ≠ ""
  | none => false

/-- `startsWithL pat l` : does `l` start with `pat`? -/
def startsWithL : List Char → List Char → Bool
  | [], _ => true
  | _ :: _, [] => false
  | p :: ps, c :: cs => p == c && startsWithL ps cs

/-- `isInfixL pat l` : does `pat` occur contiguously inside `l`?
Models JS `String.prototype.includes`. -/
def isInfixL (pat : List Char) : List Char → Bool
  | [] => startsWithL pat []
  | c :: cs => startsWithL pat (c :: cs) || isInfixL pat cs

/-- JS `s.includes(pat)`. -/
def containsSub (s pat : String) : Bool :=
  isInfixL pat.data s.data

/-- `endsWithL suf l` : does `l` end with `suf`? -/
def endsWithL (suf l : List Char) : Bool :=
  startsWithL suf.reverse l.reverse

/-- JS `s.endsWith(suf)`. -/
def endsWithStr (s suf : String) : Bool :=
  endsWithL suf.data s.data

/-- JS `s.startsWith(pre)`. -/
def startsWithStr (s pre : String) : Bool :=
  startsWithL pre.data s.data

/-- Lower-case a string character-wise (JS `toLowerCase` on ASCII input). -/
def toLowerStr (s : String) : String :=
  String.mk (s.data.map Char.toLower)

/-- Numeric value of a list of decimal digit characters. -/
def digitsVal : List Char → Nat → Nat
  | [], acc => acc
  | c :: cs, acc => digitsVal cs (acc * 10 + (c.toNat - '0'.toNat))

/-- JS `parseInt(s, 10)`: skip leading spaces, optional sign, then a
non-empty run of decimal digits; `NaN` (here `none`) otherwise.  Trailing
non-digit characters are ignored, as in JS. -/
def jsParseInt (s : String) : Option Int :=
  let cs := s.data.dropWhile (fun c => c = ' ')
  let core : List Char → Option Nat := fun l =>
    let ds := l.takeWhile (fun c => c.isDigit)
    if ds.isEmpty then none else some (digitsVal ds 0)
  match cs with
  | '-' :: rest => (core rest).map (fun n => -(n : Int))
  | '+' :: rest => (core rest).map (fun n => (n : Int))
  | _ => (core cs).map (fun n => (n : Int))

/-- JS `parseInt(s, 10) || 0` applied to an optional field. -/
def jsParseIntOr0 (s : Option String) : Int :=
  match s with
  | none => 0
  | some v => (jsParseInt v).getD 0

/-! ### Attachment categorisation (`categorizeAttachment`, webhook.ts 849-895)

`undefined` arguments behave exactly like `""` in the source (both are falsy
and both yield `""` under `(x || "")`), so the two parameters are modelled as
plain strings. -/

/-- The `Bitrix24Attachment["category"]` union type. -/
inductive AttachmentCategory where
  | image
  | video
  | voice
  | document
  | file
deriving DecidableEq, Repr

/-- Does the (lower-cased) name end in a dot followed by one of `exts`?
Models the `/\.(e1|e2|...)$/i` filename tests. -/
def hasAnyExt (name : String) (exts : List String) : Bool :=
  exts.any (fun e => endsWithStr name ("." ++ e))

/-- `categorizeAttachment(mimeType, fileName)` from `src/webhook.ts`.
The rule list is order-sensitive and is transcribed in source order. -/
def categorizeAttachment (mimeType fileName : String) : AttachmentCategory :=
  if mimeType = "" ∧ fileName = "" then .file
  else
    let type := toLowerStr mimeType
    let name := toLowerStr fileName
    -- Images
    if startsWithStr type "image/"
        ∨ hasAnyExt name ["jpg", "jpeg", "png", "gif", "webp", "bmp", "svg"] = true then .image
    -- Video
    else if startsWithStr type "video/"
        ∨ hasAnyExt name ["mp4", "avi", "mov", "mkv", "webm"] = true then .video
    else
      -- Audio/Voice - voice name patterns are checked first.
      -- `/^mobile_audio_.*\.mp3$/i` is startsWith + endsWith + no newline
      -- in between (the prefix and suffix are long enough that no overlap
      -- is possible once both tests succeed).
      let isVoicePattern :=
        containsSub name "voice" || containsSub name "audio" ||
          (startsWithStr name "mobile_audio_" && endsWithStr name ".mp3" &&
            !(name.data.contains '\n')) ||
          containsSub name "recording"
      if isVoicePattern then .voice
      else if startsWithStr type "audio/" ∨ type = "application/ogg" then
        -- ogg/opus is often voice
        if containsSub type "ogg" || endsWithStr name ".oga" then .voice else .file
      else if hasAnyExt name ["opus", "oga", "spx"] then .voice
      -- Documents
      else if containsSub type "pdf" || containsSub type "word" ||
          containsSub type "excel" || containsSub type "powerpoint" ||
          hasAnyExt name ["pdf", "doc", "docx", "xls", "xlsx", "ppt", "pptx", "txt", "rtf"] then
        .document
      else .file

/-! ### Account resolution and secret verification
(`src/accounts.ts` 46-118, `src/webhook.ts` 180-204) -/

/-- The fields of the top-level `channels.bitrix24` configuration that are
read on the default-account resolution path.  (`name`, `enabled`, `userId`,
`botId`, `clientId` are carried through by the source but never read by
`verifySecret`, so they are omitted here.) -/
structure Bitrix24ConfigM where
  domain : Option String
  webhookSecret : Option String
deriving DecidableEq, Repr

/-- The resolved account fields consulted by `verifySecret`. -/
structure AccountCfg where
  domain : String
  webhookSecret : String
deriving DecidableEq, Repr

/-- `resolveBitrix24Account({cfg, accountId: "default"})` restricted to the
fields above: a missing channel config resolves to empty strings, and each
field falls back to `""` via `x || ""`. -/
def resolveBitrix24AccountDefault (cfg : Option Bitrix24ConfigM) : AccountCfg :=
  match cfg with
  | none => { domain := "", webhookSecret := "" }
  | some c => { domain := jsStrOr c.domain "", webhookSecret := jsStrOr c.webhookSecret "" }

/-- `verifySecret(secret, log)` from `src/webhook.ts`, with the resolved
account passed explicitly (the source loads it from the configuration
collaborator).  `secret` is the `?secret=` query parameter, `none` when the
parameter is absent. -/
def verifySecret (account : AccountCfg) (secret : Option String) : Bool :=
  -- if (!account.domain || !account.webhookSecret) return { verified: false }
  if account.domain = "" ∨ account.webhookSecret = "" then false
  else
    -- if (!secret || secret !== account.webhookSecret) return { verified: false }
    match secret with
    | none => false
    | some s => if s = "" ∨ s ≠ account.webhookSecret then false else true

/-! ### REST client rate limiting (`Bitrix24Client`, client source 424-517)

Time is idealised: `setTimeout(f, w)` resumes exactly `w` milliseconds later,
and calls on one client instance are sequential (each awaited before the
next), matching how the per-request clients are used by the webhook
handlers. -/

/-- The `this.rateLimit` record of `Bitrix24Client`. -/
structure RateLimitState where
  requestsPerSecond : Int
  lastRequestTime : Int
  minWait : Int
deriving DecidableEq, Repr

/-- The value installed by the `Bitrix24Client` constructor. -/
def initRateLimit : RateLimitState :=
  { requestsPerSecond := 1, lastRequestTime := 0, minWait := 1000 }

/-- `waitForRateLimit()` invoked at clock value `now`: returns the instant at
which the call proceeds (the new `lastRequestTime`) together with the updated
state. -/
def waitForRateLimit (st : RateLimitState) (now : Int) : Int × RateLimitState :=
  let elapsed := now - st.lastRequestTime
  if elapsed < st.minWait then
    let waitTime := st.minWait - elapsed
    -- await setTimeout(waitTime); this.rateLimit.lastRequestTime = Date.now()
    (now + waitTime, { st with lastRequestTime := now + waitTime })
  else
    (now, { st with lastRequestTime := now })

/-- The recorded start times of a sequence of `callApi` invocations arriving
at the given clock values (every `callApi` begins with
`await this.waitForRateLimit()`). -/
def runCalls (st : RateLimitState) : List Int → List Int
  | [] => []
  | now :: rest =>
      let r := waitForRateLimit st now
      r.1 :: runCalls r.2 rest

/-! ### Typing indicator (`Bitrix24Client.sendTyping`, client source 686-712) -/

/-- The object resolved by `sendTyping`.  `result` is the opaque value
returned by `imbot.chat.sendTyping` (modelled as a string). -/
structure TypingResult where
  success : Bool
  result : Option String
  error : Option String
  duration : Option Nat
  note : Option String
deriving DecidableEq, Repr

/-- `sendTyping({userId, duration})`, parameterised by the outcome of the
underlying `callApi("imbot.chat.sendTyping", params)` call: `.ok r` when the
call resolves with `r`, `.error e` when it throws with message `e`.  The
source wraps the call in try/catch and always resolves. -/
def sendTyping (duration : Nat) (callApiOutcome : Except String String) : TypingResult :=
  match callApiOutcome with
  | .ok result =>
      { success := true, result := some result, error := none,
        duration := some duration, note := none }
  | .error e =>
      -- Fallback: return simulated success so the flow continues
      { success := false, result := none, error := some e,
        duration := none, note := some "Typing indicator failed but continuing" }

/-! ### Webhook pipeline (`src/webhook.ts` 129-753)

The pipeline is modelled as a trace-producing function: every outbound REST
call (typing indicator, `disk.file.get`, message send, command answer) is an
element of the resulting `List RestCall`.  External collaborators — the agent
dispatcher, the attachment-enrichment REST traffic and the success of the
fallback send — are oracle parameters, so the theorems quantify over every
possible behaviour of those collaborators. -/

/-- An outbound REST call made through the `Bitrix24Client`. -/
inductive RestCall where
  | typing (dialogId : String)
  | apiCall (method : String)
  | sendMessage (dialogId text : String)
  | answerCommand (messageId : Nat) (text : String)
deriving DecidableEq, Repr

/-- Behaviour of the promise handed to `withTimeout`: it either settles
(successfully or with a rejection message) before the timer fires, or it
outlives the timer. -/
inductive DispatchOutcome where
  | completes (err : Option String)
  | hangs
deriving DecidableEq, Repr

/-- `withTimeout(promise, timeoutMs, errorMessage)` (webhook.ts 209-225):
the rejection message with which the awaited wrapper throws, `none` on
success.  When the timer fires first the rejection is
`` `${errorMessage} (timeout after ${timeoutMs}ms)` ``. -/
def withTimeout (timeoutMs : Nat) (errorMessage : String) :
    DispatchOutcome → Option String
  | .completes none => none
  | .completes (some e) => some e
  | .hangs => some (errorMessage ++ " (timeout after " ++ toString timeoutMs ++ "ms)")

/-- `const DISPATCH_TIMEOUT_MS = 5 * 60 * 1000` (webhook.ts 494). -/
def DISPATCH_TIMEOUT_MS : Nat := 5 * 60 * 1000

/-- `const COMMAND_TIMEOUT_MS = 3 * 60 * 1000` (webhook.ts 685). -/
def COMMAND_TIMEOUT_MS : Nat := 3 * 60 * 1000

/-- Fallback wording for a timed-out message dispatch (webhook.ts 545). -/
def timeoutFallbackText : String :=
  "Sorry, processing your message took too long. Please try again or simplify your request."

/-- Fallback wording for a generic message-dispatch error (webhook.ts 546). -/
def genericFallbackText : String :=
  "Sorry, I encountered an error processing your message."

/-- Fallback wording for a timed-out command dispatch (webhook.ts 741). -/
def commandTimeoutFallbackText (commandName : String) : String :=
  "Sorry, the /" ++ commandName ++ " command took too long to process. Please try again."

/-- Fallback wording for a generic command-dispatch error (webhook.ts 742). -/
def commandGenericFallbackText (commandName : String) : String :=
  "Sorry, I encountered an error processing the /" ++ commandName ++ " command."

/-- Oracle describing one run of the dispatch collaborator: how the
dispatched promise behaves, which sends the `deliver` callback performed
before the promise settled, and whether the fallback `sendMessage` itself
rejects. -/
structure DispatchEnv where
  outcome : DispatchOutcome
  delivered : List RestCall
  fallbackSendFails : Bool
deriving Repr

/-- `client.sendMessage` as a fallible operation (the call itself is always
attempted; the Boolean says whether the returned promise rejects). -/
def sendMessageOp (fails : Bool) (dialogId text : String) : Except String RestCall :=
  if fails then .error "sendMessage failed" else .ok (RestCall.sendMessage dialogId text)

/-- The dispatch-and-fallback block of `handleIncomingMessage`
(webhook.ts 493-556).  The result is `.ok trace`; an `.error` result would
mean an exception escaping the block, which the try/catch structure of the
source rules out. -/
def messageDispatchPhase (userName replyDialogId : String) (env : DispatchEnv) :
    Except String (List RestCall) :=
  match withTimeout DISPATCH_TIMEOUT_MS
      ("Agent dispatch timed out for message from " ++ userName) env.outcome with
  | none => .ok env.delivered
  | some errorMsg =>
      let isTimeout := containsSub errorMsg "timeout"
      let userMessage := if isTimeout then timeoutFallbackText else genericFallbackText
      -- try { await fileClient.sendMessage({userId: replyDialogId, text: userMessage}) }
      -- catch (sendErr) { log only }
      match sendMessageOp env.fallbackSendFails replyDialogId userMessage with
      | .ok c => .ok (env.delivered ++ [c])
      | .error _ => .ok (env.delivered ++ [RestCall.sendMessage replyDialogId userMessage])

/-- The dispatch-and-fallback block of `handleIncomingCommand`
(webhook.ts 684-752). -/
def commandDispatchPhase (commandName dialogId : String) (env : DispatchEnv) :
    Except String (List RestCall) :=
  match withTimeout COMMAND_TIMEOUT_MS
      ("Command /" ++ commandName ++ " dispatch timed out") env.outcome with
  | none => .ok env.delivered
  | some errorMsg =>
      let isTimeout := containsSub errorMsg "timeout"
      let userMessage :=
        if isTimeout then commandTimeoutFallbackText commandName
        else commandGenericFallbackText commandName
      match sendMessageOp env.fallbackSendFails dialogId userMessage with
      | .ok c => .ok (env.delivered ++ [c])
      | .error _ => .ok (env.delivered ++ [RestCall.sendMessage dialogId userMessage])

/-- The fields of a message event (`ONIMMESSAGEADD` / `ONIMBOTMESSAGEADD`)
read by `handleIncomingMessage` before dispatch.  Fields are optional
strings; missing fields are `none`.  (`TO_USER_ID`, `TO_CHAT_ID`,
`CHAT_TYPE` and `DIALOG_ID` only shape the routing context, never the
outbound trace, and `DIALOG_ID` is kept because it feeds the typing-target
fallback.) -/
structure MsgEvent where
  params_FROM_USER_ID : Option String
  params_AUTHOR_ID : Option String
  data_AUTHOR_ID : Option String
  data_FROM_USER_ID : Option String
  user_ID : Option String
  user_NAME : Option String
  params_MESSAGE : Option String
  data_MESSAGE : Option String
  params_FILES : Option String
  params_PARAMS : Option String
  data_ATTACHMENTS_len : Nat
  bot_BOT_ID : Option String
  params_DIALOG_ID : Option String
  data_DIALOG_ID : Option String
deriving Repr

/-- `fromUserId = params.FROM_USER_ID || params.AUTHOR_ID || data.AUTHOR_ID
|| data.FROM_USER_ID || user.ID` (webhook.ts 248). -/
def extractFromUserId (m : MsgEvent) : Option String :=
  jsOr m.params_FROM_USER_ID (jsOr m.params_AUTHOR_ID
    (jsOr m.data_AUTHOR_ID (jsOr m.data_FROM_USER_ID m.user_ID)))

/-- Oracle for the post-verification phase of `handleIncomingMessage`:
`enrichCalls` is the REST traffic of the attachment-enrichment stage
(`disk.file.get`, downloads, ASR — collaborator-driven), `dispatch`
describes the agent-dispatch stage. -/
structure MsgEnv where
  enrichCalls : List RestCall
  dispatch : DispatchEnv
deriving Repr

/-- `handleIncomingMessage(event, secret, log)` (webhook.ts 230-562) as a
trace function.  The second component is the uncaught exception: the
top-level try/catch of the source makes it always `none`. -/
def handleIncomingMessage (m : MsgEvent) (secret : Option String)
    (account : AccountCfg) (env : MsgEnv) : List RestCall × Option String :=
  match extractFromUserId m with
  | none => ([], none)                       -- if (!fromUserId) return
  | some fromUserId =>
    if fromUserId = "" then ([], none)       -- "" is falsy
    else
      let messageText := jsStrOr (jsOr m.params_MESSAGE m.data_MESSAGE) ""
      let filesCount := jsParseIntOr0 m.params_FILES
      let potentialFileId : Option Int :=
        match m.params_PARAMS with
        | some v => jsParseInt v
        | none => none
      let hasAttachment := filesCount > 0 ||
        (match potentialFileId with
         | some n => decide (n > 690000)
         | none => false)
      -- if (!messageText?.trim() && !data.ATTACHMENTS?.length && !hasAttachment) return
      if messageText.trim = "" ∧ m.data_ATTACHMENTS_len = 0 ∧ hasAttachment = false then
        ([], none)
      -- if (fromUserId.toString() === eventBotId?.toString()) return
      else if (match m.bot_BOT_ID with
               | some b => fromUserId == b
               | none => false) then ([], none)
      -- const { verified, account } = await verifySecret(secret, log)
      else if verifySecret account secret = false then ([], none)
      else
        -- post-verification: typing indicator (fire and forget), attachment
        -- enrichment (oracle trace), then dispatch under timeout
        let dialogIdForTyping :=
          jsStrOr (jsOr (some fromUserId)
            (jsOr m.params_DIALOG_ID m.data_DIALOG_ID)) "1"
        let userName := jsStrOr m.user_NAME ("User" ++ fromUserId)
        let replyDialogId :=
          jsStrOr (jsOr (some fromUserId)
            (jsOr m.params_DIALOG_ID m.data_DIALOG_ID)) "1"
        let pre := RestCall.typing dialogIdForTyping :: env.enrichCalls
        match messageDispatchPhase userName replyDialogId env.dispatch with
        | .ok dcalls => (pre ++ dcalls, none)
        | .error e => (pre, some e)

/-- The fields of an `ONIMCOMMANDADD` event read by `handleIncomingCommand`
before dispatch. -/
structure CmdEvent where
  cmd_COMMAND : Option String
  data_COMMAND : Option String
  cmd_COMMAND_ID : Option String
  cmd_COMMAND_PARAMS : Option String
  params_FROM_USER_ID : Option String
  user_ID : Option String
  data_AUTHOR_ID : Option String
  params_DIALOG_ID : Option String
  user_NAME : Option String
deriving Repr

/-- Oracle for the post-verification phase of `handleIncomingCommand`:
`ctxThrows` models an exception raised by a collaborator between secret
verification and the dispatch block (config loading, route resolution or
context finalisation, webhook.ts 626-664) — unlike the message handler this
region is not wrapped in a try/catch, so such an exception escapes. -/
structure CmdEnv where
  ctxThrows : Bool
  dispatch : DispatchEnv
deriving Repr

/-- `handleIncomingCommand(event, secret, log)` (webhook.ts 572-753) as a
trace function; the second component is the escaping exception, if any. -/
def handleIncomingCommand (c : CmdEvent) (secret : Option String)
    (account : AccountCfg) (env : CmdEnv) : List RestCall × Option String :=
  let commandName? := jsOr c.cmd_COMMAND c.data_COMMAND
  let fromUserId? := jsOr c.params_FROM_USER_ID (jsOr c.user_ID c.data_AUTHOR_ID)
  -- if (!fromUserId || !commandName) return
  if jsTruthy fromUserId? = false ∨ jsTruthy commandName? = false then ([], none)
  else
    let fromUserId := jsStrOr fromUserId? ""
    let commandName := jsStrOr commandName? ""
    -- const { verified, account } = await verifySecret(secret, log)
    if verifySecret account secret = false then ([], none)
    else if env.ctxThrows then ([], some "collaborator exception")
    else
      let dialogId := jsStrOr (jsOr c.params_DIALOG_ID (some fromUserId)) ""
      let commandDialogId := jsStrOr (jsOr (some dialogId) (some fromUserId)) "1"
      let pre := [RestCall.typing commandDialogId]
      match commandDispatchPhase commandName dialogId env.dispatch with
      | .ok dcalls => (pre ++ dcalls, none)
      | .error e => (pre, some e)

/-- The HTTP response written by the webhook route. -/
structure HttpResponse where
  status : Nat
  body : String
deriving DecidableEq, Repr

/-- `JSON.stringify({success: true})`. -/
def successBody : String := "\x7b\"success\":true\x7d"

/-- `JSON.stringify({error: "Invalid payload"})`. -/
def invalidPayloadBody : String := "\x7b\"error\":\"Invalid payload\"\x7d"

/-- `JSON.stringify({error: "Internal error"})`. -/
def internalErrorBody : String := "\x7b\"error\":\"Internal error\"\x7d"

/-- The parsed webhook body as seen by the structural check: the `event`
field (absent = `none`; present-but-empty = `some ""`, which is falsy), a
flag for a truthy `data` field, and the event-specific field records. -/
structure WebhookBody where
  event : Option String
  hasData : Bool
  msg : MsgEvent
  cmd : CmdEvent
deriving Repr

/-- `handleBitrix24Webhook(req, res)` (webhook.ts 129-175).  `parseFailed`
models `parseBody` rejecting (malformed JSON), which the outer try/catch
turns into a 500.  The result is the HTTP response together with the
outbound REST trace. -/
def handleBitrix24Webhook (parseFailed : Bool) (body : WebhookBody)
    (secret : Option String) (account : AccountCfg)
    (menv : MsgEnv) (cenv : CmdEnv) : HttpResponse × List RestCall :=
  if parseFailed then ({ status := 500, body := internalErrorBody }, [])
  -- if (!event.event || !event.data) → 400, no further processing
  else if jsTruthy body.event = false ∨ body.hasData = false then
    ({ status := 400, body := invalidPayloadBody }, [])
  else if body.event = some "ONIMMESSAGEADD" ∨ body.event = some "ONIMBOTMESSAGEADD" then
    let r := handleIncomingMessage body.msg secret account menv
    ({ status := 200, body := successBody }, r.1)
  else if body.event = some "ONIMCOMMANDADD" then
    let r := handleIncomingCommand body.cmd secret account cenv
    match r.2 with
    | none => ({ status := 200, body := successBody }, r.1)
    | some _ => ({ status := 500, body := internalErrorBody }, r.1)
  else
    -- unhandled event type: logged, then acknowledged
    ({ status := 200, body := successBody }, [])

/-! ### Voice transcription temp-file lifecycle
(`src/webhook.ts` 1529-1557 `convertToWav`, 1563-1677 `transcribeWithQwen`,
1732-1824 `transcribeVoiceContent`)

The on-disk state is the set of temp-file paths, modelled as a list.  The
network calls (`curl` to the ASR services) have no filesystem effect, so
their outcomes are oracle Booleans; the pure response-parsing logic
(webhook.ts 1604-1665) only shapes the returned description and is folded
into that outcome.  `fs.promises.unlink` is modelled as succeeding — the
source swallows unlink errors, a caveat recorded with the claim. -/

/-- The set of existing temp-file paths. -/
abbrev TempFS := List String

/-- Create a file (`fs.promises.writeFile`, or a file produced by an
external command). -/
def fsAdd (p : String) (fs : TempFS) : TempFS := p :: fs

/-- Delete a file (`fs.promises.unlink`); deleting a missing file is a
caught no-op in the source. -/
def fsRemove (p : String) (fs : TempFS) : TempFS := fs.filter (fun q => q ≠ p)

/-- Oracle for one `transcribeWithQwen` invocation:
`convCreatesFile` — the `ffmpeg` command produced its output file;
`execThrowsConv` — `execAsync(ffmpegCmd)` rejected (non-zero exit or
30s timeout kill);
`curlThrows` / `curlSuccess` — behaviour of the `curl` call and of the
response parsing. -/
structure QwenEnv where
  convCreatesFile : Bool
  execThrowsConv : Bool
  curlThrows : Bool
  curlSuccess : Bool
deriving DecidableEq, Repr

/-- `inputPath.replace(/\.[^.]+$/, ".wav")` (webhook.ts 1535): replace a
final dot-extension (a dot followed by one or more non-dot characters at the
end) by `.wav`; no match leaves the path unchanged. -/
def replaceExtWav (s : String) : String :=
  let r := s.data.reverse
  let ext := r.takeWhile (fun c => c ≠ '.')
  match r.drop ext.length with
  | '.' :: baseRev =>
      if ext.isEmpty then s
      else String.mk (baseRev.reverse ++ ".wav".data)
  | _ => s

/-- `tempPath.toLowerCase().match(/\.(mp3|m4a|aac|ogg)$/)` (webhook.ts
1581). -/
def hasConvertibleExt (s : String) : Bool :=
  [".mp3", ".m4a", ".aac", ".ogg"].any (fun e => endsWithStr (toLowerStr s) e)

/-- `convertToWav(inputPath, log)` (webhook.ts 1529-1557): run `ffmpeg`,
then `await fs.promises.access(outputPath)`; return the output path when the
file exists, `null` when the conversion failed or the command threw.  Note
that when the command throws the output file may nevertheless have been
created (partial write before a non-zero exit or the 30s timeout kill) and
is not deleted here. -/
def convertToWav (inputPath : String) (q : QwenEnv) (fs : TempFS) :
    Option String × TempFS :=
  let outputPath := replaceExtWav inputPath
  let fs1 := if q.convCreatesFile then fsAdd outputPath fs else fs
  if q.execThrowsConv then (none, fs1)          -- catch → return null
  else if q.convCreatesFile then (some outputPath, fs1)
  else (none, fs1)                              -- access failed → return null

/-- `transcribeWithQwen(tempPath, attachment, qwenUrl, log)` (webhook.ts
1563-1677): convert compressed input to WAV when the extension matches, call
the ASR service, and in the `finally` block unlink the converted file when
its path is known.  Returns the success flag and the filesystem. -/
def transcribeWithQwen (tempPath : String) (q : QwenEnv) (fs : TempFS) :
    Bool × TempFS :=
  let conv :=
    if hasConvertibleExt tempPath then convertToWav tempPath q fs
    else (none, fs)
  -- curl to the Qwen endpoint: no filesystem effect; a throw is caught
  let ok := if q.curlThrows then false else q.curlSuccess
  -- finally: clean up converted WAV file
  match conv.1 with
  | some p => (ok, fsRemove p conv.2)
  | none => (ok, conv.2)

/-- ASR provider chosen by `determineASRProvider` (a collaborator probing
configuration and reachability). -/
inductive ASRProviderM where
  | qwen
  | openai
deriving DecidableEq, Repr

/-- Oracle for one `transcribeVoiceContent` run.  `qwenFirst` drives the
first `transcribeWithQwen` invocation (qwen as primary, or qwen as fallback
when the OpenAI key is missing), `qwenSecond` drives the qwen fallback after
an OpenAI failure.  `transcribeWithOpenAI` is network-only and has no
filesystem effect. -/
structure VoiceEnv where
  bufferLen : Nat
  provider : ASRProviderM
  openaiKeyFound : Bool
  writeFileThrows : Bool
  openaiSuccess : Bool
  qwenFirst : QwenEnv
  qwenSecond : QwenEnv
deriving DecidableEq, Repr

/-- `/tmp/bitrix24_voice_${attachment.id}_${Date.now()}.mp3` (webhook.ts
1760), with the two interpolated numbers already rendered. -/
def voiceTempPath (idStr nowStr : String) : String :=
  "/tmp/bitrix24_voice_" ++ idStr ++ "_" ++ nowStr ++ ".mp3"

/-- `transcribeVoiceContent(attachment, fileBuffer, ...)` (webhook.ts
1732-1824), tracked on the filesystem only (the returned description string
is pure formatting).  Every path through the body runs the `finally` block,
which unlinks `tempPath` when it was assigned. -/
def transcribeVoiceContent (idStr nowStr : String) (v : VoiceEnv)
    (fs : TempFS) : TempFS :=
  -- if (!fileBuffer || fileBuffer.length === 0) return placeholder
  if v.bufferLen = 0 then fs
  -- if (fileBuffer.length > 25 * 1024 * 1024) return placeholder
  else if v.bufferLen > 25 * 1024 * 1024 then fs
  else
    let tempPath := voiceTempPath idStr nowStr
    if v.writeFileThrows then
      -- writeFile threw before creating the file: caught at the bottom,
      -- finally unlinks the (absent) tempPath
      fsRemove tempPath fs
    else
      let fs1 := fsAdd tempPath fs
      let fs2 :=
        match v.provider with
        | .qwen =>
            -- primary qwen; on failure fall back to transcribeWithOpenAI,
            -- which touches only the network
            (transcribeWithQwen tempPath v.qwenFirst fs1).2
        | .openai =>
            if v.openaiKeyFound = false then
              -- no key: fall back to qwen directly
              (transcribeWithQwen tempPath v.qwenSecond fs1).2
            else if v.openaiSuccess then fs1
            else
              -- OpenAI failed: fall back to qwen
              (transcribeWithQwen tempPath v.qwenSecond fs1).2
      -- finally: ALWAYS clean up temp file
      fsRemove tempPath fs2

/-- A qwen invocation leaks its converted WAV exactly when `ffmpeg` created
the output file but the command then threw, so `convertToWav` returned
`null` and the `finally` block had no path to unlink. -/
def qwenLeaks (q : QwenEnv) : Bool :=
  q.convCreatesFile && q.execThrowsConv

/-! ### Markup converter (`Bitrix24Client.bbToMarkdown` / `markdownToBb`)

Each global regex replacement of the source is embedded as a left-to-right
scanner on `List Char`: at each position a pure matcher either produces the
replacement text together with the remainder after the match (scanning then
resumes there, as `String.prototype.replace` with the `g` flag does), or the
character is copied and the scan advances by one.  Lazy groups are first
occurrences, greedy character classes are maximal runs, `.` does not match a
newline, `[^...]` classes do.  The scanners carry a fuel argument bounded by
the input length; every match consumes at least one character so the fuel
never runs out on the initial charge.

The line-anchored multiline replacements (`/^.../gm`) are modelled
line-locally (split on newlines, rewrite each line, re-join); the corner in
which a greedy `\s` class crosses a line boundary is therefore not tracked.
None of the inputs considered below exercises that corner. -/

/-- JS `\s` on the ASCII range. -/
def isJsWS (c : Char) : Bool :=
  c = ' ' || c = '\t' || c = '\n' || c = '\r' || c = '\x0b' || c = '\x0c'

/-- JS `\w`. -/
def isWordChar (c : Char) : Bool :=
  c.isAlphanum || c = '_'

/-- The double-quote character. -/
def quoteChar : Char := Char.ofNat 34

/-- The apostrophe character. -/
def aposChar : Char := Char.ofNat 39

/-- JS `String.prototype.trim` on `List Char`. -/
def trimL (l : List Char) : List Char :=
  ((l.dropWhile isJsWS).reverse.dropWhile isJsWS).reverse

/-- Lazy close for `(.*?)` followed by the literal `close`: the content up
to the first occurrence of `close`, failing at a newline (`.` does not match
one) or at the end. -/
def findLazyClose (close : List Char) : List Char → Option (List Char × List Char)
  | [] => none
  | c :: cs =>
      if startsWithL close (c :: cs) then some ([], (c :: cs).drop close.length)
      else if c = '\n' then none
      else (findLazyClose close cs).map (fun p => (c :: p.1, p.2))

/-- Lazy close for `(.+?)` (at least one content character). -/
def findLazyCloseNE (close : List Char) : List Char → Option (List Char × List Char)
  | [] => none
  | c :: cs =>
      if c = '\n' then none
      else (findLazyClose close cs).map (fun p => (c :: p.1, p.2))

/-- The generic global-replace scanner.  `matchAt l` returns the replacement
text and the remainder after the match when a match starts at the head of
`l`. -/
def replScanGo (matchAt : List Char → Option (List Char × List Char)) :
    Nat → List Char → List Char
  | 0, l => l
  | _ + 1, [] => []
  | fuel + 1, c :: cs =>
      match matchAt (c :: cs) with
      | some (repl, rest) => repl ++ replScanGo matchAt fuel rest
      | none => c :: replScanGo matchAt fuel cs

/-- Run a global replacement over a whole character list. -/
def replScan (matchAt : List Char → Option (List Char × List Char))
    (l : List Char) : List Char :=
  replScanGo matchAt l.length l

/-- Matcher for a `[tag](.*?)[/tag]`-style pair with replacement
`pre ++ content ++ post`. -/
def tagPairMatch (openT closeT pre post : List Char) (l : List Char) :
    Option (List Char × List Char) :=
  if startsWithL openT l then
    (findLazyClose closeT (l.drop openT.length)).map
      (fun p => (pre ++ p.1 ++ post, p.2))
  else none

/-- Matcher for patterns `open(.+?)close` with replacement
`pre ++ content ++ post`. -/
def lazyPairNEMatch (openT closeT pre post : List Char) (l : List Char) :
    Option (List Char × List Char) :=
  if startsWithL openT l then
    (findLazyCloseNE closeT (l.drop openT.length)).map
      (fun p => (pre ++ p.1 ++ post, p.2))
  else none

/-- Matcher for `\[url=(.*?)\](.*?)\[\/url\]` starting after `[url=`: lazy
group one grows (through backtracking) past `]` characters whose remainder
cannot complete the match. -/
def findUrlSplit : List Char → Option (List Char × List Char × List Char)
  | [] => none
  | c :: cs =>
      if c = ']' then
        match findLazyClose "[/url]".data cs with
        | some (g2, rest) => some ([], g2, rest)
        | none =>
            (findUrlSplit cs).map (fun p => (']' :: p.1, p.2.1, p.2.2))
      else if c = '\n' then none
      else (findUrlSplit cs).map (fun p => (c :: p.1, p.2.1, p.2.2))

/-- `.replace(/\[url=(.*?)\](.*?)\[\/url\]/g, "[$2]($1)")`. -/
def bbUrlMatch (l : List Char) : Option (List Char × List Char) :=
  if startsWithL "[url=".data l then
    (findUrlSplit (l.drop 5)).map
      (fun p => ("[".data ++ p.2.1 ++ "](".data ++ p.1 ++ ")".data, p.2.2))
  else none

/-- The `[b]` pass matcher. -/
def bbBoldM : List Char → Option (List Char × List Char) :=
  tagPairMatch "[b]".data "[/b]".data "**".data "**".data

/-- The `[i]` pass matcher. -/
def bbItalM : List Char → Option (List Char × List Char) :=
  tagPairMatch "[i]".data "[/i]".data "*".data "*".data

/-- The `[u]` pass matcher. -/
def bbUnderM : List Char → Option (List Char × List Char) :=
  tagPairMatch "[u]".data "[/u]".data "__".data "__".data

/-- The `[code]` pass matcher. -/
def bbCodeM : List Char → Option (List Char × List Char) :=
  tagPairMatch "[code]".data "[/code]".data "`".data "`".data

/-- `bbToMarkdown(text)` (client source 1148-1155): five sequential global
replacements. -/
def bbToMarkdown (text : String) : String :=
  let l0 := text.data
  let l1 := replScan bbBoldM l0
  let l2 := replScan bbItalM l1
  let l3 := replScan bbUnderM l2
  let l4 := replScan bbUrlMatch l3
  let l5 := replScan bbCodeM l4
  String.mk l5

/-- Lazy close across newlines (`[\s\S]*?` followed by the literal
`close`). -/
def findLazyCloseAny (close : List Char) : List Char → Option (List Char × List Char)
  | [] => none
  | c :: cs =>
      if startsWithL close (c :: cs) then some ([], (c :: cs).drop close.length)
      else (findLazyCloseAny close cs).map (fun p => (c :: p.1, p.2))

/-- Matcher for fenced code blocks
`` /```[\w]*\n?([\s\S]*?)```/g `` with the function replacement that
tab-indents each line of the trimmed content. -/
def fenceMatch (l : List Char) : Option (List Char × List Char) :=
  if startsWithL "```".data l then
    let afterTicks := l.drop 3
    let lang := afterTicks.takeWhile isWordChar
    let afterLang := afterTicks.drop lang.length
    let afterNl :=
      match afterLang with
      | '\n' :: r => r
      | _ => afterLang
    match findLazyCloseAny "```".data afterNl with
    | some (content, rest) =>
        let body := (trimL content).splitOn '\n'
        some (List.intercalate ['\n'] (body.map (fun ln => '\t' :: ln)), rest)
    | none => none
  else none

/-- One line through `/^#{1,6}\s+(.+)$/gm → "[B]$1[/B]"` (line-local). -/
def headerLine (line : List Char) : List Char :=
  let hashes := line.takeWhile (fun c => c = '#')
  if hashes.isEmpty || hashes.length > 6 then line
  else
    let afterH := line.drop hashes.length
    let w := afterH.takeWhile isJsWS
    let content := afterH.drop w.length
    if w.isEmpty then line
    else if content.isEmpty then
      -- `(.+)` backtracks into the whitespace run when nothing follows it
      if w.length ≥ 2 then
        "[B]".data ++ [w.getLastD ' '] ++ "[/B]".data
      else line
    else "[B]".data ++ content ++ "[/B]".data

/-- One line through `/^[\*\-]\s+(.+)$/gm → "• $1"` (line-local). -/
def listLine (line : List Char) : List Char :=
  match line with
  | c :: cs =>
      if c = '*' || c = '-' then
        let w := cs.takeWhile isJsWS
        let content := cs.drop w.length
        if w.isEmpty then line
        else if content.isEmpty then
          if w.length ≥ 2 then "• ".data ++ [w.getLastD ' '] else line
        else "• ".data ++ content
      else line
  | [] => line

/-- One line through `/^\|[\s\-:|]+\|$/gm → ""` (line-local). -/
def tableSepLine (line : List Char) : List Char :=
  match line with
  | '|' :: cs =>
      match cs.reverse with
      | '|' :: midRev =>
          let mid := midRev.reverse
          if mid.isEmpty then line
          else if mid.all (fun c => isJsWS c || c = '-' || c = ':' || c = '|') then []
          else line
      | _ => line
  | _ => line

/-- Matcher for `/\s*\|\s*/g → " | "` inside a table row. -/
def cellSepMatch (l : List Char) : Option (List Char × List Char) :=
  let w1 := l.takeWhile isJsWS
  match l.drop w1.length with
  | '|' :: rest =>
      let w2 := rest.takeWhile isJsWS
      some (" | ".data, rest.drop w2.length)
  | _ => none

/-- One line through `/^\|\s*(.+?)\s*\|$/gm` with the cell-separator
replacement applied to the captured content (line-local). -/
def tableRowLine (line : List Char) : List Char :=
  match line with
  | '|' :: cs =>
      match cs.reverse with
      | '|' :: midRev =>
          let mid := midRev.reverse
          let content := trimL mid
          if mid.isEmpty then line
          else if content.isEmpty then
            -- `(.+?)` backtracks into the whitespace and captures its last
            -- character
            [mid.getLastD ' ']
          else replScan cellSepMatch content
      | _ => line
  | _ => line

/-- One line through `/^[-*]{3,}$/gm → "────────────"` (line-local). -/
def hrLine (line : List Char) : List Char :=
  if line.length ≥ 3 ∧ line.all (fun c => c = '-' || c = '*') then
    "────────────".data
  else line

/-- One line through `/^>\s?(.*)$/gm → ">>$1"` (line-local). -/
def quoteLine (line : List Char) : List Char :=
  match line with
  | '>' :: cs =>
      match cs with
      | d :: rest => if isJsWS d then ">>".data ++ rest else ">>".data ++ cs
      | [] => ">>".data
  | _ => line

/-- Apply a line-local rewrite to every line. -/
def mapLines (f : List Char → List Char) (l : List Char) : List Char :=
  List.intercalate ['\n'] ((l.splitOn '\n').map f)

/-- `startsWithCIL pat l` : case-insensitive literal prefix test. -/
def startsWithCIL : List Char → List Char → Bool
  | [], _ => true
  | _ :: _, [] => false
  | p :: ps, c :: cs => p.toLower == c.toLower && startsWithCIL ps cs

/-- The negated character class `[^\s<>\[\]"']` of the raw-URL pattern. -/
def isUrlChar (c : Char) : Bool :=
  !(isJsWS c) && c ≠ '<' && c ≠ '>' && c ≠ '[' && c ≠ ']' &&
    c ≠ quoteChar && c ≠ aposChar

/-- The trailing-punctuation class `[)\].,!?;:']` stripped from a matched
raw URL. -/
def urlTrailPunct (c : Char) : Bool :=
  c = ')' || c = ']' || c = '.' || c = ',' || c = '!' || c = '?' ||
    c = ';' || c = ':' || c = aposChar

/-- Match `https?:\/\/[^\s<>\[\]"']+` (case-insensitive) at the head,
returning the matched URL and the remainder. -/
def rawUrlMatch (l : List Char) : Option (List Char × List Char) :=
  if startsWithCIL "http".data l then
    let rest4 := l.drop 4
    let hasS := startsWithCIL "s".data rest4
    let restS := if hasS then rest4.drop 1 else rest4
    if startsWithL "://".data restS then
      let body := (restS.drop 3).takeWhile isUrlChar
      if body.isEmpty then none
      else
        let n := 4 + (if hasS then 1 else 0) + 3 + body.length
        some (l.take n, l.drop n)
    else none
  else none

/-- The function replacement of the raw-URL pass: wrap in `[URL]...[/URL]`,
keeping a trailing punctuation run outside the wrapped span. -/
def wrapRawUrl (url : List Char) : List Char :=
  let trail := url.reverse.takeWhile urlTrailPunct
  if trail.isEmpty then "[URL]".data ++ url ++ "[/URL]".data
  else
    "[URL]".data ++ url.take (url.length - trail.length) ++ "[/URL]".data ++
      trail.reverse

/-- The raw-URL pass
`/(?<![=\]])(https?:\/\/[^\s<>\[\]"']+)/gi`: a scanner that carries the
previous character of the original string for the negative lookbehind. -/
def rawUrlGo : Nat → Option Char → List Char → List Char
  | 0, _, l => l
  | _ + 1, _, [] => []
  | fuel + 1, prev, c :: cs =>
      let lookOk :=
        match prev with
        | some p => p ≠ '=' && p ≠ ']'
        | none => true
      if lookOk then
        match rawUrlMatch (c :: cs) with
        | some (url, rest) =>
            wrapRawUrl url ++ rawUrlGo fuel (some (url.getLastD ' ')) rest
        | none => c :: rawUrlGo fuel (some c) cs
      else c :: rawUrlGo fuel (some c) cs

/-- Matcher for `(\s)\*([^*\n]+)\*(\s|$)` with replacement
`$1[I]$2[/I]$3` (the marker character is a parameter so the `_` variant can
share it). -/
def italMatch (marker : Char) (l : List Char) : Option (List Char × List Char) :=
  match l with
  | c :: cs =>
      if isJsWS c then
        match cs with
        | m :: cs2 =>
            if m = marker then
              let content := cs2.takeWhile (fun x => x ≠ marker && x ≠ '\n')
              if content.isEmpty then none
              else
                match cs2.drop content.length with
                | m2 :: cs3 =>
                    if m2 = marker then
                      match cs3 with
                      | [] => some ([c] ++ "[I]".data ++ content ++ "[/I]".data, [])
                      | d :: cs4 =>
                          if isJsWS d then
                            some ([c] ++ "[I]".data ++ content ++ "[/I]".data ++ [d],
                              cs4)
                          else none
                    else none
                | [] => none
            else none
        | [] => none
      else none
  | [] => none

/-- Matcher for `` /`([^`]+)`/g → "[B]$1[/B]" `` (inline code becomes bold:
the target markup has no code tag). -/
def inlineCodeMatch (l : List Char) : Option (List Char × List Char) :=
  match l with
  | '`' :: cs =>
      let content := cs.takeWhile (fun c => c ≠ '`')
      if content.isEmpty then none
      else
        match cs.drop content.length with
        | '`' :: rest => some ("[B]".data ++ content ++ "[/B]".data, rest)
        | _ => none
  | _ => none

/-- Matcher for `\[([^\]]+)\]\(([^)]+)\)` → `[URL=$2]$1[/URL]`. -/
def mdLinkMatch (l : List Char) : Option (List Char × List Char) :=
  match l with
  | '[' :: cs =>
      let g1 := cs.takeWhile (fun c => c ≠ ']')
      if g1.isEmpty then none
      else
        match cs.drop g1.length with
        | ']' :: '(' :: cs2 =>
            let g2 := cs2.takeWhile (fun c => c ≠ ')')
            if g2.isEmpty then none
            else
              match cs2.drop g2.length with
              | ')' :: rest =>
                  some ("[URL=".data ++ g2 ++ "]".data ++ g1 ++ "[/URL]".data, rest)
              | _ => none
        | _ => none
  | _ => none

/-- Matcher for `\n{3,}` → `\n\n`. -/
def squeezeMatch (l : List Char) : Option (List Char × List Char) :=
  let run := l.takeWhile (fun c => c = '\n')
  if run.length ≥ 3 then some ("\n\n".data, l.drop run.length) else none

/-- The `**` bold pass matcher. -/
def mdBoldM : List Char → Option (List Char × List Char) :=
  lazyPairNEMatch "**".data "**".data "[B]".data "[/B]".data

/-- The `__` bold pass matcher. -/
def mdBoldUnderM : List Char → Option (List Char × List Char) :=
  lazyPairNEMatch "__".data "__".data "[B]".data "[/B]".data

/-- The `~~` strikethrough pass matcher. -/
def mdStrikeM : List Char → Option (List Char × List Char) :=
  lazyPairNEMatch "~~".data "~~".data "[S]".data "[/S]".data

/-- `markdownToBb(text)` (client source 1162-1233): the full replacement
pipeline in source order.  The surrounding try/catch returns the input
unchanged on an exception; the embedded passes are total, so it never
fires. -/
def markdownToBb (text : String) : String :=
  let l0 := text.data
  -- code blocks → tab-indented lines
  let l1 := replScan fenceMatch l0
  -- headers → bold
  let l2 := mapLines headerLine l1
  -- bold ** and __
  let l3 := replScan mdBoldM l2
  let l4 := replScan mdBoldUnderM l3
  -- inline code
  let l5 := replScan inlineCodeMatch l4
  -- links
  let l6 := replScan mdLinkMatch l5
  -- raw URLs
  let l7 := rawUrlGo l6.length none l6
  -- italic * and _
  let l8 := replScan (italMatch '*') l7
  let l9 := replScan (italMatch '_') l8
  -- strikethrough
  let l10 := replScan mdStrikeM l9
  -- unordered lists
  let l11 := mapLines listLine l10
  -- tables
  let l12 := mapLines tableSepLine l11
  let l13 := mapLines tableRowLine l12
  -- horizontal rules
  let l14 := mapLines hrLine l13
  -- blockquotes
  let l15 := mapLines quoteLine l14
  -- clean up extra blank lines
  let l16 := replScan squeezeMatch l15
  String.mk (trimL l16)

/-! ### Concrete fixtures used by witnesses and counterexamples -/

/-- A message event with every optional field absent. -/
def emptyMsgEvent : MsgEvent :=
  { params_FROM_USER_ID := none, params_AUTHOR_ID := none, data_AUTHOR_ID := none,
    data_FROM_USER_ID := none, user_ID := none, user_NAME := none,
    params_MESSAGE := none, data_MESSAGE := none, params_FILES := none,
    params_PARAMS := none, data_ATTACHMENTS_len := 0, bot_BOT_ID := none,
    params_DIALOG_ID := none, data_DIALOG_ID := none }

/-- A command event with every optional field absent. -/
def emptyCmdEvent : CmdEvent :=
  { cmd_COMMAND := none, data_COMMAND := none, cmd_COMMAND_ID := none,
    cmd_COMMAND_PARAMS := none, params_FROM_USER_ID := none, user_ID := none,
    data_AUTHOR_ID := none, params_DIALOG_ID := none, user_NAME := none }

/-- A dispatch oracle whose promise resolves with no deliveries. -/
def quietDispatchEnv : DispatchEnv :=
  { outcome := .completes none, delivered := [], fallbackSendFails := false }

/-! ### Round-trip sublanguage for the markup converter

The fixed sublanguage of the round-trip claim: a text is a list of segments
— plain words, bold tags, italic tags, link tags and bare URLs — joined by
single spaces.  Contents are non-empty words of lowercase letters, and URLs
are `https://` followed by such a word.  Each segment has one rendering per
conversion stage; `segR` selects the stage per constructor, so every
intermediate string of the two pipelines is `joinR` at suitable stage
indices (0 = CRM bracket form, 1 = markdown form, 2 = upper-case bracket
form; for bare URLs 0 = raw, 1 = `[URL]`-wrapped). -/

/-- A segment of the round-trip sublanguage. -/
inductive Seg where
  | plain (s : List Char)
  | bold (s : List Char)
  | ital (s : List Char)
  | link (u : List Char) (t : List Char)
  | url (u : List Char)

/-- Lowercase ASCII letter. -/
def lcLetter (c : Char) : Bool := 'a' ≤ c && c ≤ 'z'

/-- A non-empty all-letter word. -/
def lettersOnly (s : List Char) : Bool := !s.isEmpty && s.all lcLetter

/-- Is the segment an italic tag? -/
def isItal : Seg → Bool
  | .ital _ => true
  | _ => false

/-- Per-segment content validity. -/
def validSeg : Seg → Bool
  | .plain s => lettersOnly s
  | .bold s => lettersOnly s
  | .ital s => lettersOnly s
  | .link u t => lettersOnly u && lettersOnly t
  | .url u => lettersOnly u

/-- Validity of a segment list: contents are words, and no italic segment
immediately follows another italic segment (the italic regex consumes the
separating space, so the second of two adjacent italics is not converted —
see the counterexample discussion). -/
def validSegs : List Seg → Bool
  | [] => true
  | [s] => validSeg s
  | s1 :: s2 :: rest =>
      validSeg s1 && !(isItal s1 && isItal s2) && validSegs (s2 :: rest)

/-- A valid text additionally does not start with an italic segment (the
italic regex needs a preceding whitespace character, so a leading italic is
lost — the counterexample). -/
def validText (L : List Seg) : Bool :=
  match L with
  | [] => true
  | s :: _ => !(isItal s) && validSegs L

/-- Bold-segment rendering per stage. -/
def boldForm : Nat → List Char → List Char
  | 0, s => "[b]".data ++ s ++ "[/b]".data
  | 1, s => "**".data ++ s ++ "**".data
  | _, s => "[B]".data ++ s ++ "[/B]".data

/-- Italic-segment rendering per stage. -/
def italForm : Nat → List Char → List Char
  | 0, s => "[i]".data ++ s ++ "[/i]".data
  | 1, s => "*".data ++ s ++ "*".data
  | _, s => "[I]".data ++ s ++ "[/I]".data

/-- Link-segment rendering per stage. -/
def linkForm : Nat → List Char → List Char → List Char
  | 0, u, t => "[url=".data ++ ("https://".data ++ u) ++ "]".data ++ t ++ "[/url]".data
  | 1, u, t => "[".data ++ t ++ "](".data ++ ("https://".data ++ u) ++ ")".data
  | _, u, t => "[URL=".data ++ ("https://".data ++ u) ++ "]".data ++ t ++ "[/URL]".data

/-- Bare-URL rendering per stage. -/
def urlForm : Nat → List Char → List Char
  | 0, u => "https://".data ++ u
  | _, u => "[URL]".data ++ ("https://".data ++ u) ++ "[/URL]".data

/-- Stage-indexed segment rendering. -/
def segR (b i lk uf : Nat) : Seg → List Char
  | .plain s => s
  | .bold s => boldForm b s
  | .ital s => italForm i s
  | .link u t => linkForm lk u t
  | .url u => urlForm uf u

/-- Join segment renderings with single spaces. -/
def joinSegs (f : Seg → List Char) : List Seg → List Char
  | [] => []
  | [s] => f s
  | s :: s2 :: rest => f s ++ ' ' :: joinSegs f (s2 :: rest)

/-- The whole text at a given stage. -/
def joinR (b i lk uf : Nat) (L : List Seg) : List Char :=
  joinSegs (segR b i lk uf) L

/-- The character pool of every stage rendering (used to rule out the
trigger characters of the passes that must act as the identity). -/
def c9Char (c : Char) : Bool :=
  lcLetter c || c = ' ' || c = '[' || c = ']' || c = '/' || c = '*' ||
    c = '(' || c = ')' || c = ':' || c = '=' || c = 'B' || c = 'I' ||
    c = 'U' || c = 'R' || c = 'L'

/-- The character pool of the segment renderings themselves (no space: the
space appears only as the join separator). -/
def c9SegChar (c : Char) : Bool :=
  lcLetter c || c = '[' || c = ']' || c = '/' || c = '*' || c = '(' ||
    c = ')' || c = ':' || c = '=' || c = 'B' || c = 'I' || c = 'U' ||
    c = 'R' || c = 'L'

/-- A concrete valid text exercising all five segment kinds. -/
def c9L0 : List Seg :=
  [.plain "hi".data, .bold "a".data, .ital "b".data,
   .link "x".data "t".data, .url "y".data]

/-- No non-empty suffix of `a`, continued by `b`, begins a match of `M`. -/
def SuffixSafe (M : List Char → Option (List Char × List Char))
    (a b : List Char) : Prop :=
  ∀ s1 s2, a = s1 ++ s2 → s2 ≠ [] → M (s2 ++ b) = none

/-- The continuation after a segment rendering: either the end of the text
or a space separator. -/
def headOk (b : List Char) : Prop :=
  b = [] ∨ ∃ t, b = ' ' :: t

/-- Is there a position below the end of both lists where they differ?  If
so, the pattern can never match there, whatever follows. -/
def mismatchB : List Char → List Char → Bool
  | _, [] => false
  | [], _ => false
  | p :: ps, c :: cs => p ≠ c || mismatchB ps cs

/-- A matcher that recognises exactly the occurrence of a literal pattern
(used to express that a pattern occurs nowhere in a string). -/
def patM (pat : List Char) (l : List Char) : Option (List Char × List Char) :=
  if startsWithL pat l = true then some ([], []) else none

/-- Every non-empty suffix of `l` fails to start a match of `M`. -/
def AllSafe (M : List Char → Option (List Char × List Char)) (l : List Char) : Prop :=
  ∀ s1 s2, l = s1 ++ s2 → s2 ≠ [] → M s2 = none

/-- The continuation after a segment in a joined text: the end, or a space
followed by the join of a valid non-empty remainder at the same stage. -/
def joinTail (f : Seg → List Char) (b : List Char) : Prop :=
  b = [] ∨ ∃ s2 rest, b = ' ' :: joinSegs f (s2 :: rest) ∧ validSegs (s2 :: rest) = true

/-! ## Theorems -/

/-! ### Shared helper lemmas -/

theorem startsWithL_append_of (pat a : List Char) (b : List Char)
    (h : startsWithL pat a = true) : startsWithL pat (a ++ b) = true := by
  induction pat generalizing a with
  | nil => simp [startsWithL]
  | cons p ps ih =>
      cases a with
      | nil => simp [startsWithL] at h
      | cons c cs =>
          simp only [startsWithL, Bool.and_eq_true, beq_iff_eq] at h
          simp only [List.cons_append, startsWithL, Bool.and_eq_true, beq_iff_eq]
          exact ⟨h.1, ih cs h.2⟩

theorem isInfixL_append_left (pat a b : List Char)
    (h : isInfixL pat a = true) : isInfixL pat (a ++ b) = true := by
  induction a with
  | nil =>
      cases pat with
      | nil =>
          cases b with
          | nil => simpa using h
          | cons x xs => simp [isInfixL, startsWithL]
      | cons p ps => simp [isInfixL, startsWithL] at h
  | cons c cs ih =>
      simp only [isInfixL, Bool.or_eq_true] at h
      rcases h with h | h
      · simp only [List.cons_append, isInfixL, Bool.or_eq_true]
        exact Or.inl (startsWithL_append_of pat (c :: cs) b h)
      · simp only [List.cons_append, isInfixL, Bool.or_eq_true]
        exact Or.inr (ih h)

theorem isInfixL_append_right (pat a b : List Char)
    (h : isInfixL pat b = true) : isInfixL pat (a ++ b) = true := by
  induction a with
  | nil => simpa using h
  | cons c cs ih =>
      simp only [List.cons_append, isInfixL, Bool.or_eq_true]
      exact Or.inr ih

theorem verifySecret_eq_false_of_ne (account : AccountCfg) (secret : Option String)
    (h : secret ≠ some account.webhookSecret) :
    verifySecret account secret = false := by
  unfold verifySecret
  split
  · rfl
  · cases secret with
    | none => rfl
    | some s =>
        simp only
        split
        · rfl
        · rename_i hcond
          push_neg at hcond
          exact absurd (congrArg Option.some hcond.2) h

/-! ### C1 — secret verification -/

/-- C1 counterexample: the claim asserts acceptance follows from the secret
pair alone, but with an empty configured `domain` and matching non-empty
secrets the code still rejects.  Such an account is reachable from a
configuration with `webhookSecret` set and no `domain`. -/
theorem c1_counterexample :
    resolveBitrix24AccountDefault
        (some { domain := none, webhookSecret := some "s" })
      = { domain := "", webhookSecret := "s" } ∧
    (some "s" = some ("s" : String)) ∧ ("s" : String) ≠ "" ∧
    verifySecret { domain := "", webhookSecret := "s" } (some "s") = false := by
  refine ⟨rfl, rfl, by decide, by decide⟩

/-- C1 (amended): a webhook request is accepted iff the supplied secret
equals the configured secret, the configured secret is non-empty, AND the
configured domain is non-empty; every other combination is treated as
unverified. -/
theorem c1_secret_verification_amended (account : AccountCfg) (secret : Option String) :
    verifySecret account secret = true ↔
      account.domain ≠ "" ∧ account.webhookSecret ≠ "" ∧
        secret = some account.webhookSecret := by
  unfold verifySecret
  constructor
  · intro h
    split at h
    · exact absurd h (by simp)
    · rename_i hne
      push_neg at hne
      cases secret with
      | none => exact absurd h (by simp)
      | some s =>
          simp only at h
          split at h
          · exact absurd h (by simp)
          · rename_i hcond
            push_neg at hcond
            exact ⟨hne.1, hne.2, by rw [hcond.2]⟩
  · rintro ⟨hd, hw, rfl⟩
    split
    · rename_i hor
      rcases hor with h | h
      · exact absurd h hd
      · exact absurd h hw
    · simp only
      split
      · rename_i hor
        rcases hor with h | h
        · exact absurd h hw
        · exact absurd rfl h
      · rfl

/-! ### C5 — attachment categorisation -/

/-- C5 counterexample: `"invoice.pdf"` contains `"voice"` as a substring and
the voice-keyword rule runs before the document rule, so the pair
`("application/pdf", "invoice.pdf")` is categorised `voice`, not `document`
as the claim states. -/
theorem c5_counterexample :
    categorizeAttachment "application/pdf" "invoice.pdf" = .voice ∧
    AttachmentCategory.voice ≠ .document := by
  exact ⟨by decide, by decide⟩

/-- C5 (amended): `categorizeAttachment` is a pure function of
`(mimeType, fileName)` (it is a Lean function of exactly that pair), and on
the three cited inputs it yields `voice`, `voice` (not `document` — the
filename contains the substring `"voice"`), and `image` respectively. -/
theorem c5_categorization_amended :
    categorizeAttachment "audio/ogg" "voice_msg.oga" = .voice ∧
    categorizeAttachment "application/pdf" "invoice.pdf" = .voice ∧
    categorizeAttachment "" "photo.jpg" = .image := by
  exact ⟨by decide, by decide, by decide⟩

/-! ### C8 — REST client rate limiting -/

theorem waitForRateLimit_spec (st : RateLimitState) (now : Int) :
    (waitForRateLimit st now).2.lastRequestTime = (waitForRateLimit st now).1 ∧
    (waitForRateLimit st now).2.minWait = st.minWait ∧
    st.lastRequestTime + st.minWait ≤ (waitForRateLimit st now).1 := by
  unfold waitForRateLimit
  dsimp only
  split
  · rename_i h
    refine ⟨rfl, rfl, by omega⟩
  · rename_i h
    refine ⟨rfl, rfl, by omega⟩

theorem runCalls_chain_aux (w : Int) (arrivals : List Int) :
    ∀ (st : RateLimitState), st.minWait = w →
      List.Chain' (fun a b => a + w ≤ b) (runCalls st arrivals) ∧
      (∀ t ∈ (runCalls st arrivals).head?, st.lastRequestTime + w ≤ t) := by
  induction arrivals with
  | nil => intro st hw; simp [runCalls]
  | cons n rest ih =>
      intro st hw
      obtain ⟨h1, h2, h3⟩ := waitForRateLimit_spec st n
      have ihr := ih (waitForRateLimit st n).2 (by rw [h2, hw])
      have hrw : runCalls st (n :: rest) =
          (waitForRateLimit st n).1 :: runCalls (waitForRateLimit st n).2 rest := rfl
      constructor
      · rw [hrw, List.chain'_cons']
        refine ⟨?_, ihr.1⟩
        intro y hy
        have := ihr.2 y hy
        rw [h1] at this
        exact this
      · intro t ht
        rw [hrw] at ht
        simp only [List.head?_cons, Option.mem_def, Option.some.injEq] at ht
        subst ht
        rw [← hw]
        exact h3

/-- C8: every `callApi` begins with `waitForRateLimit`, which suspends until
at least `minWait` has elapsed since the previous recorded start time: the
new recorded start time is at least `minWait` after the previous one, the
call proceeds exactly at the recorded time, the constructor default is
1000 ms, and over any sequence of sequential calls on one instance the
consecutive recorded start times are at least 1000 ms apart.  (Time is
idealised: `setTimeout` resumes exactly on schedule, and calls on the
instance are sequential, as in the per-request webhook clients.) -/
theorem c8_rate_limit_min_interval :
    initRateLimit.minWait = 1000 ∧
    (∀ (st : RateLimitState) (now : Int),
        st.minWait ≤ (waitForRateLimit st now).2.lastRequestTime - st.lastRequestTime ∧
        (waitForRateLimit st now).1 = (waitForRateLimit st now).2.lastRequestTime) ∧
    (∀ arrivals : List Int,
        List.Chain' (fun a b => a + 1000 ≤ b) (runCalls initRateLimit arrivals)) := by
  refine ⟨rfl, ?_, ?_⟩
  · intro st now
    obtain ⟨h1, _, h3⟩ := waitForRateLimit_spec st now
    constructor
    · rw [h1]; omega
    · exact h1.symm
  · intro arrivals
    exact (runCalls_chain_aux 1000 arrivals initRateLimit rfl).1

/-! ### C10 — typing indicator never rejects -/

/-- C10: `sendTyping` resolves for every outcome of the underlying
`callApi`: with `success = true` and the API result on success, and with
`success = false` and the error string when `callApi` throws.  As a total
Lean function into `TypingResult` (not `Except`), it cannot reject, so a
typing-indicator failure can never abort the calling pipeline. -/
theorem c10_sendTyping_never_rejects (duration : Nat) (r e : String) :
    sendTyping duration (.ok r) =
      { success := true, result := some r, error := none,
        duration := some duration, note := none } ∧
    sendTyping duration (.error e) =
      { success := false, result := none, error := some e, duration := none,
        note := some "Typing indicator failed but continuing" } ∧
    (sendTyping duration (.error e)).success = false := by
  exact ⟨rfl, rfl, rfl⟩

/-! ### Pipeline helper lemmas -/

theorem handleIncomingMessage_unverified (m : MsgEvent) (secret : Option String)
    (account : AccountCfg) (env : MsgEnv)
    (h : verifySecret account secret = false) :
    handleIncomingMessage m secret account env = ([], none) := by
  unfold handleIncomingMessage
  cases extractFromUserId m with
  | none => rfl
  | some uid =>
      dsimp only
      rw [h]
      split_ifs <;> simp_all

theorem handleIncomingCommand_unverified (c : CmdEvent) (secret : Option String)
    (account : AccountCfg) (env : CmdEnv)
    (h : verifySecret account secret = false) :
    handleIncomingCommand c secret account env = ([], none) := by
  unfold handleIncomingCommand
  dsimp only
  rw [h]
  split_ifs <;> simp_all

/-! ### C2 — wrong secret: zero REST calls, still HTTP 200 -/

/-- C2: for a message or command event whose supplied secret differs from
the configured webhook secret, the pipeline makes zero outbound REST calls
(no typing indicator, no file-info fetch, no send) and the HTTP response is
still `200 {"success":true}` — for every event payload and every
collaborator behaviour. -/
theorem c2_wrong_secret_silent_ack (m : MsgEvent) (c : CmdEvent) (acct : AccountCfg)
    (secret : Option String) (menv : MsgEnv) (cenv : CmdEnv)
    (h : secret ≠ some acct.webhookSecret) :
    handleBitrix24Webhook false
        { event := some "ONIMMESSAGEADD", hasData := true, msg := m, cmd := c }
        secret acct menv cenv = ({ status := 200, body := successBody }, []) ∧
    handleBitrix24Webhook false
        { event := some "ONIMBOTMESSAGEADD", hasData := true, msg := m, cmd := c }
        secret acct menv cenv = ({ status := 200, body := successBody }, []) ∧
    handleBitrix24Webhook false
        { event := some "ONIMCOMMANDADD", hasData := true, msg := m, cmd := c }
        secret acct menv cenv = ({ status := 200, body := successBody }, []) := by
  have hv := verifySecret_eq_false_of_ne acct secret h
  have hm := handleIncomingMessage_unverified m secret acct menv hv
  have hc := handleIncomingCommand_unverified c secret acct cenv hv
  refine ⟨?_, ?_, ?_⟩
  · have e : handleBitrix24Webhook false
        { event := some "ONIMMESSAGEADD", hasData := true, msg := m, cmd := c }
        secret acct menv cenv
        = ({ status := 200, body := successBody },
           (handleIncomingMessage m secret acct menv).1) := rfl
    rw [e, hm]
  · have e : handleBitrix24Webhook false
        { event := some "ONIMBOTMESSAGEADD", hasData := true, msg := m, cmd := c }
        secret acct menv cenv
        = ({ status := 200, body := successBody },
           (handleIncomingMessage m secret acct menv).1) := rfl
    rw [e, hm]
  · have e : handleBitrix24Webhook false
        { event := some "ONIMCOMMANDADD", hasData := true, msg := m, cmd := c }
        secret acct menv cenv
        = (match (handleIncomingCommand c secret acct cenv).2 with
           | none => ({ status := 200, body := successBody },
               (handleIncomingCommand c secret acct cenv).1)
           | some _ => ({ status := 500, body := internalErrorBody },
               (handleIncomingCommand c secret acct cenv).1)) := rfl
    rw [e, hc]

/-- C2 witness. -/
theorem c2_wrong_secret_silent_ack_witness :
    handleBitrix24Webhook false
        { event := some "ONIMMESSAGEADD", hasData := true,
          msg := emptyMsgEvent, cmd := emptyCmdEvent }
        (some "wrong") { domain := "d", webhookSecret := "s" }
        { enrichCalls := [], dispatch := quietDispatchEnv }
        { ctxThrows := false, dispatch := quietDispatchEnv }
      = ({ status := 200, body := successBody }, []) :=
  (c2_wrong_secret_silent_ack emptyMsgEvent emptyCmdEvent
      { domain := "d", webhookSecret := "s" } (some "wrong")
      { enrichCalls := [], dispatch := quietDispatchEnv }
      { ctxThrows := false, dispatch := quietDispatchEnv }
      (by decide)).1

/-! ### C7 — loop prevention -/

/-- C7: a message event whose extracted author id equals the bot id embedded
in the payload BOT metadata is dropped silently — the handler produces zero
outbound calls and no exception, for every secret and account (in
particular, before and independently of secret verification). -/
theorem c7_loop_prevention (m : MsgEvent) (uid : String) (secret : Option String)
    (acct : AccountCfg) (menv : MsgEnv)
    (h1 : extractFromUserId m = some uid) (h2 : uid ≠ "")
    (h3 : m.bot_BOT_ID = some uid) :
    handleIncomingMessage m secret acct menv = ([], none) := by
  unfold handleIncomingMessage
  rw [h1]
  dsimp only
  rw [if_neg h2]
  split_ifs with he hb hv
  · rfl
  · rfl
  · rfl
  · rw [h3] at hb
    simp at hb

/-- C7 witness: a concrete self-authored event (author id `7` equals the
embedded bot id `7`) with a correct secret still produces no calls. -/
theorem c7_loop_prevention_witness :
    handleIncomingMessage
        { emptyMsgEvent with
          params_FROM_USER_ID := some "7",
          params_MESSAGE := some "hi",
          bot_BOT_ID := some "7" }
        (some "s") { domain := "d", webhookSecret := "s" }
        { enrichCalls := [], dispatch := quietDispatchEnv }
      = ([], none) :=
  c7_loop_prevention _ "7" (some "s") { domain := "d", webhookSecret := "s" }
    { enrichCalls := [], dispatch := quietDispatchEnv }
    (by decide) (by decide) rfl

/-! ### C3 — webhook response codes -/

/-- C3 counterexample: a parsed body in which both fields are present —
`event` is the empty string (as every form-encoded body without an `event`
parameter yields) and `data` is truthy — is answered with
`400 {"error":"Invalid payload"}`, not acknowledged with 200: the guard
tests JS truthiness, not presence. -/
theorem c3_counterexample :
    handleBitrix24Webhook false
        { event := some "", hasData := true, msg := emptyMsgEvent, cmd := emptyCmdEvent }
        none { domain := "d", webhookSecret := "s" }
        { enrichCalls := [], dispatch := quietDispatchEnv }
        { ctxThrows := false, dispatch := quietDispatchEnv }
      = ({ status := 400, body := invalidPayloadBody }, []) ∧
    (some "" : Option String) ≠ none ∧ (400 : Nat) ≠ 200 := by
  refine ⟨rfl, by decide, by decide⟩

/-- C3 (amended): the handler responds `400 {"error":"Invalid payload"}`
with no further processing whenever the parsed `event` field is absent or
falsy (in particular the empty string) or the `data` field is falsy; a body
with truthy `event` and `data` is acknowledged `200 {"success":true}` — for
unknown event types (with no processing at all), for message events
unconditionally, and for command events unless a collaborator exception
escapes the command handler; a parse failure or such an escaping exception
yields `500 {"error":"Internal error"}`. -/
theorem c3_response_codes_amended (ev : Option String) (hd : Bool) (m : MsgEvent)
    (c : CmdEvent) (secret : Option String) (acct : AccountCfg)
    (menv : MsgEnv) (cenv : CmdEnv) :
    (handleBitrix24Webhook true { event := ev, hasData := hd, msg := m, cmd := c }
        secret acct menv cenv = ({ status := 500, body := internalErrorBody }, [])) ∧
    (jsTruthy ev = false ∨ hd = false →
      handleBitrix24Webhook false { event := ev, hasData := hd, msg := m, cmd := c }
        secret acct menv cenv = ({ status := 400, body := invalidPayloadBody }, [])) ∧
    (jsTruthy ev = true → hd = true →
      ev ≠ some "ONIMMESSAGEADD" → ev ≠ some "ONIMBOTMESSAGEADD" →
      ev ≠ some "ONIMCOMMANDADD" →
      handleBitrix24Webhook false { event := ev, hasData := hd, msg := m, cmd := c }
        secret acct menv cenv = ({ status := 200, body := successBody }, [])) ∧
    ((handleBitrix24Webhook false
        { event := some "ONIMMESSAGEADD", hasData := true, msg := m, cmd := c }
        secret acct menv cenv).1 = { status := 200, body := successBody }) ∧
    ((handleBitrix24Webhook false
        { event := some "ONIMBOTMESSAGEADD", hasData := true, msg := m, cmd := c }
        secret acct menv cenv).1 = { status := 200, body := successBody }) ∧
    ((handleIncomingCommand c secret acct cenv).2 = none →
      (handleBitrix24Webhook false
        { event := some "ONIMCOMMANDADD", hasData := true, msg := m, cmd := c }
        secret acct menv cenv).1 = { status := 200, body := successBody }) ∧
    (∀ e, (handleIncomingCommand c secret acct cenv).2 = some e →
      (handleBitrix24Webhook false
        { event := some "ONIMCOMMANDADD", hasData := true, msg := m, cmd := c }
        secret acct menv cenv).1 = { status := 500, body := internalErrorBody }) := by
  refine ⟨rfl, ?_, ?_, rfl, rfl, ?_, ?_⟩
  · intro h
    unfold handleBitrix24Webhook
    rw [if_neg (by simp), if_pos h]
  · intro h1 h2 h3 h4 h5
    unfold handleBitrix24Webhook
    rw [if_neg (by simp)]
    rw [if_neg (by simp [h1, h2])]
    rw [if_neg (by simp [h3, h4]), if_neg (by simp [h5])]
  · intro h
    have e : handleBitrix24Webhook false
        { event := some "ONIMCOMMANDADD", hasData := true, msg := m, cmd := c }
        secret acct menv cenv
        = (match (handleIncomingCommand c secret acct cenv).2 with
           | none => ({ status := 200, body := successBody },
               (handleIncomingCommand c secret acct cenv).1)
           | some _ => ({ status := 500, body := internalErrorBody },
               (handleIncomingCommand c secret acct cenv).1)) := rfl
    rw [e, h]
  · intro er h
    have e : handleBitrix24Webhook false
        { event := some "ONIMCOMMANDADD", hasData := true, msg := m, cmd := c }
        secret acct menv cenv
        = (match (handleIncomingCommand c secret acct cenv).2 with
           | none => ({ status := 200, body := successBody },
               (handleIncomingCommand c secret acct cenv).1)
           | some _ => ({ status := 500, body := internalErrorBody },
               (handleIncomingCommand c secret acct cenv).1)) := rfl
    rw [e, h]

/-- C3 witness. -/
theorem c3_response_codes_amended_witness :
    handleBitrix24Webhook false
        { event := none, hasData := true, msg := emptyMsgEvent, cmd := emptyCmdEvent }
        none { domain := "d", webhookSecret := "s" }
        { enrichCalls := [], dispatch := quietDispatchEnv }
        { ctxThrows := false, dispatch := quietDispatchEnv }
      = ({ status := 400, body := invalidPayloadBody }, []) ∧
    handleBitrix24Webhook false
        { event := some "ONIMBOTDELETE", hasData := true,
          msg := emptyMsgEvent, cmd := emptyCmdEvent }
        none { domain := "d", webhookSecret := "s" }
        { enrichCalls := [], dispatch := quietDispatchEnv }
        { ctxThrows := false, dispatch := quietDispatchEnv }
      = ({ status := 200, body := successBody }, []) :=
  ⟨(c3_response_codes_amended none true emptyMsgEvent emptyCmdEvent none
      { domain := "d", webhookSecret := "s" }
      { enrichCalls := [], dispatch := quietDispatchEnv }
      { ctxThrows := false, dispatch := quietDispatchEnv }).2.1 (by decide),
   (c3_response_codes_amended (some "ONIMBOTDELETE") true emptyMsgEvent emptyCmdEvent none
      { domain := "d", webhookSecret := "s" }
      { enrichCalls := [], dispatch := quietDispatchEnv }
      { ctxThrows := false, dispatch := quietDispatchEnv }).2.2.1
      (by decide) rfl (by decide) (by decide) (by decide)⟩

/-! ### C4 — dispatch timeout and fallback message -/

theorem containsSub_withTimeout_hangs (e : String) (n : Nat) :
    containsSub (e ++ " (timeout after " ++ toString n ++ "ms)") "timeout" = true := by
  show isInfixL "timeout".data
      (((e.data ++ " (timeout after ".data) ++ (toString n).data) ++ "ms)".data) = true
  rw [List.append_assoc, List.append_assoc]
  apply isInfixL_append_right
  apply isInfixL_append_left
  decide

theorem cmd_fallback_texts_distinct (cn : String) :
    commandTimeoutFallbackText cn ≠ commandGenericFallbackText cn := by
  intro h
  have h2 := congrArg (fun s => s.data.take 8) h
  have e1 : (commandTimeoutFallbackText cn).data.take 8 = "Sorry, t".data := by
    show (("Sorry, the /".data ++ cn.data) ++
        " command took too long to process. Please try again.".data).take 8
      = "Sorry, t".data
    rw [List.take_append_of_le_length (by simp), List.take_append_of_le_length (by simp)]
    decide
  have e2 : (commandGenericFallbackText cn).data.take 8 = "Sorry, I".data := by
    show (("Sorry, I encountered an error processing the /".data ++ cn.data) ++
        " command.".data).take 8 = "Sorry, I".data
    rw [List.take_append_of_le_length (by simp), List.take_append_of_le_length (by simp)]
    decide
  simp only [e1, e2] at h2
  exact absurd h2 (by decide)

/-- C4: the agent dispatch is wrapped in `withTimeout` with exactly
5 minutes (300000 ms) for message events and exactly 3 minutes (180000 ms)
for command events; on a hang (timeout) or a dispatch rejection exactly one
user-facing fallback message is sent via the REST client, with the timeout
wording on timeout and the generic wording on an error whose message does
not itself contain "timeout" (the code classifies by that substring); the
two wordings are distinct; and a failure of the fallback send itself is
swallowed — the phase always returns without an exception. -/
theorem c4_dispatch_timeout_and_fallback :
    DISPATCH_TIMEOUT_MS = 5 * 60 * 1000 ∧
    COMMAND_TIMEOUT_MS = 3 * 60 * 1000 ∧
    timeoutFallbackText ≠ genericFallbackText ∧
    (∀ cn, commandTimeoutFallbackText cn ≠ commandGenericFallbackText cn) ∧
    (∀ (u r : String) (env : DispatchEnv), env.outcome = .hangs →
        messageDispatchPhase u r env =
          .ok (env.delivered ++ [RestCall.sendMessage r timeoutFallbackText])) ∧
    (∀ (u r : String) (env : DispatchEnv) (e : String),
        env.outcome = .completes (some e) → containsSub e "timeout" = false →
        messageDispatchPhase u r env =
          .ok (env.delivered ++ [RestCall.sendMessage r genericFallbackText])) ∧
    (∀ (cn d : String) (env : DispatchEnv), env.outcome = .hangs →
        commandDispatchPhase cn d env =
          .ok (env.delivered ++
            [RestCall.sendMessage d (commandTimeoutFallbackText cn)])) ∧
    (∀ (cn d : String) (env : DispatchEnv) (e : String),
        env.outcome = .completes (some e) → containsSub e "timeout" = false →
        commandDispatchPhase cn d env =
          .ok (env.delivered ++
            [RestCall.sendMessage d (commandGenericFallbackText cn)])) ∧
    (∀ (u r : String) (env : DispatchEnv), ∃ calls,
        messageDispatchPhase u r env = .ok calls) ∧
    (∀ (cn d : String) (env : DispatchEnv), ∃ calls,
        commandDispatchPhase cn d env = .ok calls) := by
  refine ⟨rfl, rfl, by decide, cmd_fallback_texts_distinct, ?_, ?_, ?_, ?_, ?_, ?_⟩
  · intro u r env henv
    unfold messageDispatchPhase
    rw [henv]
    simp only [withTimeout]
    rw [containsSub_withTimeout_hangs]
    cases hf : env.fallbackSendFails <;> simp [sendMessageOp, hf]
  · intro u r env e henv hto
    unfold messageDispatchPhase
    rw [henv]
    simp only [withTimeout]
    rw [hto]
    cases hf : env.fallbackSendFails <;> simp [sendMessageOp, hf]
  · intro cn d env henv
    unfold commandDispatchPhase
    rw [henv]
    simp only [withTimeout]
    rw [containsSub_withTimeout_hangs]
    cases hf : env.fallbackSendFails <;> simp [sendMessageOp, hf]
  · intro cn d env e henv hto
    unfold commandDispatchPhase
    rw [henv]
    simp only [withTimeout]
    rw [hto]
    cases hf : env.fallbackSendFails <;> simp [sendMessageOp, hf]
  · intro u r env
    unfold messageDispatchPhase
    cases h : withTimeout DISPATCH_TIMEOUT_MS
        ("Agent dispatch timed out for message from " ++ u) env.outcome
    · exact ⟨env.delivered, rfl⟩
    · cases hf : env.fallbackSendFails <;> simp [sendMessageOp, hf]
  · intro cn d env
    unfold commandDispatchPhase
    cases h : withTimeout COMMAND_TIMEOUT_MS
        ("Command /" ++ cn ++ " dispatch timed out") env.outcome
    · exact ⟨env.delivered, rfl⟩
    · cases hf : env.fallbackSendFails <;> simp [sendMessageOp, hf]

/-- C4 witness. -/
theorem c4_dispatch_timeout_and_fallback_witness :
    messageDispatchPhase "Alice" "42"
        { outcome := .hangs, delivered := [], fallbackSendFails := false }
      = .ok [RestCall.sendMessage "42" timeoutFallbackText] ∧
    commandDispatchPhase "help" "42"
        { outcome := .completes (some "boom"), delivered := [], fallbackSendFails := true }
      = .ok [RestCall.sendMessage "42" (commandGenericFallbackText "help")] := by
  constructor
  · have := c4_dispatch_timeout_and_fallback.2.2.2.2.1 "Alice" "42"
      { outcome := .hangs, delivered := [], fallbackSendFails := false } rfl
    simpa using this
  · have := c4_dispatch_timeout_and_fallback.2.2.2.2.2.2.2.1 "help" "42"
      { outcome := .completes (some "boom"), delivered := [], fallbackSendFails := true }
      "boom" rfl (by decide)
    simpa using this

/-! ### C6 — voice transcription temp-file cleanup -/

theorem not_mem_fsRemove_self (p : String) (fs : TempFS) : p ∉ fsRemove p fs := by
  unfold fsRemove
  intro h
  have := (List.mem_filter.mp h).2
  simp at this

theorem not_mem_fsRemove_of_not_mem (q p : String) (fs : TempFS) (h : q ∉ fs) :
    q ∉ fsRemove p fs := by
  unfold fsRemove
  intro hmem
  exact h (List.mem_filter.mp hmem).1

theorem transcribeWithQwen_no_wav (tempPath : String) (q : QwenEnv) (fs : TempFS)
    (h : qwenLeaks q = false)
    (hw : replaceExtWav tempPath ∉ fs) :
    replaceExtWav tempPath ∉ (transcribeWithQwen tempPath q fs).2 := by
  unfold transcribeWithQwen convertToWav
  unfold qwenLeaks at h
  by_cases hext : hasConvertibleExt tempPath = true
  · rw [if_pos hext]
    dsimp only
    cases hc : q.convCreatesFile with
    | false =>
        cases ht : q.execThrowsConv <;> simp [fsAdd, hc, ht, hw]
    | true =>
        cases ht : q.execThrowsConv with
        | false =>
            simpa using not_mem_fsRemove_self (replaceExtWav tempPath)
              (fsAdd (replaceExtWav tempPath) fs)
        | true => rw [hc, ht] at h; simp at h
  · rw [if_neg hext]
    exact hw

/-- C6 counterexample: with the qwen provider selected, when `ffmpeg`
creates the converted WAV but the conversion command then throws (non-zero
exit or the 30-second timeout kill), `convertToWav` returns `null`, the
`finally` block of `transcribeWithQwen` has no path to unlink, and the WAV
file survives the whole `transcribeVoiceContent` run — only the `.mp3` temp
file is deleted. -/
theorem c6_counterexample :
    transcribeVoiceContent "1" "0"
        ⟨5, .qwen, false, false, false, ⟨true, true, false, true⟩,
          ⟨false, false, false, true⟩⟩ []
      = ["/tmp/bitrix24_voice_1_0.wav"] ∧
    replaceExtWav (voiceTempPath "1" "0") = "/tmp/bitrix24_voice_1_0.wav" ∧
    ("/tmp/bitrix24_voice_1_0.wav" : String) ≠ voiceTempPath "1" "0" := by
  refine ⟨by decide, by decide, by decide⟩

/-- C6 (amended): starting from a state that does not already hold the two
paths, after any run of `transcribeVoiceContent` the temporary `.mp3` audio
file no longer exists, and the converted WAV no longer exists provided no
qwen invocation had its `ffmpeg` both create the output file and throw (in
that excluded case `convertToWav` reports failure and the WAV is leaked —
the counterexample). -/
theorem c6_cleanup_amended (idStr nowStr : String) (v : VoiceEnv) (fs : TempFS)
    (htemp : voiceTempPath idStr nowStr ∉ fs)
    (hwav : replaceExtWav (voiceTempPath idStr nowStr) ∉ fs)
    (hl1 : qwenLeaks v.qwenFirst = false) (hl2 : qwenLeaks v.qwenSecond = false) :
    voiceTempPath idStr nowStr ∉ transcribeVoiceContent idStr nowStr v fs ∧
    replaceExtWav (voiceTempPath idStr nowStr) ∉
      transcribeVoiceContent idStr nowStr v fs := by
  unfold transcribeVoiceContent
  by_cases h0 : v.bufferLen = 0
  · rw [if_pos h0]; exact ⟨htemp, hwav⟩
  rw [if_neg h0]
  by_cases h25 : v.bufferLen > 25 * 1024 * 1024
  · rw [if_pos h25]; exact ⟨htemp, hwav⟩
  rw [if_neg h25]
  by_cases hwf : v.writeFileThrows = true
  · rw [if_pos hwf]
    exact ⟨not_mem_fsRemove_self _ _, not_mem_fsRemove_of_not_mem _ _ _ hwav⟩
  rw [if_neg hwf]
  dsimp only
  refine ⟨not_mem_fsRemove_self _ _, ?_⟩
  by_cases heq : replaceExtWav (voiceTempPath idStr nowStr) = voiceTempPath idStr nowStr
  · rw [heq]; exact not_mem_fsRemove_self _ _
  · apply not_mem_fsRemove_of_not_mem
    have hfs1 : replaceExtWav (voiceTempPath idStr nowStr) ∉
        fsAdd (voiceTempPath idStr nowStr) fs := by
      intro hmem
      rcases List.mem_cons.mp hmem with h | h
      · exact heq h
      · exact hwav h
    cases hp : v.provider with
    | qwen => exact transcribeWithQwen_no_wav _ _ _ hl1 hfs1
    | openai =>
        dsimp only
        by_cases hk : v.openaiKeyFound = false
        · rw [if_pos hk]
          exact transcribeWithQwen_no_wav _ _ _ hl2 hfs1
        · rw [if_neg hk]
          by_cases hs : v.openaiSuccess = true
          · rw [if_pos hs]; exact hfs1
          · rw [if_neg hs]
            exact transcribeWithQwen_no_wav _ _ _ hl2 hfs1

/-- C6 witness. -/
theorem c6_cleanup_amended_witness :
    voiceTempPath "9" "5" ∉
      transcribeVoiceContent "9" "5"
        ⟨7, .openai, true, false, false, ⟨false, false, false, false⟩,
          ⟨true, false, false, true⟩⟩ [] ∧
    replaceExtWav (voiceTempPath "9" "5") ∉
      transcribeVoiceContent "9" "5"
        ⟨7, .openai, true, false, false, ⟨false, false, false, false⟩,
          ⟨true, false, false, true⟩⟩ [] :=
  c6_cleanup_amended "9" "5"
    ⟨7, .openai, true, false, false, ⟨false, false, false, false⟩,
      ⟨true, false, false, true⟩⟩ []
    (by simp) (by simp) rfl rfl

/-! ### C9 — markup round-trip -/

/-- C9 counterexample: the italic regex of `markdownToBb` requires a
whitespace character before the opening `*`, so the round trip of the
single italic text `[i]hello[/i]` yields the plain string `*hello*` with no
italic tag at all — the semantic tag structure is not reproduced. -/
theorem c9_counterexample :
    bbToMarkdown "[i]hello[/i]" = "*hello*" ∧
    markdownToBb (bbToMarkdown "[i]hello[/i]") = "*hello*" ∧
    containsSub "[i]hello[/i]" "[i]" = true ∧
    containsSub (markdownToBb (bbToMarkdown "[i]hello[/i]")) "[I]" = false ∧
    containsSub (markdownToBb (bbToMarkdown "[i]hello[/i]")) "[i]" = false := by
  refine ⟨by decide, by decide, by decide, by decide, by decide⟩

theorem startsWithL_self (p x : List Char) : startsWithL p (p ++ x) = true := by
  induction p with
  | nil => rfl
  | cons c cs ih => simp [startsWithL, ih]

theorem replScanGo_id (M : List Char → Option (List Char × List Char)) :
    ∀ (l : List Char) (fuel : Nat),
      (∀ s1 s2, l = s1 ++ s2 → s2 ≠ [] → M s2 = none) →
      replScanGo M fuel l = l := by
  intro l
  induction l with
  | nil => intro fuel h; cases fuel <;> rfl
  | cons c cs ih =>
      intro fuel h
      cases fuel with
      | zero => rfl
      | succ f =>
          have h0 : M (c :: cs) = none := h [] (c :: cs) rfl (by simp)
          have hrec := ih f (fun s1 s2 he hne => h (c :: s1) s2 (by rw [he]; rfl) hne)
          simp [replScanGo, h0, hrec]

theorem replScanGo_walk (M : List Char → Option (List Char × List Char)) :
    ∀ (a b : List Char) (fuel : Nat),
      a.length ≤ fuel →
      SuffixSafe M a b →
      replScanGo M fuel (a ++ b) = a ++ replScanGo M (fuel - a.length) b := by
  intro a
  induction a with
  | nil =>
      intro b fuel _ _
      simp only [List.nil_append, List.length_nil, Nat.sub_zero]
  | cons c cs ih =>
      intro b fuel hlen hsafe
      cases fuel with
      | zero => simp at hlen
      | succ f =>
          have h0 : M (c :: (cs ++ b)) = none := hsafe [] (c :: cs) rfl (by simp)
          have hrec := ih b f (by simpa using hlen)
            (fun s1 s2 he hne => hsafe (c :: s1) s2 (by rw [he]; rfl) hne)
          rw [List.cons_append, replScanGo, h0, hrec]
          simp [Nat.succ_sub_one]

theorem suffixSafe_append (M : List Char → Option (List Char × List Char))
    (x y b : List Char)
    (hx : SuffixSafe M x (y ++ b)) (hy : SuffixSafe M y b) :
    SuffixSafe M (x ++ y) b := by
  intro s1 s2 he hne
  rcases List.append_eq_append_iff.mp he with ⟨a', _, ha2⟩ | ⟨c', hc1, hc2⟩
  · exact hy a' s2 ha2 hne
  · cases c' with
    | nil =>
        simp only [List.nil_append] at hc2
        subst hc2
        cases s2 with
        | nil => exact absurd rfl hne
        | cons d ds => exact hy [] (d :: ds) rfl (by simp)
    | cons d ds =>
        have := hx s1 (d :: ds) hc1 (by simp)
        rw [hc2]
        simpa [List.append_assoc] using this

theorem suffixSafe_of_tails (M : List Char → Option (List Char × List Char))
    (a b : List Char)
    (h : ∀ s2 ∈ a.tails, s2 ≠ [] → M (s2 ++ b) = none) : SuffixSafe M a b :=
  fun s1 s2 he hne => h s2 ((List.mem_tails _ _).mpr ⟨s1, he.symm⟩) hne

theorem suffixSafe_letters (M : List Char → Option (List Char × List Char))
    (s b : List Char) (hs : s.all lcLetter)
    (hM : ∀ c l, lcLetter c = true → M (c :: l) = none) :
    SuffixSafe M s b := by
  intro s1 s2 he hne
  cases s2 with
  | nil => exact absurd rfl hne
  | cons c cs =>
      have hc : lcLetter c = true := by
        have : c ∈ s := by rw [he]; exact List.mem_append_right _ (by simp)
        exact List.all_eq_true.mp hs c this
      exact hM c (cs ++ b) hc

theorem findLazyClose_through (close s r : List Char) (hc : Char)
    (hhead : close.head? = some hc)
    (hs : ∀ c ∈ s, c ≠ hc ∧ c ≠ '\n') :
    findLazyClose close (s ++ (close ++ r)) = some (s, r) := by
  induction s with
  | nil =>
      cases close with
      | nil => simp at hhead
      | cons c0 cl =>
          simp only [List.nil_append, List.cons_append, findLazyClose, List.append_eq]
          have hsw : startsWithL (c0 :: cl) (c0 :: (cl ++ r)) = true :=
            startsWithL_self (c0 :: cl) r
          rw [hsw]
          simp only [if_true]
          rw [show (c0 :: (cl ++ r)).drop (c0 :: cl).length = r from by
            simpa using List.drop_left (c0 :: cl) r]
  | cons c cs ih =>
      have hcne := hs c (by simp)
      rw [List.cons_append, findLazyClose]
      have hsw : startsWithL close (c :: (cs ++ (close ++ r))) = false := by
        cases close with
        | nil => simp at hhead
        | cons c0 cl =>
            have hc0 : c0 = hc := by simpa using hhead
            subst hc0
            simp only [startsWithL, Bool.and_eq_true, beq_iff_eq,
              Bool.and_eq_false_iff]
            simp only [Bool.eq_false_iff]
            left
            intro hcc
            exact hcne.1 (beq_iff_eq.mp hcc).symm
      rw [hsw]
      simp only [Bool.false_eq_true, if_false]
      rw [if_neg hcne.2]
      rw [ih (fun x hx => hs x (by simp [hx]))]
      rfl

theorem findLazyCloseNE_through (close s r : List Char) (hc : Char)
    (hhead : close.head? = some hc)
    (hne : s ≠ [])
    (hs : ∀ c ∈ s, c ≠ hc ∧ c ≠ '\n') :
    findLazyCloseNE close (s ++ (close ++ r)) = some (s, r) := by
  cases s with
  | nil => exact absurd rfl hne
  | cons c cs =>
      rw [List.cons_append, findLazyCloseNE]
      rw [if_neg (hs c (by simp)).2]
      rw [findLazyClose_through close cs r hc hhead (fun x hx => hs x (by simp [hx]))]
      rfl

theorem takeWhile_append_all (p : Char → Bool) (s b : List Char)
    (hs : ∀ c ∈ s, p c = true) :
    (s ++ b).takeWhile p = s ++ b.takeWhile p := by
  induction s with
  | nil => rfl
  | cons c cs ih =>
      rw [List.cons_append, List.takeWhile_cons, hs c (by simp)]
      simp only [if_true]
      rw [ih (fun x hx => hs x (by simp [hx]))]
      simp

theorem takeWhile_head_false (p : Char → Bool) (b : List Char)
    (hb : ∀ c ∈ b.head?, p c = false) :
    b.takeWhile p = [] := by
  cases b with
  | nil => rfl
  | cons c cs =>
      rw [List.takeWhile_cons, hb c (by simp)]
      simp

theorem tagPairMatch_none (o cl pre post l : List Char)
    (h : startsWithL o l = false) :
    tagPairMatch o cl pre post l = none := by
  unfold tagPairMatch
  rw [h]
  simp

theorem lazyPairNEMatch_none (o cl pre post l : List Char)
    (h : startsWithL o l = false) :
    lazyPairNEMatch o cl pre post l = none := by
  unfold lazyPairNEMatch
  rw [h]
  simp

theorem startsWithL_false_of_head (o0 : Char) (os : List Char) (c : Char)
    (l : List Char) (h : c ≠ o0) :
    startsWithL (o0 :: os) (c :: l) = false := by
  simp only [startsWithL, Bool.and_eq_false_iff]
  left
  simp only [beq_eq_false_iff_ne, ne_eq]
  exact fun hh => h hh.symm

theorem c9_not_newline (c : Char) (h : c9Char c = true) : c ≠ '\n' := by
  intro he
  subst he
  simp [c9Char, lcLetter] at h

theorem c9_mem_all (l : List Char) (hall : l.all c9Char = true) (c : Char)
    (hc : c ∈ l) : c9Char c = true :=
  List.all_eq_true.mp hall c hc

theorem replScan_id_of_head (M : List Char → Option (List Char × List Char))
    (l : List Char) (hall : l.all c9Char = true)
    (hM : ∀ c cs, c9Char c = true → M (c :: cs) = none) :
    replScan M l = l := by
  apply replScanGo_id
  intro s1 s2 he hne
  cases s2 with
  | nil => exact absurd rfl hne
  | cons c cs =>
      have hcmem : c ∈ l := by
        rw [he]
        exact List.mem_append_right s1 (by simp)
      exact hM c cs (c9_mem_all l hall c hcmem)

theorem mapLines_id (f : List Char → List Char) (l : List Char)
    (hnl : '\n' ∉ l) (hf : f l = l) : mapLines f l = l := by
  unfold mapLines
  have hsplit : l.splitOn '\n' = [l] := by
    apply List.splitOnP_eq_single
    intro x hx
    simp only [beq_eq_false_iff_ne, ne_eq, Bool.not_eq_true]
    intro hxx
    exact hnl (hxx ▸ hx)
  rw [hsplit]
  simp [List.intercalate, hf]

theorem replScanGo_step (M : List Char → Option (List Char × List Char))
    (l repl rest : List Char) (fuel : Nat)
    (h : M l = some (repl, rest)) (hl : l ≠ []) (hf : 1 ≤ fuel) :
    replScanGo M fuel l = repl ++ replScanGo M (fuel - 1) rest := by
  cases fuel with
  | zero => omega
  | succ f =>
      cases l with
      | nil => exact absurd rfl hl
      | cons c cs =>
          rw [replScanGo, h]
          simp

theorem replScanGo_cons_none (M : List Char → Option (List Char × List Char))
    (c : Char) (cs : List Char) (fuel : Nat)
    (h : M (c :: cs) = none) (hf : 1 ≤ fuel) :
    replScanGo M fuel (c :: cs) = c :: replScanGo M (fuel - 1) cs := by
  cases fuel with
  | zero => omega
  | succ f =>
      rw [replScanGo, h]
      simp

theorem joinSegs_length_cons (f : Seg → List Char) (s s2 : Seg) (rest : List Seg) :
    (joinSegs f (s :: s2 :: rest)).length
      = (f s).length + 1 + (joinSegs f (s2 :: rest)).length := by
  rw [joinSegs]
  simp [List.length_append]
  omega

theorem validSegs_head (s : Seg) (rest : List Seg)
    (h : validSegs (s :: rest) = true) : validSeg s = true := by
  cases rest with
  | nil => simpa [validSegs] using h
  | cons s2 r =>
      rw [validSegs] at h
      simp only [Bool.and_eq_true] at h
      exact h.1.1

theorem validSegs_tail (s s2 : Seg) (rest : List Seg)
    (h : validSegs (s :: s2 :: rest) = true) : validSegs (s2 :: rest) = true := by
  rw [validSegs] at h
  simp only [Bool.and_eq_true] at h
  exact h.2

/-- The generic join-pass lemma: a global replacement whose matcher either
consumes exactly one segment rendering (rewriting it) or never fires inside
it maps the joined stage-`f` text to the joined stage-`g` text. -/
theorem joinPass (M : List Char → Option (List Char × List Char))
    (f g : Seg → List Char)
    (hsep : ∀ l, M (' ' :: l) = none)
    (hne : ∀ sg, validSeg sg = true → f sg ≠ [])
    (hstep : ∀ sg b, validSeg sg = true → joinTail f b →
        (M (f sg ++ b) = some (g sg, b)) ∨ (g sg = f sg ∧ SuffixSafe M (f sg) b)) :
    ∀ (L : List Seg) (fuel : Nat), validSegs L = true →
      (joinSegs f L).length ≤ fuel →
      replScanGo M fuel (joinSegs f L) = joinSegs g L := by
  intro L
  induction L with
  | nil => intro fuel _ _; cases fuel <;> rfl
  | cons s rest ih =>
      intro fuel hv hlen
      cases rest with
      | nil =>
          have hvs : validSeg s = true := validSegs_head s [] hv
          have hjt : joinTail f [] := Or.inl rfl
          have hfuel1 : 1 ≤ fuel := by
            have := List.length_pos.mpr (hne s hvs)
            simp only [joinSegs] at hlen
            omega
          rcases hstep s [] hvs hjt with hfire | ⟨hgf, hsafe⟩
          · rw [List.append_nil] at hfire
            rw [joinSegs, replScanGo_step M (f s) (g s) [] fuel hfire (hne s hvs) hfuel1]
            cases (fuel - 1) <;> simp [joinSegs, replScanGo]
          · rw [joinSegs, replScanGo_id M (f s) fuel ?_]
            · rw [joinSegs, hgf]
            · intro s1 s2 he hne2
              have := hsafe s1 s2 he hne2
              rwa [List.append_nil] at this
      | cons s2 rest2 =>
          have hvs : validSeg s = true := validSegs_head s (s2 :: rest2) hv
          have hvt : validSegs (s2 :: rest2) = true := validSegs_tail s s2 rest2 hv
          have hlen2 := joinSegs_length_cons f s s2 rest2
          have hjt : joinTail f (' ' :: joinSegs f (s2 :: rest2)) :=
            Or.inr ⟨s2, rest2, rfl, hvt⟩
          have hfspos : 1 ≤ (f s).length := List.length_pos.mpr (hne s hvs)
          rw [joinSegs]
          rcases hstep s (' ' :: joinSegs f (s2 :: rest2)) hvs hjt with hfire | ⟨hgf, hsafe⟩
          · rw [replScanGo_step M _ (g s) _ fuel hfire ?_ ?_]
            · rw [replScanGo_cons_none M ' ' _ _ (hsep _) ?_]
              · rw [ih (fuel - 1 - 1) hvt ?_]
                · rw [joinSegs]
                · rw [joinSegs] at hlen
                  simp only [List.length_append, List.length_cons] at hlen
                  omega
              · rw [joinSegs] at hlen
                simp only [List.length_append, List.length_cons] at hlen
                omega
            · intro hcontra
              have := congrArg List.length hcontra
              simp only [List.length_append, List.length_cons, List.length_nil] at this
              omega
            · rw [joinSegs] at hlen
              simp only [List.length_append, List.length_cons] at hlen
              omega
          · rw [replScanGo_walk M (f s) _ fuel ?_ hsafe]
            · rw [replScanGo_cons_none M ' ' _ _ (hsep _) ?_]
              · rw [ih (fuel - (f s).length - 1) hvt ?_]
                · rw [joinSegs, hgf]
                · rw [joinSegs] at hlen
                  simp only [List.length_append, List.length_cons] at hlen
                  omega
              · rw [joinSegs] at hlen
                simp only [List.length_append, List.length_cons] at hlen
                omega
            · rw [joinSegs] at hlen
              simp only [List.length_append, List.length_cons] at hlen
              omega

theorem startsWithL_mono (a b l : List Char)
    (h : startsWithL (a ++ b) l = true) : startsWithL a l = true := by
  induction a generalizing l with
  | nil => rfl
  | cons c cs ih =>
      cases l with
      | nil => simp [startsWithL] at h
      | cons d ds =>
          simp only [List.cons_append, startsWithL, Bool.and_eq_true] at h ⊢
          exact ⟨h.1, ih ds h.2⟩

theorem mismatchB_startsWith (pat s2 : List Char)
    (h : mismatchB pat s2 = true) (b : List Char) :
    startsWithL pat (s2 ++ b) = false := by
  induction pat generalizing s2 with
  | nil => cases s2 <;> simp [mismatchB] at h
  | cons p ps ih =>
      cases s2 with
      | nil => simp [mismatchB] at h
      | cons c cs =>
          simp only [mismatchB, Bool.or_eq_true] at h
          rw [List.cons_append, startsWithL]
          rcases h with h | h
          · have hne2 : p ≠ c := by
              intro hpc
              subst hpc
              simp at h
            rw [beq_eq_false_iff_ne.mpr hne2]
            simp
          · rw [ih cs h]
            simp

theorem suffixSafe_lit_of_mismatch
    (M : List Char → Option (List Char × List Char)) (o lit : List Char)
    (hM : ∀ l, startsWithL o l = false → M l = none)
    (hc : lit.tails.all (fun s2 => s2.isEmpty || mismatchB o s2) = true)
    (b : List Char) :
    SuffixSafe M lit b := by
  apply suffixSafe_of_tails
  intro s2 hs2 hne
  have h2 := List.all_eq_true.mp hc s2 hs2
  simp only [Bool.or_eq_true, List.isEmpty_iff] at h2
  rcases h2 with h2 | h2
  · exact absurd h2 hne
  · exact hM _ (mismatchB_startsWith o s2 h2 b)

theorem suffixSafe_no_head (M : List Char → Option (List Char × List Char))
    (t : Char) (hM : ∀ c l, c ≠ t → M (c :: l) = none)
    (a b : List Char) (ha : t ∉ a) : SuffixSafe M a b := by
  intro s1 s2 he hne
  cases s2 with
  | nil => exact absurd rfl hne
  | cons c cs =>
      have hc : c ∈ a := by rw [he]; exact List.mem_append_right s1 (by simp)
      exact hM c (cs ++ b) (fun hct => ha (hct ▸ hc))

theorem not_mem_of_all (a : List Char) (p : Char → Bool)
    (ha : a.all p = true) (t : Char) (ht : p t = false) : t ∉ a := by
  intro hmem
  have := List.all_eq_true.mp ha t hmem
  rw [ht] at this
  exact absurd this (by simp)

theorem AllSafe_append (M : List Char → Option (List Char × List Char))
    (a b : List Char) (h1 : SuffixSafe M a b) (h2 : AllSafe M b) :
    AllSafe M (a ++ b) := by
  intro s1 s2 he hne
  rcases List.append_eq_append_iff.mp he with ⟨a', _, ha2⟩ | ⟨c', hc1, hc2⟩
  · exact h2 a' s2 ha2 hne
  · cases c' with
    | nil =>
        simp only [List.nil_append] at hc2
        subst hc2
        cases s2 with
        | nil => exact absurd rfl hne
        | cons d ds => exact h2 [] (d :: ds) rfl (by simp)
    | cons d ds =>
        have := h1 s1 (d :: ds) hc1 (by simp)
        rw [hc2]
        exact this

theorem AllSafe_cons (M : List Char → Option (List Char × List Char))
    (c : Char) (l : List Char) (h0 : M (c :: l) = none) (h : AllSafe M l) :
    AllSafe M (c :: l) := by
  intro s1 s2 he hne
  cases s1 with
  | nil =>
      simp only [List.nil_append] at he
      rw [← he]
      exact h0
  | cons d ds =>
      simp only [List.cons_append, List.cons.injEq] at he
      exact h ds s2 he.2 hne

theorem AllSafe_nil (M : List Char → Option (List Char × List Char)) :
    AllSafe M [] := by
  intro s1 s2 he hne
  exact absurd (List.append_eq_nil.mp he.symm).2 hne

theorem suffixSafe_of_allSafe (M : List Char → Option (List Char × List Char))
    (a b : List Char) (h : AllSafe M (a ++ b)) : SuffixSafe M a b :=
  fun s1 s2 he hne => by
    apply h s1 (s2 ++ b) _ ?_
    · rw [he, List.append_assoc]
    · cases s2 with
      | nil => exact absurd rfl hne
      | cons c cs => simp

theorem joinAllSafe (M : List Char → Option (List Char × List Char))
    (f : Seg → List Char)
    (hsep : ∀ l, M (' ' :: l) = none)
    (hseg : ∀ sg b, validSeg sg = true → joinTail f b → SuffixSafe M (f sg) b) :
    ∀ L, validSegs L = true → AllSafe M (joinSegs f L) := by
  intro L
  induction L with
  | nil => intro _; exact AllSafe_nil M
  | cons s rest ih =>
      intro hv
      cases rest with
      | nil =>
          have h1 := hseg s [] (validSegs_head s [] hv) (Or.inl rfl)
          rw [joinSegs]
          have := AllSafe_append M (f s) [] h1 (AllSafe_nil M)
          simpa using this
      | cons s2 rest2 =>
          have hvt := validSegs_tail s s2 rest2 hv
          have h1 := hseg s (' ' :: joinSegs f (s2 :: rest2))
            (validSegs_head s _ hv) (Or.inr ⟨s2, rest2, rfl, hvt⟩)
          rw [joinSegs]
          exact AllSafe_append M _ _ h1 (AllSafe_cons M _ _ (hsep _) (ih hvt))

theorem findLazyClose_none (close l : List Char)
    (h : ∀ s1 s2, l = s1 ++ s2 → startsWithL close s2 = false) :
    findLazyClose close l = none := by
  induction l with
  | nil => rfl
  | cons c cs ih =>
      rw [findLazyClose, h [] (c :: cs) rfl]
      simp only [Bool.false_eq_true, if_false]
      split
      · rfl
      · rw [ih (fun s1 s2 he => h (c :: s1) s2 (by rw [he]; rfl))]
        rfl

theorem lettersOnly_all (s : List Char) (h : lettersOnly s = true) :
    s.all lcLetter = true ∧ s ≠ [] := by
  unfold lettersOnly at h
  simp only [Bool.and_eq_true] at h
  refine ⟨h.2, ?_⟩
  intro he
  subst he
  simp at h

theorem letters_avoid (s : List Char) (hs : s.all lcLetter = true) (hc : Char)
    (h1 : lcLetter hc = false) : ∀ c ∈ s, c ≠ hc ∧ c ≠ '\n' := by
  intro c hcm
  have hcl := List.all_eq_true.mp hs c hcm
  constructor
  · intro he
    rw [he, h1] at hcl
    exact absurd hcl (by simp)
  · intro he
    rw [he] at hcl
    simp [lcLetter] at hcl

theorem none_head_of_startsWith (M : List Char → Option (List Char × List Char))
    (o0 : Char) (os : List Char)
    (hM : ∀ l, startsWithL (o0 :: os) l = false → M l = none) :
    ∀ c l, c ≠ o0 → M (c :: l) = none :=
  fun c l hc => hM _ (startsWithL_false_of_head o0 os c l hc)

theorem suffixSafe_shape2 (M : List Char → Option (List Char × List Char))
    (o0 : Char) (os : List Char)
    (hM : ∀ l, startsWithL (o0 :: os) l = false → M l = none)
    (ho0 : lcLetter o0 = false)
    (H u b : List Char) (hu : u.all lcLetter = true)
    (hH : (H.tails.all fun s2 => s2.isEmpty || mismatchB (o0 :: os) s2) = true) :
    SuffixSafe M (H ++ u) b := by
  apply suffixSafe_append M H u b
  · exact suffixSafe_lit_of_mismatch M (o0 :: os) H hM hH (u ++ b)
  · exact suffixSafe_no_head M o0 (none_head_of_startsWith M o0 os hM) u b
      (not_mem_of_all u lcLetter hu o0 ho0)

theorem suffixSafe_shape3 (M : List Char → Option (List Char × List Char))
    (o0 : Char) (os : List Char)
    (hM : ∀ l, startsWithL (o0 :: os) l = false → M l = none)
    (ho0 : lcLetter o0 = false)
    (A s C b : List Char) (hs : s.all lcLetter = true)
    (hA : (A.tails.all fun s2 => s2.isEmpty || mismatchB (o0 :: os) s2) = true)
    (hC : (C.tails.all fun s2 => s2.isEmpty || mismatchB (o0 :: os) s2) = true) :
    SuffixSafe M (A ++ s ++ C) b := by
  apply suffixSafe_append M (A ++ s) C b
  · apply suffixSafe_append M A s (C ++ b)
    · exact suffixSafe_lit_of_mismatch M (o0 :: os) A hM hA _
    · exact suffixSafe_no_head M o0 (none_head_of_startsWith M o0 os hM) s _
        (not_mem_of_all s lcLetter hs o0 ho0)
  · exact suffixSafe_lit_of_mismatch M (o0 :: os) C hM hC b

theorem suffixSafe_shape5 (M : List Char → Option (List Char × List Char))
    (o0 : Char) (os : List Char)
    (hM : ∀ l, startsWithL (o0 :: os) l = false → M l = none)
    (ho0 : lcLetter o0 = false)
    (A H u C t D b : List Char)
    (hu : u.all lcLetter = true) (ht : t.all lcLetter = true)
    (hA : (A.tails.all fun s2 => s2.isEmpty || mismatchB (o0 :: os) s2) = true)
    (hH : (H.tails.all fun s2 => s2.isEmpty || mismatchB (o0 :: os) s2) = true)
    (hC : (C.tails.all fun s2 => s2.isEmpty || mismatchB (o0 :: os) s2) = true)
    (hD : (D.tails.all fun s2 => s2.isEmpty || mismatchB (o0 :: os) s2) = true) :
    SuffixSafe M (A ++ (H ++ u) ++ C ++ t ++ D) b := by
  have hhead := none_head_of_startsWith M o0 os hM
  apply suffixSafe_append M (A ++ (H ++ u) ++ C ++ t) D b
  · apply suffixSafe_append M (A ++ (H ++ u) ++ C) t (D ++ b)
    · apply suffixSafe_append M (A ++ (H ++ u)) C (t ++ (D ++ b))
      · apply suffixSafe_append M A (H ++ u) (C ++ (t ++ (D ++ b)))
        · exact suffixSafe_lit_of_mismatch M (o0 :: os) A hM hA _
        · exact suffixSafe_shape2 M o0 os hM ho0 H u _ hu hH
      · exact suffixSafe_lit_of_mismatch M (o0 :: os) C hM hC _
    · exact suffixSafe_no_head M o0 hhead t _ (not_mem_of_all t lcLetter ht o0 ho0)
  · exact suffixSafe_lit_of_mismatch M (o0 :: os) D hM hD b

theorem tagPairMatch_fires (o cl pre post s b : List Char) (hc : Char)
    (hhead : cl.head? = some hc)
    (hs : ∀ c ∈ s, c ≠ hc ∧ c ≠ '\n') :
    tagPairMatch o cl pre post (o ++ (s ++ (cl ++ b))) = some (pre ++ s ++ post, b) := by
  unfold tagPairMatch
  rw [startsWithL_self]
  simp only [if_true]
  rw [List.drop_left]
  rw [findLazyClose_through cl s b hc hhead hs]
  rfl

theorem all_mono (l : List Char) (p q : Char → Bool)
    (h : ∀ c, p c = true → q c = true) (hl : l.all p = true) : l.all q = true := by
  rw [List.all_eq_true] at hl ⊢
  exact fun c hc => h c (hl c hc)

theorem lcLetter_c9Seg (c : Char) (h : lcLetter c = true) : c9SegChar c = true := by
  simp [c9SegChar, h]

theorem c9Seg_c9 (c : Char) (h : c9SegChar c = true) : c9Char c = true := by
  simp only [c9SegChar, Bool.or_eq_true] at h
  simp only [c9Char, Bool.or_eq_true]
  tauto

theorem boldForm_all_seg (st : Nat) (s : List Char) (hs : s.all lcLetter = true) :
    (boldForm st s).all c9SegChar = true := by
  have hsc : s.all c9SegChar = true := all_mono s lcLetter c9SegChar lcLetter_c9Seg hs
  rcases st with _ | _ | st <;>
    simp only [boldForm, List.all_append, hsc, Bool.and_true, Bool.true_and,
      Bool.and_eq_true] <;> exact ⟨by decide, by decide⟩

theorem italForm_all_seg (st : Nat) (s : List Char) (hs : s.all lcLetter = true) :
    (italForm st s).all c9SegChar = true := by
  have hsc : s.all c9SegChar = true := all_mono s lcLetter c9SegChar lcLetter_c9Seg hs
  rcases st with _ | _ | st <;>
    simp only [italForm, List.all_append, hsc, Bool.and_true, Bool.true_and,
      Bool.and_eq_true] <;> exact ⟨by decide, by decide⟩

theorem linkForm_all_seg (st : Nat) (u t : List Char)
    (hu : u.all lcLetter = true) (ht : t.all lcLetter = true) :
    (linkForm st u t).all c9SegChar = true := by
  have huc : u.all c9SegChar = true := all_mono u lcLetter c9SegChar lcLetter_c9Seg hu
  have htc : t.all c9SegChar = true := all_mono t lcLetter c9SegChar lcLetter_c9Seg ht
  rcases st with _ | _ | st <;>
    simp only [linkForm, List.all_append, huc, htc, Bool.and_true, Bool.true_and,
      Bool.and_eq_true] <;>
    refine ⟨⟨⟨by decide, by decide⟩, by decide⟩, by decide⟩

theorem urlForm_all_seg (st : Nat) (u : List Char) (hu : u.all lcLetter = true) :
    (urlForm st u).all c9SegChar = true := by
  have huc : u.all c9SegChar = true := all_mono u lcLetter c9SegChar lcLetter_c9Seg hu
  rcases st with _ | st <;>
    simp only [urlForm, List.all_append, huc, Bool.and_true, Bool.true_and,
      Bool.and_eq_true]
  · decide
  · exact ⟨by decide, by decide⟩

theorem segR_all_seg (b i lk uf : Nat) (sg : Seg) (hv : validSeg sg = true) :
    (segR b i lk uf sg).all c9SegChar = true := by
  cases sg with
  | plain s => exact all_mono s lcLetter c9SegChar lcLetter_c9Seg (lettersOnly_all s hv).1
  | bold s => exact boldForm_all_seg b s (lettersOnly_all s hv).1
  | ital s => exact italForm_all_seg i s (lettersOnly_all s hv).1
  | link u t =>
      simp only [validSeg, Bool.and_eq_true] at hv
      exact linkForm_all_seg lk u t (lettersOnly_all u hv.1).1 (lettersOnly_all t hv.2).1
  | url u => exact urlForm_all_seg uf u (lettersOnly_all u hv).1

theorem joinR_all_c9 (b i lk uf : Nat) (L : List Seg) (hv : validSegs L = true) :
    (joinR b i lk uf L).all c9Char = true := by
  unfold joinR
  induction L with
  | nil => rfl
  | cons s rest ih =>
      cases rest with
      | nil =>
          show (joinSegs (segR b i lk uf) [s]).all c9Char = true
          exact all_mono _ c9SegChar c9Char c9Seg_c9
            (segR_all_seg b i lk uf s (validSegs_head s [] hv))
      | cons s2 rest2 =>
          rw [joinSegs]
          rw [List.all_append, Bool.and_eq_true]
          refine ⟨?_, ?_⟩
          · exact all_mono _ c9SegChar c9Char c9Seg_c9
              (segR_all_seg b i lk uf s (validSegs_head s _ hv))
          · rw [List.all_cons, Bool.and_eq_true]
            exact ⟨by decide, ih (validSegs_tail s s2 rest2 hv)⟩

theorem pool_ne (c t : Char) (hc : c9Char c = true) (ht : c9Char t = false) :
    c ≠ t := by
  intro he
  subst he
  rw [hc] at ht
  exact absurd ht (by simp)

theorem ne_nil_left (a b : List Char) (h : a ≠ []) : a ++ b ≠ [] := by
  intro he
  exact h (List.append_eq_nil.mp he).1

theorem segR_ne (bst ist lkst ufst : Nat) (sg : Seg) (hv : validSeg sg = true) :
    segR bst ist lkst ufst sg ≠ [] := by
  cases sg with
  | plain s => exact (lettersOnly_all s hv).2
  | bold s =>
      show boldForm bst s ≠ []
      rcases bst with _ | _ | b <;>
        · simp only [boldForm]
          exact ne_nil_left _ _ (ne_nil_left _ _ (by decide))
  | ital s =>
      show italForm ist s ≠ []
      rcases ist with _ | _ | i <;>
        · simp only [italForm]
          exact ne_nil_left _ _ (ne_nil_left _ _ (by decide))
  | link u t =>
      show linkForm lkst u t ≠ []
      rcases lkst with _ | _ | lk <;>
        · simp only [linkForm]
          exact ne_nil_left _ _ (ne_nil_left _ _ (ne_nil_left _ _
            (ne_nil_left _ _ (by decide))))
  | url u =>
      show urlForm ufst u ≠ []
      rcases ufst with _ | uf
      · simp only [urlForm]
        exact ne_nil_left _ _ (by decide)
      · simp only [urlForm]
        exact ne_nil_left _ _ (ne_nil_left _ _ (by decide))

theorem bbBoldM_none (l : List Char)
    (h : startsWithL ('[' :: "b]".data) l = false) : bbBoldM l = none :=
  tagPairMatch_none _ _ _ _ l h

theorem bbItalM_none (l : List Char)
    (h : startsWithL ('[' :: "i]".data) l = false) : bbItalM l = none :=
  tagPairMatch_none _ _ _ _ l h

theorem bbUnderM_none (l : List Char)
    (h : startsWithL ('[' :: "u]".data) l = false) : bbUnderM l = none :=
  tagPairMatch_none _ _ _ _ l h

theorem bbUrlMatch_none (l : List Char)
    (h : startsWithL ('[' :: "url=".data) l = false) : bbUrlMatch l = none := by
  unfold bbUrlMatch
  rw [(h : startsWithL "[url=".data l = false)]
  simp

theorem bb_bold_pass (L : List Seg) (hv : validSegs L = true) :
    replScan bbBoldM (joinR 0 0 0 0 L) = joinR 1 0 0 0 L := by
  unfold replScan joinR
  refine joinPass bbBoldM (segR 0 0 0 0) (segR 1 0 0 0) ?_ ?_ ?_ L _ hv (le_refl _)
  · exact fun l => bbBoldM_none _ (startsWithL_false_of_head '[' "b]".data ' ' l (by decide))
  · exact fun sg h => segR_ne 0 0 0 0 sg h
  · intro sg b hvs hjt
    cases sg with
    | bold s =>
        left
        have hlet := (lettersOnly_all s hvs).1
        have hf := tagPairMatch_fires "[b]".data "[/b]".data "**".data "**".data s b '['
          rfl (letters_avoid s hlet '[' (by decide))
        show bbBoldM (boldForm 0 s ++ b) = some (boldForm 1 s, b)
        unfold bbBoldM
        simpa [boldForm, List.append_assoc] using hf
    | plain s =>
        right
        refine ⟨rfl, ?_⟩
        exact suffixSafe_no_head bbBoldM '['
          (none_head_of_startsWith bbBoldM '[' "b]".data bbBoldM_none)
          s b (not_mem_of_all s lcLetter (lettersOnly_all s hvs).1 '[' (by decide))
    | ital s =>
        right
        refine ⟨rfl, ?_⟩
        exact suffixSafe_shape3 bbBoldM '[' "b]".data bbBoldM_none (by decide)
          "[i]".data s "[/i]".data b (lettersOnly_all s hvs).1 (by decide) (by decide)
    | link u t =>
        right
        refine ⟨rfl, ?_⟩
        have hv2 : lettersOnly u = true ∧ lettersOnly t = true := by
          simpa [validSeg, Bool.and_eq_true] using hvs
        exact suffixSafe_shape5 bbBoldM '[' "b]".data bbBoldM_none (by decide)
          "[url=".data "https://".data u "]".data t "[/url]".data b
          (lettersOnly_all u hv2.1).1 (lettersOnly_all t hv2.2).1
          (by decide) (by decide) (by decide) (by decide)
    | url u =>
        right
        refine ⟨rfl, ?_⟩
        exact suffixSafe_shape2 bbBoldM '[' "b]".data bbBoldM_none (by decide)
          "https://".data u b (lettersOnly_all u hvs).1 (by decide)

theorem bb_ital_pass (L : List Seg) (hv : validSegs L = true) :
    replScan bbItalM (joinR 1 0 0 0 L) = joinR 1 1 0 0 L := by
  unfold replScan joinR
  refine joinPass bbItalM (segR 1 0 0 0) (segR 1 1 0 0) ?_ ?_ ?_ L _ hv (le_refl _)
  · exact fun l => bbItalM_none _ (startsWithL_false_of_head '[' "i]".data ' ' l (by decide))
  · exact fun sg h => segR_ne 1 0 0 0 sg h
  · intro sg b hvs hjt
    cases sg with
    | ital s =>
        left
        have hlet := (lettersOnly_all s hvs).1
        have hf := tagPairMatch_fires "[i]".data "[/i]".data "*".data "*".data s b '['
          rfl (letters_avoid s hlet '[' (by decide))
        show bbItalM (italForm 0 s ++ b) = some (italForm 1 s, b)
        unfold bbItalM
        simpa [italForm, List.append_assoc] using hf
    | plain s =>
        right
        refine ⟨rfl, ?_⟩
        exact suffixSafe_no_head bbItalM '['
          (none_head_of_startsWith bbItalM '[' "i]".data bbItalM_none)
          s b (not_mem_of_all s lcLetter (lettersOnly_all s hvs).1 '[' (by decide))
    | bold s =>
        right
        refine ⟨rfl, ?_⟩
        exact suffixSafe_shape3 bbItalM '[' "i]".data bbItalM_none (by decide)
          "**".data s "**".data b (lettersOnly_all s hvs).1 (by decide) (by decide)
    | link u t =>
        right
        refine ⟨rfl, ?_⟩
        have hv2 : lettersOnly u = true ∧ lettersOnly t = true := by
          simpa [validSeg, Bool.and_eq_true] using hvs
        exact suffixSafe_shape5 bbItalM '[' "i]".data bbItalM_none (by decide)
          "[url=".data "https://".data u "]".data t "[/url]".data b
          (lettersOnly_all u hv2.1).1 (lettersOnly_all t hv2.2).1
          (by decide) (by decide) (by decide) (by decide)
    | url u =>
        right
        refine ⟨rfl, ?_⟩
        exact suffixSafe_shape2 bbItalM '[' "i]".data bbItalM_none (by decide)
          "https://".data u b (lettersOnly_all u hvs).1 (by decide)

theorem avoid_append (P : Char → Prop) (a b : List Char)
    (ha : ∀ c ∈ a, P c) (hb : ∀ c ∈ b, P c) : ∀ c ∈ a ++ b, P c :=
  fun c hc => (List.mem_append.mp hc).elim (ha c) (hb c)

theorem not_mem_append (t : Char) (a b : List Char) (ha : t ∉ a) (hb : t ∉ b) :
    t ∉ a ++ b := by
  intro hm
  rcases List.mem_append.mp hm with h | h
  · exact ha h
  · exact hb h

theorem bb_under_pass (L : List Seg) (hv : validSegs L = true) :
    replScan bbUnderM (joinR 1 1 0 0 L) = joinR 1 1 0 0 L := by
  unfold replScan joinR
  apply replScanGo_id
  refine joinAllSafe bbUnderM (segR 1 1 0 0) ?_ ?_ L hv
  · exact fun l => bbUnderM_none _ (startsWithL_false_of_head '[' "u]".data ' ' l (by decide))
  · intro sg b hvs hjt
    cases sg with
    | plain s =>
        exact suffixSafe_no_head bbUnderM '['
          (none_head_of_startsWith bbUnderM '[' "u]".data bbUnderM_none)
          s b (not_mem_of_all s lcLetter (lettersOnly_all s hvs).1 '[' (by decide))
    | bold s =>
        exact suffixSafe_shape3 bbUnderM '[' "u]".data bbUnderM_none (by decide)
          "**".data s "**".data b (lettersOnly_all s hvs).1 (by decide) (by decide)
    | ital s =>
        exact suffixSafe_shape3 bbUnderM '[' "u]".data bbUnderM_none (by decide)
          "*".data s "*".data b (lettersOnly_all s hvs).1 (by decide) (by decide)
    | link u t =>
        have hv2 : lettersOnly u = true ∧ lettersOnly t = true := by
          simpa [validSeg, Bool.and_eq_true] using hvs
        exact suffixSafe_shape5 bbUnderM '[' "u]".data bbUnderM_none (by decide)
          "[url=".data "https://".data u "]".data t "[/url]".data b
          (lettersOnly_all u hv2.1).1 (lettersOnly_all t hv2.2).1
          (by decide) (by decide) (by decide) (by decide)
    | url u =>
        exact suffixSafe_shape2 bbUnderM '[' "u]".data bbUnderM_none (by decide)
          "https://".data u b (lettersOnly_all u hvs).1 (by decide)

theorem findUrlSplit_through (g1 t b : List Char)
    (hg1 : ∀ c ∈ g1, c ≠ ']' ∧ c ≠ '\n')
    (ht : ∀ c ∈ t, c ≠ '[' ∧ c ≠ '\n') :
    findUrlSplit (g1 ++ (']' :: (t ++ ("[/url]".data ++ b)))) = some (g1, t, b) := by
  induction g1 with
  | nil =>
      rw [List.nil_append, findUrlSplit]
      rw [if_pos rfl]
      rw [findLazyClose_through "[/url]".data t b '[' rfl ht]
  | cons c cs ih =>
      rw [List.cons_append, findUrlSplit]
      rw [if_neg (hg1 c (by simp)).1, if_neg (hg1 c (by simp)).2]
      rw [ih (fun x hx => hg1 x (by simp [hx]))]
      rfl

theorem bbUrlMatch_fires (u t b : List Char)
    (hu : u.all lcLetter = true) (ht : t.all lcLetter = true) :
    bbUrlMatch (linkForm 0 u t ++ b) = some (linkForm 1 u t, b) := by
  have hC : "]".data = [']'] := by decide
  have hl : linkForm 0 u t ++ b
      = "[url=".data ++
          (("https://".data ++ u) ++ (']' :: (t ++ ("[/url]".data ++ b)))) := by
    simp [linkForm, hC, List.append_assoc]
  rw [hl]
  unfold bbUrlMatch
  rw [startsWithL_self]
  simp only [if_true]
  have h5 : "[url=".data.length = 5 := by decide
  have hdrop := List.drop_left "[url=".data
    (("https://".data ++ u) ++ (']' :: (t ++ ("[/url]".data ++ b))))
  rw [h5] at hdrop
  rw [hdrop]
  rw [findUrlSplit_through ("https://".data ++ u) t b
    (avoid_append _ "https://".data u (by decide)
      (letters_avoid u hu ']' (by decide)))
    (letters_avoid t ht '[' (by decide))]
  rfl

theorem bb_url_pass (L : List Seg) (hv : validSegs L = true) :
    replScan bbUrlMatch (joinR 1 1 0 0 L) = joinR 1 1 1 0 L := by
  unfold replScan joinR
  refine joinPass bbUrlMatch (segR 1 1 0 0) (segR 1 1 1 0) ?_ ?_ ?_ L _ hv (le_refl _)
  · exact fun l => bbUrlMatch_none _ (startsWithL_false_of_head '[' "url=".data ' ' l (by decide))
  · exact fun sg h => segR_ne 1 1 0 0 sg h
  · intro sg b hvs hjt
    cases sg with
    | link u t =>
        left
        have hv2 : lettersOnly u = true ∧ lettersOnly t = true := by
          simpa [validSeg, Bool.and_eq_true] using hvs
        exact bbUrlMatch_fires u t b (lettersOnly_all u hv2.1).1 (lettersOnly_all t hv2.2).1
    | plain s =>
        right
        refine ⟨rfl, ?_⟩
        exact suffixSafe_no_head bbUrlMatch '['
          (none_head_of_startsWith bbUrlMatch '[' "url=".data bbUrlMatch_none)
          s b (not_mem_of_all s lcLetter (lettersOnly_all s hvs).1 '[' (by decide))
    | bold s =>
        right
        refine ⟨rfl, ?_⟩
        exact suffixSafe_shape3 bbUrlMatch '[' "url=".data bbUrlMatch_none (by decide)
          "**".data s "**".data b (lettersOnly_all s hvs).1 (by decide) (by decide)
    | ital s =>
        right
        refine ⟨rfl, ?_⟩
        exact suffixSafe_shape3 bbUrlMatch '[' "url=".data bbUrlMatch_none (by decide)
          "*".data s "*".data b (lettersOnly_all s hvs).1 (by decide) (by decide)
    | url u =>
        right
        refine ⟨rfl, ?_⟩
        exact suffixSafe_shape2 bbUrlMatch '[' "url=".data bbUrlMatch_none (by decide)
          "https://".data u b (lettersOnly_all u hvs).1 (by decide)

theorem patM_none (pat l : List Char) (h : startsWithL pat l = false) :
    patM pat l = none := by
  unfold patM
  rw [h]
  simp

theorem patM_none_startsWith (pat l : List Char) (h : patM pat l = none) :
    startsWithL pat l = false := by
  unfold patM at h
  by_cases hs : startsWithL pat l = true
  · rw [hs] at h
    simp at h
  · simpa using hs

theorem startsWithL_false_of_second (p0 p1 c2 : Char) (l : List Char) (h : c2 ≠ p1) :
    startsWithL [p0, p1] (p0 :: c2 :: l) = false := by
  simp only [startsWithL, beq_self_eq_true, Bool.true_and]
  rw [beq_eq_false_iff_ne.mpr (fun hh => h hh.symm)]
  simp

theorem suffixSafe_lead (M : List Char → Option (List Char × List Char))
    (p0 p1 : Char) (hM : ∀ l, startsWithL [p0, p1] l = false → M l = none)
    (a0 : Char) (arest b : List Char)
    (h0 : a0 = p0 → ∃ c2 crest, arest = c2 :: crest ∧ c2 ≠ p1)
    (hrest : p0 ∉ arest) :
    SuffixSafe M (a0 :: arest) b := by
  intro s1 s2 he hne
  cases s1 with
  | nil =>
      simp only [List.nil_append] at he
      subst he
      apply hM
      by_cases ha : a0 = p0
      · obtain ⟨c2, crest, hc, hcp⟩ := h0 ha
        rw [ha, hc]
        show startsWithL [p0, p1] (p0 :: c2 :: (crest ++ b)) = false
        exact startsWithL_false_of_second p0 p1 c2 (crest ++ b) hcp
      · exact startsWithL_false_of_head p0 [p1] a0 _ ha
  | cons d ds =>
      rw [List.cons_append] at he
      injection he with h1 h2
      cases s2 with
      | nil => exact absurd rfl hne
      | cons c cs =>
          have hcm : c ∈ arest := by
            rw [h2]
            exact List.mem_append_right ds (by simp)
          exact hM _ (startsWithL_false_of_head p0 [p1] c _
            (fun hcc => hrest (hcc ▸ hcm)))

theorem patBrSlash_none (l : List Char)
    (h : startsWithL ('[' :: "/".data) l = false) : patM ('[' :: "/".data) l = none :=
  patM_none _ _ h

theorem allSafe_code (l : List Char) (h : AllSafe (patM ('[' :: "/".data)) l) :
    AllSafe bbCodeM l := by
  intro s1 s2 he hne
  show bbCodeM s2 = none
  unfold bbCodeM tagPairMatch
  by_cases hsw : startsWithL "[code]".data s2 = true
  · rw [if_pos hsw]
    rw [findLazyClose_none "[/code]".data (s2.drop "[code]".data.length) ?_]
    · rfl
    · intro u1 u2 hu
      have hs2 : s2 = s2.take "[code]".data.length ++ (u1 ++ u2) := by
        conv_lhs => rw [← List.take_append_drop "[code]".data.length s2]
        rw [hu]
      by_cases hu2 : u2 = []
      · subst hu2
        decide
      · have hl2 : l = (s1 ++ s2.take "[code]".data.length ++ u1) ++ u2 := by
          rw [he]
          conv_lhs => rw [hs2]
          simp [List.append_assoc]
        have hpn := patM_none_startsWith _ _ (h _ u2 hl2 hu2)
        cases hsw2 : startsWithL "[/code]".data u2 with
        | false => rfl
        | true =>
            exfalso
            have hsplit : ('[' :: "/".data) ++ "code]".data = "[/code]".data := by decide
            have := startsWithL_mono ('[' :: "/".data) "code]".data u2
              (by rw [hsplit]; exact hsw2)
            rw [hpn] at this
            exact absurd this (by simp)
  · rw [if_neg hsw]

theorem bb_code_pass (L : List Seg) (hv : validSegs L = true) :
    replScan bbCodeM (joinR 1 1 1 0 L) = joinR 1 1 1 0 L := by
  unfold replScan joinR
  apply replScanGo_id
  apply allSafe_code
  refine joinAllSafe (patM ('[' :: "/".data)) (segR 1 1 1 0) ?_ ?_ L hv
  · exact fun l => patBrSlash_none _ (startsWithL_false_of_head '[' "/".data ' ' l (by decide))
  · intro sg b hvs hjt
    cases sg with
    | plain s =>
        exact suffixSafe_no_head _ '['
          (none_head_of_startsWith _ '[' "/".data patBrSlash_none)
          s b (not_mem_of_all s lcLetter (lettersOnly_all s hvs).1 '[' (by decide))
    | bold s =>
        refine suffixSafe_no_head _ '['
          (none_head_of_startsWith _ '[' "/".data patBrSlash_none) _ b ?_
        exact not_mem_append '[' _ _
          (not_mem_append '[' _ _ (by decide)
            (not_mem_of_all s lcLetter (lettersOnly_all s hvs).1 '[' (by decide)))
          (by decide)
    | ital s =>
        refine suffixSafe_no_head _ '['
          (none_head_of_startsWith _ '[' "/".data patBrSlash_none) _ b ?_
        exact not_mem_append '[' _ _
          (not_mem_append '[' _ _ (by decide)
            (not_mem_of_all s lcLetter (lettersOnly_all s hvs).1 '[' (by decide)))
          (by decide)
    | url u =>
        refine suffixSafe_no_head _ '['
          (none_head_of_startsWith _ '[' "/".data patBrSlash_none) _ b ?_
        exact not_mem_append '[' _ _ (by decide)
          (not_mem_of_all u lcLetter (lettersOnly_all u hvs).1 '[' (by decide))
    | link u t =>
        have hv2 : lettersOnly u = true ∧ lettersOnly t = true := by
          simpa [validSeg, Bool.and_eq_true] using hvs
        have hune := lettersOnly_all u hv2.1
        have htne := lettersOnly_all t hv2.2
        have hB : "[".data = ['['] := by decide
        have hEq : segR 1 1 1 0 (.link u t)
            = '[' :: (t ++ ("](".data ++ (("https://".data ++ u) ++ ")".data))) := by
          show linkForm 1 u t = _
          simp [linkForm, hB, List.append_assoc]
        rw [hEq]
        apply suffixSafe_lead _ '[' '/' patBrSlash_none '[' _ b
        · intro _
          obtain ⟨c, cr, hc⟩ : ∃ c cr, t = c :: cr := by
            cases t with
            | nil => exact absurd rfl htne.2
            | cons c cr => exact ⟨c, cr, rfl⟩
          refine ⟨c, cr ++ ("](".data ++ (("https://".data ++ u) ++ ")".data)), ?_, ?_⟩
          · rw [hc, List.cons_append]
          · have hcl := List.all_eq_true.mp htne.1 c (by rw [hc]; simp)
            intro hcc
            rw [hcc] at hcl
            exact absurd hcl (by decide)
        · refine not_mem_append '[' _ _
            (not_mem_of_all t lcLetter htne.1 '[' (by decide))
            (not_mem_append '[' _ _ (by decide)
              (not_mem_append '[' _ _
                (not_mem_append '[' _ _ (by decide)
                  (not_mem_of_all u lcLetter hune.1 '[' (by decide)))
                (by decide)))

theorem bbToMarkdown_render (L : List Seg) (hv : validSegs L = true) :
    bbToMarkdown (String.mk (joinR 0 0 0 0 L)) = String.mk (joinR 1 1 1 0 L) := by
  show String.mk (replScan bbCodeM (replScan bbUrlMatch (replScan bbUnderM
    (replScan bbItalM (replScan bbBoldM (joinR 0 0 0 0 L)))))) = _
  rw [bb_bold_pass L hv, bb_ital_pass L hv, bb_under_pass L hv, bb_url_pass L hv,
    bb_code_pass L hv]

theorem fenceMatch_none_head (c : Char) (cs : List Char) (h : c ≠ '`') :
    fenceMatch (c :: cs) = none := by
  unfold fenceMatch
  rw [startsWithL_false_of_head '`' "``".data c cs h]
  simp

theorem inlineCodeMatch_none_head (c : Char) (cs : List Char) (h : c ≠ '`') :
    inlineCodeMatch (c :: cs) = none := by
  unfold inlineCodeMatch
  split <;> simp_all

theorem mdLinkMatch_none_head (c : Char) (cs : List Char) (h : c ≠ '[') :
    mdLinkMatch (c :: cs) = none := by
  unfold mdLinkMatch
  split <;> simp_all

theorem squeezeMatch_none_head (c : Char) (cs : List Char) (h : c ≠ '\n') :
    squeezeMatch (c :: cs) = none := by
  simp [squeezeMatch, List.takeWhile_cons, h]

theorem italMatch_none_not_ws (m c : Char) (cs : List Char) (h : isJsWS c = false) :
    italMatch m (c :: cs) = none := by
  simp [italMatch, h]

theorem italMatch_none_single (m c : Char) :
    italMatch m [c] = none := by
  cases h : isJsWS c <;> simp [italMatch, h]

theorem italMatch_none_second (m c d : Char) (rest : List Char) (hd : d ≠ m) :
    italMatch m (c :: d :: rest) = none := by
  cases hws : isJsWS c <;> simp [italMatch, hws, hd]

theorem rawUrlMatch_none_head (c : Char) (cs : List Char) (h : c.toLower ≠ 'h') :
    rawUrlMatch (c :: cs) = none := by
  unfold rawUrlMatch
  have hs : startsWithCIL "http".data (c :: cs) = false := by
    show startsWithCIL ('h' :: "ttp".data) (c :: cs) = false
    rw [startsWithCIL]
    rw [beq_eq_false_iff_ne.mpr
      (show 'h'.toLower ≠ c.toLower from fun hh => h (hh.symm.trans (by decide)))]
    simp
  rw [hs]
  simp

theorem headerLine_id_of_head (c : Char) (cs : List Char) (h : c ≠ '#') :
    headerLine (c :: cs) = c :: cs := by
  simp [headerLine, List.takeWhile_cons, h]

theorem listLine_id_of_head (c : Char) (cs : List Char) (h1 : c ≠ '*') (h2 : c ≠ '-') :
    listLine (c :: cs) = c :: cs := by
  simp [listLine, h1, h2]

theorem tableSepLine_id_of_head (c : Char) (cs : List Char) (h : c ≠ '|') :
    tableSepLine (c :: cs) = c :: cs := by
  unfold tableSepLine
  split <;> simp_all

theorem tableRowLine_id_of_head (c : Char) (cs : List Char) (h : c ≠ '|') :
    tableRowLine (c :: cs) = c :: cs := by
  unfold tableRowLine
  split <;> simp_all

theorem hrLine_id_of_head (c : Char) (cs : List Char) (h1 : c ≠ '-') (h2 : c ≠ '*') :
    hrLine (c :: cs) = c :: cs := by
  unfold hrLine
  rw [if_neg]
  intro hand
  rcases hand with ⟨_, hall⟩
  rw [List.all_cons] at hall
  simp [h1, h2] at hall

theorem quoteLine_id_of_head (c : Char) (cs : List Char) (h : c ≠ '>') :
    quoteLine (c :: cs) = c :: cs := by
  unfold quoteLine
  split <;> simp_all

theorem replScan_id_of_allSafe (M : List Char → Option (List Char × List Char))
    (l : List Char) (h : AllSafe M l) : replScan M l = l := by
  unfold replScan
  exact replScanGo_id M l _ h

theorem italMatch_allSafe_no_marker (m : Char) (l : List Char) (hm : m ∉ l) :
    AllSafe (italMatch m) l := by
  intro s1 s2 he hne
  cases s2 with
  | nil => exact absurd rfl hne
  | cons c cs =>
      by_cases hws : isJsWS c = true
      · cases cs with
        | nil => exact italMatch_none_single m c
        | cons d rest =>
            have hd : d ∈ l := by
              rw [he]
              exact List.mem_append_right s1 (by simp)
            exact italMatch_none_second m c d rest (fun he2 => hm (he2 ▸ hd))
      · exact italMatch_none_not_ws m c cs (by simpa using hws)

theorem joinSegs_cons (f : Seg → List Char) (s : Seg) (rest : List Seg) :
    ∃ tl, joinSegs f (s :: rest) = f s ++ tl := by
  cases rest with
  | nil => exact ⟨[], (List.append_nil _).symm⟩
  | cons s2 rest2 => exact ⟨' ' :: joinSegs f (s2 :: rest2), rfl⟩

theorem segR_head_1110 (sg : Seg) (hv : validSeg sg = true) :
    ∃ c cs, segR 1 1 1 0 sg = c :: cs ∧
      (lcLetter c = true ∨ c = '[' ∨ c = '*' ∨ c = 'h') := by
  cases sg with
  | plain s =>
      obtain ⟨hall, hne⟩ := lettersOnly_all s hv
      cases s with
      | nil => exact absurd rfl hne
      | cons c cs =>
          exact ⟨c, cs, rfl, Or.inl (List.all_eq_true.mp hall c (by simp))⟩
  | bold s => exact ⟨'*', _, rfl, by simp⟩
  | ital s => exact ⟨'*', _, rfl, by simp⟩
  | link u t => exact ⟨'[', _, rfl, by simp⟩
  | url u => exact ⟨'h', _, rfl, by simp⟩

theorem segR_head_2221 (sg : Seg) (hv : validSeg sg = true) :
    ∃ c cs, segR 2 2 2 1 sg = c :: cs ∧ (lcLetter c = true ∨ c = '[') := by
  cases sg with
  | plain s =>
      obtain ⟨hall, hne⟩ := lettersOnly_all s hv
      cases s with
      | nil => exact absurd rfl hne
      | cons c cs =>
          exact ⟨c, cs, rfl, Or.inl (List.all_eq_true.mp hall c (by simp))⟩
  | bold s => exact ⟨'[', _, rfl, by simp⟩
  | ital s => exact ⟨'[', _, rfl, by simp⟩
  | link u t => exact ⟨'[', _, rfl, by simp⟩
  | url u => exact ⟨'[', _, rfl, by simp⟩

theorem md_fence_pass (L : List Seg) (hv : validSegs L = true) :
    replScan fenceMatch (joinR 1 1 1 0 L) = joinR 1 1 1 0 L :=
  replScan_id_of_head _ _ (joinR_all_c9 1 1 1 0 L hv)
    (fun c cs hc => fenceMatch_none_head c cs (pool_ne c '`' hc (by decide)))

theorem md_boldunder_pass (L : List Seg) (hv : validSegs L = true) :
    replScan mdBoldUnderM (joinR 2 1 1 0 L) = joinR 2 1 1 0 L :=
  replScan_id_of_head _ _ (joinR_all_c9 2 1 1 0 L hv)
    (fun c cs hc => lazyPairNEMatch_none _ _ _ _ _
      (startsWithL_false_of_head '_' "_".data c cs (pool_ne c '_' hc (by decide))))

theorem md_inlinecode_pass (L : List Seg) (hv : validSegs L = true) :
    replScan inlineCodeMatch (joinR 2 1 1 0 L) = joinR 2 1 1 0 L :=
  replScan_id_of_head _ _ (joinR_all_c9 2 1 1 0 L hv)
    (fun c cs hc => inlineCodeMatch_none_head c cs (pool_ne c '`' hc (by decide)))

theorem md_italunder_pass (L : List Seg) (hv : validSegs L = true) :
    replScan (italMatch '_') (joinR 2 2 2 1 L) = joinR 2 2 2 1 L :=
  replScan_id_of_allSafe _ _
    (italMatch_allSafe_no_marker '_' _
      (not_mem_of_all _ c9Char (joinR_all_c9 2 2 2 1 L hv) '_' (by decide)))

theorem md_strike_pass (L : List Seg) (hv : validSegs L = true) :
    replScan mdStrikeM (joinR 2 2 2 1 L) = joinR 2 2 2 1 L :=
  replScan_id_of_head _ _ (joinR_all_c9 2 2 2 1 L hv)
    (fun c cs hc => lazyPairNEMatch_none _ _ _ _ _
      (startsWithL_false_of_head '~' "~".data c cs (pool_ne c '~' hc (by decide))))

theorem md_squeeze_pass (L : List Seg) (hv : validSegs L = true) :
    replScan squeezeMatch (joinR 2 2 2 1 L) = joinR 2 2 2 1 L :=
  replScan_id_of_head _ _ (joinR_all_c9 2 2 2 1 L hv)
    (fun c cs hc => squeezeMatch_none_head c cs (pool_ne c '\n' hc (by decide)))

theorem md_header_pass (L : List Seg) (hv : validSegs L = true) :
    mapLines headerLine (joinR 1 1 1 0 L) = joinR 1 1 1 0 L := by
  cases L with
  | nil => decide
  | cons s rest =>
      obtain ⟨tl, htl⟩ := joinSegs_cons (segR 1 1 1 0) s rest
      obtain ⟨c, cs, hcs, hp⟩ := segR_head_1110 s (validSegs_head s rest hv)
      apply mapLines_id
      · exact not_mem_of_all _ c9Char (joinR_all_c9 1 1 1 0 (s :: rest) hv) '\n' (by decide)
      · show headerLine (joinSegs (segR 1 1 1 0) (s :: rest))
          = joinSegs (segR 1 1 1 0) (s :: rest)
        rw [htl, hcs, List.cons_append]
        apply headerLine_id_of_head
        rcases hp with h | h | h | h
        · intro he
          rw [he] at h
          exact absurd h (by decide)
        all_goals (subst h; decide)

theorem md_list_pass (L : List Seg) (hv : validSegs L = true) :
    mapLines listLine (joinR 2 2 2 1 L) = joinR 2 2 2 1 L := by
  cases L with
  | nil => decide
  | cons s rest =>
      obtain ⟨tl, htl⟩ := joinSegs_cons (segR 2 2 2 1) s rest
      obtain ⟨c, cs, hcs, hp⟩ := segR_head_2221 s (validSegs_head s rest hv)
      apply mapLines_id
      · exact not_mem_of_all _ c9Char (joinR_all_c9 2 2 2 1 (s :: rest) hv) '\n' (by decide)
      · show listLine (joinSegs (segR 2 2 2 1) (s :: rest))
          = joinSegs (segR 2 2 2 1) (s :: rest)
        rw [htl, hcs, List.cons_append]
        apply listLine_id_of_head
        · rcases hp with h | h
          · intro he
            rw [he] at h
            exact absurd h (by decide)
          · subst h; decide
        · rcases hp with h | h
          · intro he
            rw [he] at h
            exact absurd h (by decide)
          · subst h; decide

theorem md_tablesep_pass (L : List Seg) (hv : validSegs L = true) :
    mapLines tableSepLine (joinR 2 2 2 1 L) = joinR 2 2 2 1 L := by
  cases L with
  | nil => decide
  | cons s rest =>
      obtain ⟨tl, htl⟩ := joinSegs_cons (segR 2 2 2 1) s rest
      obtain ⟨c, cs, hcs, hp⟩ := segR_head_2221 s (validSegs_head s rest hv)
      apply mapLines_id
      · exact not_mem_of_all _ c9Char (joinR_all_c9 2 2 2 1 (s :: rest) hv) '\n' (by decide)
      · show tableSepLine (joinSegs (segR 2 2 2 1) (s :: rest))
          = joinSegs (segR 2 2 2 1) (s :: rest)
        rw [htl, hcs, List.cons_append]
        apply tableSepLine_id_of_head
        rcases hp with h | h
        · intro he
          rw [he] at h
          exact absurd h (by decide)
        · subst h; decide

theorem md_tablerow_pass (L : List Seg) (hv : validSegs L = true) :
    mapLines tableRowLine (joinR 2 2 2 1 L) = joinR 2 2 2 1 L := by
  cases L with
  | nil => decide
  | cons s rest =>
      obtain ⟨tl, htl⟩ := joinSegs_cons (segR 2 2 2 1) s rest
      obtain ⟨c, cs, hcs, hp⟩ := segR_head_2221 s (validSegs_head s rest hv)
      apply mapLines_id
      · exact not_mem_of_all _ c9Char (joinR_all_c9 2 2 2 1 (s :: rest) hv) '\n' (by decide)
      · show tableRowLine (joinSegs (segR 2 2 2 1) (s :: rest))
          = joinSegs (segR 2 2 2 1) (s :: rest)
        rw [htl, hcs, List.cons_append]
        apply tableRowLine_id_of_head
        rcases hp with h | h
        · intro he
          rw [he] at h
          exact absurd h (by decide)
        · subst h; decide

theorem md_hr_pass (L : List Seg) (hv : validSegs L = true) :
    mapLines hrLine (joinR 2 2 2 1 L) = joinR 2 2 2 1 L := by
  cases L with
  | nil => decide
  | cons s rest =>
      obtain ⟨tl, htl⟩ := joinSegs_cons (segR 2 2 2 1) s rest
      obtain ⟨c, cs, hcs, hp⟩ := segR_head_2221 s (validSegs_head s rest hv)
      apply mapLines_id
      · exact not_mem_of_all _ c9Char (joinR_all_c9 2 2 2 1 (s :: rest) hv) '\n' (by decide)
      · show hrLine (joinSegs (segR 2 2 2 1) (s :: rest))
          = joinSegs (segR 2 2 2 1) (s :: rest)
        rw [htl, hcs, List.cons_append]
        apply hrLine_id_of_head
        · rcases hp with h | h
          · intro he
            rw [he] at h
            exact absurd h (by decide)
          · subst h; decide
        · rcases hp with h | h
          · intro he
            rw [he] at h
            exact absurd h (by decide)
          · subst h; decide

theorem md_quote_pass (L : List Seg) (hv : validSegs L = true) :
    mapLines quoteLine (joinR 2 2 2 1 L) = joinR 2 2 2 1 L := by
  cases L with
  | nil => decide
  | cons s rest =>
      obtain ⟨tl, htl⟩ := joinSegs_cons (segR 2 2 2 1) s rest
      obtain ⟨c, cs, hcs, hp⟩ := segR_head_2221 s (validSegs_head s rest hv)
      apply mapLines_id
      · exact not_mem_of_all _ c9Char (joinR_all_c9 2 2 2 1 (s :: rest) hv) '\n' (by decide)
      · show quoteLine (joinSegs (segR 2 2 2 1) (s :: rest))
          = joinSegs (segR 2 2 2 1) (s :: rest)
        rw [htl, hcs, List.cons_append]
        apply quoteLine_id_of_head
        rcases hp with h | h
        · intro he
          rw [he] at h
          exact absurd h (by decide)
        · subst h; decide

theorem trimL_id (l : List Char)
    (h1 : ∀ c, l.head? = some c → isJsWS c = false)
    (h2 : ∀ c, l.getLast? = some c → isJsWS c = false) : trimL l = l := by
  unfold trimL
  have ha : l.dropWhile isJsWS = l := by
    cases l with
    | nil => rfl
    | cons c cs =>
        rw [List.dropWhile_cons, h1 c rfl]
        simp
  rw [ha]
  have hb : l.reverse.dropWhile isJsWS = l.reverse := by
    cases hr : l.reverse with
    | nil => rfl
    | cons c cs =>
        have hlast : l.getLast? = some c := by
          rw [← List.head?_reverse, hr]
          rfl
        rw [List.dropWhile_cons, h2 c hlast]
        simp
  rw [hb, List.reverse_reverse]

theorem lcLetter_not_ws (c : Char) (h : lcLetter c = true) : isJsWS c = false := by
  cases hws : isJsWS c
  · rfl
  · exfalso
    have hd : c = ' ' ∨ c = '\t' ∨ c = '\n' ∨ c = '\x0d' ∨ c = '\x0b' ∨ c = '\x0c' := by
      simpa [isJsWS, or_assoc] using hws
    rcases hd with h2 | h2 | h2 | h2 | h2 | h2 <;> (subst h2; exact absurd h (by decide))

theorem getLast?_mem_own (l : List Char) (c : Char) (h : l.getLast? = some c) :
    c ∈ l := by
  rcases List.eq_nil_or_concat l with rfl | ⟨ys, y, hy⟩
  · simp at h
  · subst hy
    rw [List.concat_eq_append, List.getLast?_concat] at h
    injection h with h
    subst h
    simp [List.concat_eq_append]

theorem letters_getLast_not_ws (s : List Char) (hs : s.all lcLetter = true)
    (c : Char) (h : s.getLast? = some c) : isJsWS c = false :=
  lcLetter_not_ws c (List.all_eq_true.mp hs c (getLast?_mem_own s c h))

theorem segR_last_2221 (sg : Seg) (hv : validSeg sg = true) :
    ∀ c, (segR 2 2 2 1 sg).getLast? = some c → isJsWS c = false := by
  cases sg with
  | plain s =>
      exact fun c h => letters_getLast_not_ws s (lettersOnly_all s hv).1 c h
  | bold s =>
      intro c h
      rw [show segR 2 2 2 1 (.bold s) = ("[B]".data ++ s) ++ "[/B]".data from rfl,
        List.getLast?_append,
        show ("[/B]".data : List Char).getLast? = some ']' from by decide,
        Option.or_some] at h
      injection h with h
      subst h
      decide
  | ital s =>
      intro c h
      rw [show segR 2 2 2 1 (.ital s) = ("[I]".data ++ s) ++ "[/I]".data from rfl,
        List.getLast?_append,
        show ("[/I]".data : List Char).getLast? = some ']' from by decide,
        Option.or_some] at h
      injection h with h
      subst h
      decide
  | link u t =>
      intro c h
      rw [show segR 2 2 2 1 (.link u t)
          = ((("[URL=".data ++ ("https://".data ++ u)) ++ "]".data) ++ t) ++ "[/URL]".data
        from rfl,
        List.getLast?_append,
        show ("[/URL]".data : List Char).getLast? = some ']' from by decide,
        Option.or_some] at h
      injection h with h
      subst h
      decide
  | url u =>
      intro c h
      rw [show segR 2 2 2 1 (.url u)
          = ("[URL]".data ++ ("https://".data ++ u)) ++ "[/URL]".data
        from rfl,
        List.getLast?_append,
        show ("[/URL]".data : List Char).getLast? = some ']' from by decide,
        Option.or_some] at h
      injection h with h
      subst h
      decide

theorem joinR_last_not_ws (L : List Seg) (hv : validSegs L = true) :
    ∀ c, (joinR 2 2 2 1 L).getLast? = some c → isJsWS c = false := by
  induction L with
  | nil => intro c h; simp [joinR, joinSegs] at h
  | cons s rest ih =>
      cases rest with
      | nil =>
          intro c h
          exact segR_last_2221 s (validSegs_head s [] hv) c h
      | cons s2 rest2 =>
          intro c h
          have hvt := validSegs_tail s s2 rest2 hv
          obtain ⟨tl, htl⟩ := joinSegs_cons (segR 2 2 2 1) s2 rest2
          have hne2 : joinSegs (segR 2 2 2 1) (s2 :: rest2) ≠ [] := by
            rw [htl]
            exact ne_nil_left _ _ (segR_ne 2 2 2 1 s2 (validSegs_head s2 rest2 hvt))
          rw [show joinR 2 2 2 1 (s :: s2 :: rest2)
              = segR 2 2 2 1 s ++ (' ' :: joinSegs (segR 2 2 2 1) (s2 :: rest2))
            from rfl, List.getLast?_append, List.getLast?_cons] at h
          cases hg : (joinSegs (segR 2 2 2 1) (s2 :: rest2)).getLast? with
          | none => exact absurd (List.getLast?_eq_none_iff.mp hg) hne2
          | some d =>
              rw [hg] at h
              simp only [Option.getD_some, Option.or_some] at h
              injection h with h
              subst h
              exact ih hvt d hg

theorem md_trim (L : List Seg) (hv : validSegs L = true) :
    trimL (joinR 2 2 2 1 L) = joinR 2 2 2 1 L := by
  apply trimL_id
  · intro c h
    cases L with
    | nil => simp [joinR, joinSegs] at h
    | cons s rest =>
        obtain ⟨tl, htl⟩ := joinSegs_cons (segR 2 2 2 1) s rest
        obtain ⟨c2, cs, hcs, hp⟩ := segR_head_2221 s (validSegs_head s rest hv)
        rw [show joinR 2 2 2 1 (s :: rest) = joinSegs (segR 2 2 2 1) (s :: rest) from rfl,
          htl, hcs, List.cons_append] at h
        injection h with h
        subst h
        rcases hp with hl | hl
        · exact lcLetter_not_ws _ hl
        · rw [hl]; decide
  · exact joinR_last_not_ws L hv

theorem suffixSafe_single (M : List Char → Option (List Char × List Char))
    (p0 p1 : Char) (hM : ∀ l, startsWithL [p0, p1] l = false → M l = none)
    (x : Char) (b : List Char)
    (hx : x = p0 → ∀ d rest, b = d :: rest → d ≠ p1) :
    SuffixSafe M [x] b := by
  intro s1 s2 he hne
  have hs2 : s2 = [x] := by
    cases s1 with
    | nil => exact he.symm
    | cons d ds =>
        rw [List.cons_append] at he
        injection he with h1 h2
        exact absurd (List.append_eq_nil.mp h2.symm).2 hne
  subst hs2
  apply hM
  by_cases hx0 : x = p0
  · subst hx0
    cases b with
    | nil => simp [startsWithL]
    | cons d rest =>
        exact startsWithL_false_of_second x p1 d rest (hx rfl d rest rfl)
  · exact startsWithL_false_of_head p0 [p1] x _ hx0

theorem mdBoldM_none (l : List Char)
    (h : startsWithL ['*', '*'] l = false) : mdBoldM l = none :=
  lazyPairNEMatch_none _ _ _ _ l h

theorem mdBoldM_fires (s b : List Char) (hs : s.all lcLetter = true) (hne : s ≠ []) :
    mdBoldM (boldForm 1 s ++ b) = some (boldForm 2 s, b) := by
  have hl : boldForm 1 s ++ b = "**".data ++ (s ++ ("**".data ++ b)) := by
    simp [boldForm, List.append_assoc]
  rw [hl]
  unfold mdBoldM lazyPairNEMatch
  rw [startsWithL_self]
  simp only [if_true]
  rw [List.drop_left]
  rw [findLazyCloseNE_through ['*', '*'] s b '*' rfl hne
    (letters_avoid s hs '*' (by decide))]
  rfl

theorem headOk_of_joinTail (f : Seg → List Char) (b : List Char)
    (h : joinTail f b) : b = [] ∨ ∃ t, b = ' ' :: t := by
  rcases h with h | ⟨s2, rest, hb, _⟩
  · exact Or.inl h
  · exact Or.inr ⟨_, hb⟩

theorem md_bold_pass (L : List Seg) (hv : validSegs L = true) :
    replScan mdBoldM (joinR 1 1 1 0 L) = joinR 2 1 1 0 L := by
  unfold replScan joinR
  refine joinPass mdBoldM (segR 1 1 1 0) (segR 2 1 1 0) ?_ ?_ ?_ L _ hv (le_refl _)
  · exact fun l => mdBoldM_none _ (startsWithL_false_of_head '*' ['*'] ' ' l (by decide))
  · exact fun sg h => segR_ne 1 1 1 0 sg h
  · intro sg b hvs hjt
    have hMh := none_head_of_startsWith mdBoldM '*' ['*'] mdBoldM_none
    cases sg with
    | bold s =>
        left
        exact mdBoldM_fires s b (lettersOnly_all s hvs).1 (lettersOnly_all s hvs).2
    | plain s =>
        right
        refine ⟨rfl, ?_⟩
        exact suffixSafe_no_head mdBoldM '*' hMh s b
          (not_mem_of_all s lcLetter (lettersOnly_all s hvs).1 '*' (by decide))
    | ital s =>
        right
        refine ⟨rfl, ?_⟩
        obtain ⟨hall, hne⟩ := lettersOnly_all s hvs
        show SuffixSafe mdBoldM (("*".data ++ s) ++ "*".data) b
        apply suffixSafe_append
        · apply suffixSafe_append
          · show SuffixSafe mdBoldM ['*'] (s ++ ("*".data ++ b))
            apply suffixSafe_single mdBoldM '*' '*' mdBoldM_none
            intro _ d rest hdr hd
            cases s with
            | nil => exact absurd rfl hne
            | cons c cs =>
                rw [List.cons_append] at hdr
                injection hdr with hdc _
                subst hdc
                subst hd
                exact absurd (List.all_eq_true.mp hall '*' (by simp)) (by decide)
          · exact suffixSafe_no_head mdBoldM '*' hMh s _
              (not_mem_of_all s lcLetter hall '*' (by decide))
        · show SuffixSafe mdBoldM ['*'] b
          apply suffixSafe_single mdBoldM '*' '*' mdBoldM_none
          intro _ d rest hdr hd
          rcases headOk_of_joinTail _ b hjt with hb | ⟨t2, hb⟩
          · rw [hb] at hdr
            exact absurd hdr (by simp)
          · rw [hb] at hdr
            injection hdr with hdc _
            subst hdc
            exact absurd hd (by decide)
    | link u t =>
        right
        refine ⟨rfl, ?_⟩
        have hv2 : lettersOnly u = true ∧ lettersOnly t = true := by
          simpa [validSeg, Bool.and_eq_true] using hvs
        refine suffixSafe_no_head mdBoldM '*' hMh _ b ?_
        refine not_mem_append '*' _ _ (not_mem_append '*' _ _ (not_mem_append '*' _ _
          (not_mem_append '*' _ _ (by decide)
            (not_mem_of_all t lcLetter (lettersOnly_all t hv2.2).1 '*' (by decide)))
          (by decide))
          (not_mem_append '*' _ _ (by decide)
            (not_mem_of_all u lcLetter (lettersOnly_all u hv2.1).1 '*' (by decide))))
          (by decide)
    | url u =>
        right
        refine ⟨rfl, ?_⟩
        refine suffixSafe_no_head mdBoldM '*' hMh _ b ?_
        exact not_mem_append '*' _ _ (by decide)
          (not_mem_of_all u lcLetter (lettersOnly_all u hvs).1 '*' (by decide))

theorem mdLinkMatch_through (g1 g2 rest : List Char)
    (hg1 : ∀ c ∈ g1, (decide ¬(c = ']')) = true) (hg1ne : g1 ≠ [])
    (hg2 : ∀ c ∈ g2, (decide ¬(c = ')')) = true) (hg2ne : g2 ≠ []) :
    mdLinkMatch ('[' :: (g1 ++ (']' :: '(' :: (g2 ++ (')' :: rest)))))
      = some ("[URL=".data ++ g2 ++ "]".data ++ g1 ++ "[/URL]".data, rest) := by
  simp only [mdLinkMatch]
  rw [takeWhile_append_all _ g1 _ hg1]
  rw [takeWhile_head_false _ _ (fun c hc => by
    cases hc
    decide)]
  rw [List.append_nil]
  rw [List.drop_left]
  rw [if_neg (by simp [List.isEmpty_iff]; exact hg1ne)]
  show (if (List.takeWhile (fun c => decide (c ≠ ')')) (g2 ++ ')' :: rest)).isEmpty = true
      then none
      else
        match List.drop (List.takeWhile (fun c => decide (c ≠ ')')) (g2 ++ ')' :: rest)).length
            (g2 ++ ')' :: rest) with
        | ')' :: rest2 =>
            some ("[URL=".data ++
              List.takeWhile (fun c => decide (c ≠ ')')) (g2 ++ ')' :: rest) ++
              "]".data ++ g1 ++ "[/URL]".data, rest2)
        | _ => none)
      = some ("[URL=".data ++ g2 ++ "]".data ++ g1 ++ "[/URL]".data, rest)
  have e2 : List.takeWhile (fun c => decide (c ≠ ')')) (g2 ++ ')' :: rest) = g2 := by
    rw [takeWhile_append_all _ g2 _ hg2]
    rw [takeWhile_head_false _ _ (fun c hc => by
      cases hc
      decide)]
    rw [List.append_nil]
  rw [e2]
  rw [if_neg (by simp [List.isEmpty_iff]; exact hg2ne)]
  rw [List.drop_left]
  rfl

theorem letters_decide_ne (s : List Char) (hs : s.all lcLetter = true)
    (x : Char) (hx : lcLetter x = false) :
    ∀ c ∈ s, (decide ¬(c = x)) = true := fun c hc => by
  simp [((letters_avoid s hs x hx) c hc).1]

theorem mdLinkMatch_bold_full (s b : List Char) (hs : s.all lcLetter = true)
    (hne : s ≠ []) :
    mdLinkMatch ('[' :: ('B' :: ']' :: (s ++ ("[/B]".data ++ b)))) = none := by
  simp only [mdLinkMatch]
  have e1 : List.takeWhile (fun c => decide (c ≠ ']'))
      ('B' :: ']' :: (s ++ ("[/B]".data ++ b))) = ['B'] := by
    simp [List.takeWhile_cons]
  rw [e1]
  rw [if_neg (by decide)]
  have e2 : List.drop (['B'] : List Char).length
      ('B' :: ']' :: (s ++ ("[/B]".data ++ b)))
      = ']' :: (s ++ ("[/B]".data ++ b)) := rfl
  rw [e2]
  obtain ⟨c, cs, hc⟩ : ∃ c cs, s = c :: cs := by
    cases s with
    | nil => exact absurd rfl hne
    | cons c cs => exact ⟨c, cs, rfl⟩
  subst hc
  have hcl : lcLetter c = true := List.all_eq_true.mp hs c (by simp)
  have hcp : c ≠ '(' := fun he => by
    rw [he] at hcl
    exact absurd hcl (by decide)
  rw [List.cons_append]
  split <;> simp_all

theorem mdLinkMatch_bold_close (b : List Char) (hb : b = [] ∨ ∃ t2, b = ' ' :: t2) :
    mdLinkMatch ('[' :: ('/' :: 'B' :: ']' :: b)) = none := by
  simp only [mdLinkMatch]
  have e1 : List.takeWhile (fun c => decide (c ≠ ']'))
      ('/' :: 'B' :: ']' :: b) = ['/', 'B'] := by
    simp [List.takeWhile_cons]
  rw [e1]
  rw [if_neg (by decide)]
  have e2 : List.drop (['/', 'B'] : List Char).length ('/' :: 'B' :: ']' :: b)
      = ']' :: b := rfl
  rw [e2]
  rcases hb with rfl | ⟨t2, rfl⟩
  · rfl
  · split <;> simp_all

theorem md_link_pass (L : List Seg) (hv : validSegs L = true) :
    replScan mdLinkMatch (joinR 2 1 1 0 L) = joinR 2 1 2 0 L := by
  unfold replScan joinR
  refine joinPass mdLinkMatch (segR 2 1 1 0) (segR 2 1 2 0) ?_ ?_ ?_ L _ hv (le_refl _)
  · exact fun l => mdLinkMatch_none_head ' ' l (by decide)
  · exact fun sg h => segR_ne 2 1 1 0 sg h
  · intro sg b hvs hjt
    have hMh : ∀ c l, c ≠ '[' → mdLinkMatch (c :: l) = none :=
      fun c l hc => mdLinkMatch_none_head c l hc
    cases sg with
    | link u t =>
        left
        have hv2 : lettersOnly u = true ∧ lettersOnly t = true := by
          simpa [validSeg, Bool.and_eq_true] using hvs
        obtain ⟨hu, hune⟩ := lettersOnly_all u hv2.1
        obtain ⟨ht, htne⟩ := lettersOnly_all t hv2.2
        have h1 : "[".data = ['['] := by decide
        have h2 : "](".data = [']', '('] := by decide
        have h3 : ")".data = [')'] := by decide
        have hl : segR 2 1 1 0 (.link u t) ++ b
            = '[' :: (t ++ (']' :: '(' ::
                (("https://".data ++ u) ++ (')' :: b)))) := by
          show linkForm 1 u t ++ b = _
          simp [linkForm, h1, h2, h3, List.append_assoc]
        rw [hl]
        rw [mdLinkMatch_through t ("https://".data ++ u) b
          (letters_decide_ne t ht ']' (by decide)) htne
          (avoid_append _ "https://".data u (by decide)
            (letters_decide_ne u hu ')' (by decide)))
          (ne_nil_left _ _ (by decide))]
        rfl
    | bold s =>
        right
        refine ⟨rfl, ?_⟩
        obtain ⟨hall, hne⟩ := lettersOnly_all s hvs
        show SuffixSafe mdLinkMatch (("[B]".data ++ s) ++ "[/B]".data) b
        apply suffixSafe_append
        · apply suffixSafe_append
          · apply suffixSafe_of_tails
            intro s2 hs2 hne2
            have ht3 : (("[B]".data : List Char)).tails
                = [['[', 'B', ']'], ['B', ']'], [']'], []] := by decide
            rw [ht3] at hs2
            simp only [List.mem_cons, List.not_mem_nil, or_false] at hs2
            rcases hs2 with rfl | rfl | rfl | rfl
            · exact mdLinkMatch_bold_full s b hall hne
            · exact mdLinkMatch_none_head 'B' _ (by decide)
            · exact mdLinkMatch_none_head ']' _ (by decide)
            · exact absurd rfl hne2
          · exact suffixSafe_no_head mdLinkMatch '[' hMh s _
              (not_mem_of_all s lcLetter hall '[' (by decide))
        · apply suffixSafe_of_tails
          intro s2 hs2 hne2
          have ht4 : (("[/B]".data : List Char)).tails
              = [['[', '/', 'B', ']'], ['/', 'B', ']'], ['B', ']'], [']'], []] := by decide
          rw [ht4] at hs2
          simp only [List.mem_cons, List.not_mem_nil, or_false] at hs2
          rcases hs2 with rfl | rfl | rfl | rfl | rfl
          · exact mdLinkMatch_bold_close b (headOk_of_joinTail _ b hjt)
          · exact mdLinkMatch_none_head '/' _ (by decide)
          · exact mdLinkMatch_none_head 'B' _ (by decide)
          · exact mdLinkMatch_none_head ']' _ (by decide)
          · exact absurd rfl hne2
    | ital s =>
        right
        refine ⟨rfl, ?_⟩
        refine suffixSafe_no_head mdLinkMatch '[' hMh _ b ?_
        exact not_mem_append '[' _ _
          (not_mem_append '[' _ _ (by decide)
            (not_mem_of_all s lcLetter (lettersOnly_all s hvs).1 '[' (by decide)))
          (by decide)
    | plain s =>
        right
        refine ⟨rfl, ?_⟩
        exact suffixSafe_no_head mdLinkMatch '[' hMh s b
          (not_mem_of_all s lcLetter (lettersOnly_all s hvs).1 '[' (by decide))
    | url u =>
        right
        refine ⟨rfl, ?_⟩
        refine suffixSafe_no_head mdLinkMatch '[' hMh _ b ?_
        exact not_mem_append '[' _ _ (by decide)
          (not_mem_of_all u lcLetter (lettersOnly_all u hvs).1 '[' (by decide))

theorem startsWithL_cons_ex (c : Char) (cs l : List Char)
    (h : startsWithL (c :: cs) l = true) : ∃ tl, l = c :: tl := by
  cases l with
  | nil => simp [startsWithL] at h
  | cons d ds =>
      simp only [startsWithL, Bool.and_eq_true, beq_iff_eq] at h
      exact ⟨ds, by rw [h.1]⟩

theorem lcLetter_ne (c x : Char) (hc : lcLetter c = true) (hx : lcLetter x = false) :
    c ≠ x := by
  intro he
  rw [he, hx] at hc
  exact absurd hc (by simp)

theorem rawUrlMatch_none_colon (l : List Char) (h : ':' ∉ l.take 6) :
    rawUrlMatch l = none := by
  simp only [rawUrlMatch]
  by_cases h1 : startsWithCIL "http".data l = true
  · rw [if_pos h1]
    by_cases h2 : startsWithCIL "s".data (l.drop 4) = true
    · simp only [h2, if_true]
      cases h3 : startsWithL "://".data (List.drop 1 (l.drop 4)) with
      | false => simp [h3]
      | true =>
          exfalso
          obtain ⟨tl, htl⟩ := startsWithL_cons_ex ':' "//".data _ h3
          rw [List.drop_drop] at htl
          apply h
          have e6 : l.take 6 = l.take 5 ++ (l.drop 5).take 1 := List.take_add l 5 1
          rw [e6, htl]
          exact List.mem_append_right _ (by simp)
    · have h2f : startsWithCIL "s".data (l.drop 4) = false := by simpa using h2
      simp only [h2f, Bool.false_eq_true, if_false]
      cases h3 : startsWithL "://".data (l.drop 4) with
      | false => simp [h3]
      | true =>
          exfalso
          obtain ⟨tl, htl⟩ := startsWithL_cons_ex ':' "//".data _ h3
          apply h
          have e5 : l.take 5 = l.take 4 ++ (l.drop 4).take 1 := List.take_add l 4 1
          have hm5 : ':' ∈ l.take 5 := by
            rw [e5, htl]
            exact List.mem_append_right _ (by simp)
          have e55 : l.take 5 = (l.take 6).take 5 := by
            rw [List.take_take]
            simp
          rw [e55] at hm5
          exact List.mem_of_mem_take hm5
  · rw [if_neg h1]

theorem suffixSafe_rawUrl_noH (a b : List Char) (ha : ∀ c ∈ a, c.toLower ≠ 'h') :
    SuffixSafe rawUrlMatch a b := by
  intro s1 s2 he hne
  cases s2 with
  | nil => exact absurd rfl hne
  | cons c cs =>
      have hcm : c ∈ a := by
        rw [he]
        exact List.mem_append_right s1 (by simp)
      exact rawUrlMatch_none_head c _ (ha c hcm)

theorem suffixSafe_rawUrl_letters (w B : List Char) (hw : w.all lcLetter = true)
    (hB : ':' ∉ B.take 5) : SuffixSafe rawUrlMatch w B := by
  intro s1 s2 he hne
  apply rawUrlMatch_none_colon
  intro hmem
  rw [List.take_append_eq_append_take] at hmem
  rcases List.mem_append.mp hmem with hm | hm
  · have hmw : ':' ∈ w := by
      rw [he]
      exact List.mem_append_right s1 (List.mem_of_mem_take hm)
    exact absurd (List.all_eq_true.mp hw ':' hmw) (by decide)
  · apply hB
    have hlen : 6 - s2.length ≤ 5 := by
      cases s2 with
      | nil => exact absurd rfl hne
      | cons c cs =>
          simp only [List.length_cons]
          omega
    have e : B.take (6 - s2.length) = (B.take 5).take (6 - s2.length) := by
      rw [List.take_take, Nat.min_eq_left hlen]
    rw [e] at hm
    exact List.mem_of_mem_take hm

theorem lcLetter_urlChar (c : Char) (h : lcLetter c = true) : isUrlChar c = true := by
  simp [isUrlChar, lcLetter_not_ws c h, lcLetter_ne c '<' h (by decide),
    lcLetter_ne c '>' h (by decide), lcLetter_ne c '[' h (by decide),
    lcLetter_ne c ']' h (by decide), lcLetter_ne c quoteChar h (by decide),
    lcLetter_ne c aposChar h (by decide)]

theorem lcLetter_not_trail (c : Char) (h : lcLetter c = true) :
    urlTrailPunct c = false := by
  simp [urlTrailPunct, lcLetter_ne c ')' h (by decide), lcLetter_ne c ']' h (by decide),
    lcLetter_ne c '.' h (by decide), lcLetter_ne c ',' h (by decide),
    lcLetter_ne c '!' h (by decide), lcLetter_ne c '?' h (by decide),
    lcLetter_ne c ';' h (by decide), lcLetter_ne c ':' h (by decide),
    lcLetter_ne c aposChar h (by decide)]

theorem startsWithCIL_self (p x : List Char) : startsWithCIL p (p ++ x) = true := by
  induction p with
  | nil => rfl
  | cons c cs ih => simp [startsWithCIL, ih]

theorem segR_2120_colon_take (sg : Seg) (hv : validSeg sg = true)
    (k : Nat) (hk : k ≤ 5) : ':' ∉ (segR 2 1 2 0 sg).take k := by
  cases sg with
  | plain s =>
      intro hm
      exact absurd (List.all_eq_true.mp (lettersOnly_all s hv).1 ':'
        (List.mem_of_mem_take hm)) (by decide)
  | bold s =>
      intro hm
      have hmm := List.mem_of_mem_take hm
      rcases List.mem_append.mp hmm with h2 | h2
      · rcases List.mem_append.mp h2 with h3 | h3
        · exact absurd h3 (by decide)
        · exact absurd (List.all_eq_true.mp (lettersOnly_all s hv).1 ':' h3) (by decide)
      · exact absurd h2 (by decide)
  | ital s =>
      intro hm
      have hmm := List.mem_of_mem_take hm
      rcases List.mem_append.mp hmm with h2 | h2
      · rcases List.mem_append.mp h2 with h3 | h3
        · exact absurd h3 (by decide)
        · exact absurd (List.all_eq_true.mp (lettersOnly_all s hv).1 ':' h3) (by decide)
      · exact absurd h2 (by decide)
  | link u t =>
      intro hm
      have hl : segR 2 1 2 0 (.link u t)
          = "[URL=".data ++ (("https://".data ++ u) ++ ("]".data ++ (t ++ "[/URL]".data))) := by
        show linkForm 2 u t = _
        simp [linkForm, List.append_assoc]
      rw [hl, List.take_append_of_le_length (by
        show k ≤ ("[URL=".data : List Char).length
        simpa using hk)] at hm
      exact absurd (List.mem_of_mem_take hm) (by decide)
  | url u =>
      intro hm
      have hl : segR 2 1 2 0 (.url u) = "https:".data ++ ("//".data ++ u) := by
        show urlForm 0 u = _
        simp [urlForm, List.append_assoc]
      rw [hl, List.take_append_of_le_length (by
        show k ≤ ("https:".data : List Char).length
        simp
        omega)] at hm
      have := List.mem_of_mem_take hm
      have hk5 : ':' ∉ (("https:".data : List Char).take k) := by
        have e : (("https:".data : List Char)).take k = (("https:".data : List Char).take 5).take k := by
          rw [List.take_take, Nat.min_eq_left hk]
        rw [e]
        intro hmm
        exact absurd (List.mem_of_mem_take hmm) (by decide)
      exact hk5 hm

theorem joinR_colon_take (L : List Seg) (hv : validSegs L = true) :
    ∀ k, k ≤ 5 → ':' ∉ (joinR 2 1 2 0 L).take k := by
  induction L with
  | nil => intro k hk; simp [joinR, joinSegs]
  | cons s rest ih =>
      intro k hk hmem
      cases rest with
      | nil => exact segR_2120_colon_take s (validSegs_head s [] hv) k hk hmem
      | cons s2 rest2 =>
          rw [show joinR 2 1 2 0 (s :: s2 :: rest2)
              = segR 2 1 2 0 s ++ (' ' :: joinR 2 1 2 0 (s2 :: rest2)) from rfl] at hmem
          rw [List.take_append_eq_append_take] at hmem
          rcases List.mem_append.mp hmem with hm | hm
          · exact segR_2120_colon_take s (validSegs_head s _ hv) k hk hm
          · cases hkk : k - (segR 2 1 2 0 s).length with
            | zero =>
                rw [hkk] at hm
                simp at hm
            | succ k2 =>
                rw [hkk, List.take_succ_cons] at hm
                rcases List.mem_cons.mp hm with hm2 | hm2
                · exact absurd hm2 (by decide)
                · have hlen : 1 ≤ (segR 2 1 2 0 s).length :=
                    List.length_pos.mpr (segR_ne 2 1 2 0 s (validSegs_head s _ hv))
                  exact ih (validSegs_tail s s2 rest2 hv) k2 (by omega) hm2

theorem getLastD_irrel (b : List Char) (c d : Char) (hb : b ≠ []) :
    b.getLastD c = b.getLastD d := by
  cases b with
  | nil => exact absurd rfl hb
  | cons x xs =>
      show (x :: xs).getLast?.getD c = (x :: xs).getLast?.getD d
      rw [List.getLast?_cons]
      simp

theorem rawUrlGo_walk (a : List Char) :
    ∀ (b : List Char) (fuel : Nat) (prev : Option Char),
      a.length ≤ fuel → SuffixSafe rawUrlMatch a b →
      rawUrlGo fuel prev (a ++ b)
        = a ++ rawUrlGo (fuel - a.length)
            (if a.isEmpty then prev else some (a.getLastD ' ')) b := by
  induction a with
  | nil =>
      intro b fuel prev _ _
      simp [List.isEmpty]
  | cons c cs ih =>
      intro b fuel prev hfuel hsafe
      cases fuel with
      | zero => simp at hfuel
      | succ f =>
          rw [List.cons_append]
          have hnone : rawUrlMatch (c :: (cs ++ b)) = none := by
            have := hsafe [] (c :: cs) rfl (by simp)
            simpa using this
          have hstep : rawUrlGo (f + 1) prev (c :: (cs ++ b))
              = c :: rawUrlGo f (some c) (cs ++ b) := by
            simp only [rawUrlGo]
            split
            · rw [hnone]
            · rfl
          rw [hstep]
          rw [ih b f (some c) (by simpa using hfuel)
            (fun s1 s2 he hne => hsafe (c :: s1) s2 (by rw [he, List.cons_append]) hne)]
          have hfa : (f + 1) - (c :: cs).length = f - cs.length := by
            simp
          rw [hfa]
          have hpv : (if cs.isEmpty then some c else some (cs.getLastD ' '))
              = (if (c :: cs).isEmpty then prev else some ((c :: cs).getLastD ' ')) := by
            cases cs with
            | nil => simp [List.isEmpty]
            | cons d ds => simp [List.isEmpty, List.getLastD_cons]
          rw [hpv]
          rfl

theorem rawUrlGo_skip (f : Nat) (p c : Char) (cs : List Char)
    (hp : p = '=' ∨ p = ']') :
    rawUrlGo (f + 1) (some p) (c :: cs) = c :: rawUrlGo f (some c) cs := by
  simp only [rawUrlGo]
  rcases hp with rfl | rfl <;> simp

theorem rawUrlGo_fire (f : Nat) (prev : Option Char) (c : Char) (cs url rest : List Char)
    (hprev : prev = none ∨ prev = some ' ')
    (hm : rawUrlMatch (c :: cs) = some (url, rest)) :
    rawUrlGo (f + 1) prev (c :: cs)
      = wrapRawUrl url ++ rawUrlGo f (some (url.getLastD ' ')) rest := by
  rcases hprev with rfl | rfl
  · simp only [rawUrlGo]
    rw [if_pos trivial, hm]
  · simp only [rawUrlGo]
    rw [if_pos (by decide), hm]

theorem rawUrlMatch_url (u b : List Char) (hu : u.all lcLetter = true)
    (hune : u ≠ []) (hb : b = [] ∨ ∃ t2, b = ' ' :: t2) :
    rawUrlMatch (("https://".data ++ u) ++ b) = some ("https://".data ++ u, b) := by
  have hl : ("https://".data ++ u) ++ b = "https://".data ++ (u ++ b) := by
    simp [List.append_assoc]
  rw [hl]
  simp only [rawUrlMatch]
  rw [show startsWithCIL "http".data ("https://".data ++ (u ++ b)) = true from by
    show startsWithCIL "http".data ("http".data ++ ("s://".data ++ (u ++ b))) = true
    exact startsWithCIL_self _ _]
  rw [if_pos rfl]
  have e4 : ("https://".data ++ (u ++ b)).drop 4 = 's' :: (':' :: '/' :: '/' :: (u ++ b)) :=
    rfl
  rw [e4]
  rw [show startsWithCIL "s".data ('s' :: (':' :: '/' :: '/' :: (u ++ b))) = true from rfl]
  simp only [if_true]
  rw [show List.drop 1 ('s' :: (':' :: '/' :: '/' :: (u ++ b)))
      = ':' :: '/' :: '/' :: (u ++ b) from rfl]
  rw [show startsWithL "://".data (':' :: '/' :: '/' :: (u ++ b)) = true from
    startsWithL_self "://".data (u ++ b)]
  rw [if_pos rfl]
  rw [show List.drop 3 (':' :: '/' :: '/' :: (u ++ b)) = u ++ b from rfl]
  rw [takeWhile_append_all isUrlChar u b
    (fun c hc => lcLetter_urlChar c (List.all_eq_true.mp hu c hc))]
  have hbt : b.takeWhile isUrlChar = [] := by
    rcases hb with rfl | ⟨t2, rfl⟩
    · rfl
    · rw [List.takeWhile_cons]
      simp [isUrlChar, isJsWS]
  rw [hbt, List.append_nil]
  rw [if_neg (by simp [List.isEmpty_iff]; exact hune)]
  have hlen : ("https://".data ++ u).length = 4 + 1 + 3 + u.length := by
    simp [List.length_append]
    omega
  have htk : List.take (4 + 1 + 3 + u.length) ("https://".data ++ (u ++ b))
      = "https://".data ++ u := by
    rw [← hl]
    exact List.take_left' hlen
  have hdp : List.drop (4 + 1 + 3 + u.length) ("https://".data ++ (u ++ b)) = b := by
    rw [← hl]
    exact List.drop_left' hlen
  rw [htk, hdp]

theorem wrapRawUrl_url (u : List Char) (hu : u.all lcLetter = true) (hune : u ≠ []) :
    wrapRawUrl ("https://".data ++ u)
      = "[URL]".data ++ ("https://".data ++ u) ++ "[/URL]".data := by
  unfold wrapRawUrl
  have htr : (("https://".data ++ u).reverse).takeWhile urlTrailPunct = [] := by
    apply takeWhile_head_false
    intro c hc
    rw [List.reverse_append] at hc
    cases hur : u.reverse with
    | nil => exact absurd (List.reverse_eq_nil_iff.mp hur) hune
    | cons d ds =>
        rw [hur, List.cons_append] at hc
        simp only [List.head?] at hc
        injection hc with hc
        have hdm : d ∈ u := List.mem_reverse.mp (by rw [hur]; simp)
        rw [← hc]
        exact lcLetter_not_trail d (List.all_eq_true.mp hu d hdm)
  rw [htr]
  simp

theorem getLastD_append_right (a b : List Char) (d : Char) (hb : b ≠ []) :
    (a ++ b).getLastD d = b.getLastD d := by
  induction a generalizing d with
  | nil => rfl
  | cons x xs ih =>
      rw [List.cons_append, List.getLastD_cons, ih x]
      exact getLastD_irrel b x d hb

theorem rawUrlGo_skip' (fuel : Nat) (hf : 1 ≤ fuel) (p c : Char) (cs : List Char)
    (hp : p = '=' ∨ p = ']') :
    rawUrlGo fuel (some p) (c :: cs) = c :: rawUrlGo (fuel - 1) (some c) cs := by
  cases fuel with
  | zero => omega
  | succ f => exact rawUrlGo_skip f p c cs hp

theorem rawUrlGo_sep (fuel : Nat) (p2 : Option Char) (rest : List Char)
    (hf : 1 ≤ fuel) :
    rawUrlGo fuel p2 (' ' :: rest) = ' ' :: rawUrlGo (fuel - 1) (some ' ') rest := by
  cases fuel with
  | zero => omega
  | succ f =>
      simp only [rawUrlGo]
      split
      · rw [rawUrlMatch_none_head ' ' rest (by decide)]
        rfl
      · rfl

theorem take_sub_mem (b : List Char) (k : Nat) (hk : k ≤ 5) (c : Char)
    (h : c ∈ b.take k) : c ∈ b.take 5 := by
  have e : b.take k = (b.take 5).take k := by
    rw [List.take_take, Nat.min_eq_left hk]
  rw [e] at h
  exact List.mem_of_mem_take h

theorem suffixSafe_rawUrl_chunk2 (u t b : List Char)
    (hu : u.all lcLetter = true) (ht : t.all lcLetter = true) (htne : t ≠ []) :
    SuffixSafe rawUrlMatch
      ("ttps://".data ++ (u ++ ("]".data ++ (t ++ "[/URL]".data)))) b := by
  apply suffixSafe_append
  · exact suffixSafe_rawUrl_noH "ttps://".data _ (by decide)
  · apply suffixSafe_append
    · apply suffixSafe_rawUrl_letters u _ hu
      intro hm
      have hsh : ("]".data ++ (t ++ "[/URL]".data)) ++ b
          = ']' :: (t ++ ("[/URL]".data ++ b)) := by
        have h1 : "]".data = [']'] := by decide
        simp [h1, List.append_assoc]
      rw [hsh] at hm
      obtain ⟨c0, cr, hc0⟩ : ∃ c0 cr, t = c0 :: cr := by
        cases t with
        | nil => exact absurd rfl htne
        | cons c0 cr => exact ⟨c0, cr, rfl⟩
      rcases List.mem_cons.mp (List.mem_of_mem_take hm) with h2 | h2
      · exact absurd h2 (by decide)
      · -- ':' in the take-4 part of t ++ ("[/URL]" ++ b)
        have hm4 : ':' ∈ (t ++ ("[/URL]".data ++ b)).take 4 := by
          have e5 : (']' :: (t ++ ("[/URL]".data ++ b))).take 5
              = ']' :: (t ++ ("[/URL]".data ++ b)).take 4 := by
            rw [show (5 : Nat) = 4 + 1 from rfl, List.take_succ_cons]
          rw [e5] at hm
          rcases List.mem_cons.mp hm with h3 | h3
          · exact absurd h3 (by decide)
          · exact h3
        rw [List.take_append_eq_append_take] at hm4
        rcases List.mem_append.mp hm4 with h3 | h3
        · exact absurd (List.all_eq_true.mp ht ':' (List.mem_of_mem_take h3)) (by decide)
        · have hle : 4 - t.length ≤ 6 := by omega
          rw [List.take_append_of_le_length (by
            show 4 - t.length ≤ ("[/URL]".data : List Char).length
            simpa using hle)] at h3
          have h4 : ':' ∈ ("[/URL]".data : List Char) := List.mem_of_mem_take h3
          exact absurd h4 (by decide)
    · apply suffixSafe_append
      · exact suffixSafe_rawUrl_noH "]".data _ (by decide)
      · apply suffixSafe_append
        · apply suffixSafe_rawUrl_letters t _ ht
          intro hm
          rw [List.take_append_of_le_length (by
            show (5 : Nat) ≤ ("[/URL]".data : List Char).length
            decide)] at hm
          exact absurd (List.mem_of_mem_take hm) (by decide)
        · exact suffixSafe_rawUrl_noH "[/URL]".data b (by decide)

theorem linkForm2_shape (u t : List Char) :
    ∀ X, linkForm 2 u t ++ X
      = "[URL=".data ++
          ('h' :: (("ttps://".data ++ (u ++ ("]".data ++ (t ++ "[/URL]".data)))) ++ X)) := by
  intro X
  have h1 : "https://".data = 'h' :: "ttps://".data := by decide
  simp [linkForm, h1, List.append_assoc]

theorem ne_nil_right (a b : List Char) (h : b ≠ []) : a ++ b ≠ [] := fun he =>
  h (List.append_eq_nil.mp he).2

theorem rawUrlGo_link (u t b : List Char) (fuel : Nat) (prev : Option Char)
    (hu : u.all lcLetter = true) (ht : t.all lcLetter = true) (htne : t ≠ [])
    (hfuel : (linkForm 2 u t).length ≤ fuel) :
    rawUrlGo fuel prev (linkForm 2 u t ++ b)
      = linkForm 2 u t ++
          rawUrlGo (fuel - (linkForm 2 u t).length) (some ']') b := by
  have l1 : ("[URL=".data : List Char).length = 5 := by decide
  have l2 : ("https://".data : List Char).length = 8 := by decide
  have l3 : ("]".data : List Char).length = 1 := by decide
  have l4 : ("[/URL]".data : List Char).length = 6 := by decide
  have l5 : ("ttps://".data : List Char).length = 7 := by decide
  have hlen : (linkForm 2 u t).length = 20 + u.length + t.length := by
    simp [linkForm, List.length_append, l1, l2, l3, l4]
    omega
  have hc2len : ("ttps://".data ++ (u ++ ("]".data ++ (t ++ "[/URL]".data)))).length
      = 14 + u.length + t.length := by
    simp [List.length_append, l3, l4, l5]
    omega
  rw [linkForm2_shape u t b]
  rw [rawUrlGo_walk "[URL=".data _ fuel prev (by omega)
    (suffixSafe_rawUrl_noH "[URL=".data _ (by decide))]
  rw [show (if (("[URL=".data : List Char)).isEmpty then prev
      else some (("[URL=".data : List Char).getLastD ' ')) = some '=' from rfl]
  rw [rawUrlGo_skip' (fuel - ("[URL=".data : List Char).length) (by omega) '=' 'h' _
    (Or.inl rfl)]
  rw [rawUrlGo_walk _ b _ (some 'h') (by omega)
    (suffixSafe_rawUrl_chunk2 u t b hu ht htne)]
  have hX1 : ("]".data ++ (t ++ "[/URL]".data) : List Char) ≠ [] :=
    ne_nil_left _ _ (by decide)
  have hpost : (if ("ttps://".data ++ (u ++ ("]".data ++ (t ++ "[/URL]".data)))).isEmpty
      then some 'h'
      else some (("ttps://".data ++ (u ++ ("]".data ++ (t ++ "[/URL]".data)))).getLastD ' '))
      = some ']' := by
    have hne : ("ttps://".data ++ (u ++ ("]".data ++ (t ++ "[/URL]".data)))) ≠ [] :=
      ne_nil_right _ _ (ne_nil_right _ _ hX1)
    rw [if_neg (by simpa [List.isEmpty_iff] using hne)]
    rw [getLastD_append_right _ _ _ (ne_nil_right _ _ hX1)]
    rw [getLastD_append_right _ _ _ hX1]
    rw [getLastD_append_right _ _ _ (ne_nil_right _ _ (by decide))]
    rw [getLastD_append_right _ _ _ (by decide)]
    rfl
  rw [hpost]
  rw [linkForm2_shape u t]
  have hfa : fuel - ("[URL=".data : List Char).length - 1
      - ("ttps://".data ++ (u ++ ("]".data ++ (t ++ "[/URL]".data)))).length
      = fuel - (linkForm 2 u t).length := by
    rw [l1, hc2len, hlen]
    omega
  rw [hfa]

theorem rawUrl_seg_step (s : Seg) (hv : validSeg s = true) (b : List Char)
    (fuel : Nat) (prev : Option Char)
    (hb : b = [] ∨ ∃ t2, b = ' ' :: t2)
    (hbc : ':' ∉ b.take 5)
    (hfuel : (segR 2 1 2 0 s).length ≤ fuel)
    (hprev : prev = none ∨ prev = some ' ') :
    ∃ p2 fuel2, fuel - (segR 2 1 2 0 s).length ≤ fuel2 ∧
      rawUrlGo fuel prev (segR 2 1 2 0 s ++ b)
        = segR 2 1 2 1 s ++ rawUrlGo fuel2 p2 b := by
  cases s with
  | plain s2 =>
      have hw := rawUrlGo_walk s2 b fuel prev hfuel
        (suffixSafe_rawUrl_letters s2 b (lettersOnly_all s2 hv).1 hbc)
      exact ⟨_, _, le_refl _, hw⟩
  | bold s2 =>
      have hall := (lettersOnly_all s2 hv).1
      have hsafe : SuffixSafe rawUrlMatch (("[B]".data ++ s2) ++ "[/B]".data) b := by
        apply suffixSafe_append
        · apply suffixSafe_append
          · exact suffixSafe_rawUrl_noH "[B]".data _ (by decide)
          · apply suffixSafe_rawUrl_letters s2 _ hall
            intro hm
            rw [List.take_append_eq_append_take] at hm
            rcases List.mem_append.mp hm with h2 | h2
            · exact absurd (List.mem_of_mem_take h2) (by decide)
            · have h4 : (5 : Nat) - ("[/B]".data : List Char).length ≤ 5 := by omega
              exact hbc (take_sub_mem b _ h4 ':' h2)
        · exact suffixSafe_rawUrl_noH "[/B]".data b (by decide)
      have hw := rawUrlGo_walk (("[B]".data ++ s2) ++ "[/B]".data) b fuel prev hfuel hsafe
      exact ⟨_, _, le_refl _, hw⟩
  | ital s2 =>
      have hall := (lettersOnly_all s2 hv).1
      have hsafe : SuffixSafe rawUrlMatch (("*".data ++ s2) ++ "*".data) b := by
        apply suffixSafe_append
        · apply suffixSafe_append
          · exact suffixSafe_rawUrl_noH "*".data _ (by decide)
          · apply suffixSafe_rawUrl_letters s2 _ hall
            intro hm
            rw [List.take_append_eq_append_take] at hm
            rcases List.mem_append.mp hm with h2 | h2
            · exact absurd (List.mem_of_mem_take h2) (by decide)
            · have h4 : (5 : Nat) - ("*".data : List Char).length ≤ 5 := by omega
              exact hbc (take_sub_mem b _ h4 ':' h2)
        · exact suffixSafe_rawUrl_noH "*".data b (by decide)
      have hw := rawUrlGo_walk (("*".data ++ s2) ++ "*".data) b fuel prev hfuel hsafe
      exact ⟨_, _, le_refl _, hw⟩
  | link u t =>
      have hv2 : lettersOnly u = true ∧ lettersOnly t = true := by
        simpa [validSeg, Bool.and_eq_true] using hv
      refine ⟨some ']', fuel - (segR 2 1 2 0 (.link u t)).length, le_refl _, ?_⟩
      exact rawUrlGo_link u t b fuel prev (lettersOnly_all u hv2.1).1
        (lettersOnly_all t hv2.2).1 (lettersOnly_all t hv2.2).2 hfuel
  | url u =>
      obtain ⟨hu, hune⟩ := lettersOnly_all u hv
      have hm := rawUrlMatch_url u b hu hune hb
      have hsh0 : ("https://".data ++ u) ++ b = 'h' :: ("ttps://".data ++ (u ++ b)) := by
        have h1 : "https://".data = 'h' :: "ttps://".data := by decide
        simp [h1, List.append_assoc]
      have hsh : segR 2 1 2 0 (.url u) ++ b = 'h' :: ("ttps://".data ++ (u ++ b)) := by
        show ("https://".data ++ u) ++ b = _
        exact hsh0
      have hp1 : 1 ≤ (segR 2 1 2 0 (.url u)).length :=
        List.length_pos.mpr (segR_ne 2 1 2 0 (.url u) hv)
      cases fuel with
      | zero => omega
      | succ f =>
          have heq : rawUrlGo (f + 1) prev (segR 2 1 2 0 (.url u) ++ b)
              = segR 2 1 2 1 (.url u) ++
                  rawUrlGo f (some (("https://".data ++ u).getLastD ' ')) b := by
            rw [hsh]
            rw [hsh0] at hm
            rw [rawUrlGo_fire f prev 'h' _ ("https://".data ++ u) b hprev hm]
            rw [wrapRawUrl_url u hu hune]
            rfl
          exact ⟨_, f, by omega, heq⟩

theorem rawUrl_go_segs (L : List Seg) (hv : validSegs L = true) :
    ∀ (fuel : Nat) (prev : Option Char),
      (joinR 2 1 2 0 L).length ≤ fuel → (prev = none ∨ prev = some ' ') →
      rawUrlGo fuel prev (joinR 2 1 2 0 L) = joinR 2 1 2 1 L := by
  induction L with
  | nil => intro fuel prev _ _; cases fuel <;> rfl
  | cons s rest ih =>
      intro fuel prev hfuel hprev
      have hv1 := validSegs_head s rest hv
      cases rest with
      | nil =>
          have hj : joinR 2 1 2 0 [s] = segR 2 1 2 0 s ++ [] := by
            simp [joinR, joinSegs]
          rw [hj] at hfuel ⊢
          obtain ⟨p2, fuel2, hf2, heq⟩ := rawUrl_seg_step s hv1 [] fuel prev
            (Or.inl rfl) (by simp) (by simpa using hfuel) hprev
          rw [heq]
          have hnil : rawUrlGo fuel2 p2 [] = [] := by cases fuel2 <;> rfl
          rw [hnil]
          simp [joinR, joinSegs]
      | cons s2 rest2 =>
          have hvt := validSegs_tail s s2 rest2 hv
          have hj : joinR 2 1 2 0 (s :: s2 :: rest2)
              = segR 2 1 2 0 s ++ (' ' :: joinR 2 1 2 0 (s2 :: rest2)) := rfl
          rw [hj] at hfuel ⊢
          have hla : (segR 2 1 2 0 s).length
              + (1 + (joinR 2 1 2 0 (s2 :: rest2)).length) ≤ fuel := by
            rw [List.length_append] at hfuel
            simp only [List.length_cons] at hfuel
            omega
          have hbc : ':' ∉ (' ' :: joinR 2 1 2 0 (s2 :: rest2)).take 5 := by
            rw [show (5 : Nat) = 4 + 1 from rfl, List.take_succ_cons]
            intro hm
            rcases List.mem_cons.mp hm with h2 | h2
            · exact absurd h2 (by decide)
            · exact joinR_colon_take (s2 :: rest2) hvt 4 (by omega) h2
          obtain ⟨p2, fuel2, hf2, heq⟩ := rawUrl_seg_step s hv1 _ fuel prev
            (Or.inr ⟨_, rfl⟩) hbc (by omega) hprev
          rw [heq]
          rw [rawUrlGo_sep fuel2 p2 _ (by omega)]
          rw [ih hvt (fuel2 - 1) (some ' ') (by omega) (Or.inr rfl)]
          rfl

theorem md_rawurl_pass (L : List Seg) (hv : validSegs L = true) :
    rawUrlGo (joinR 2 1 2 0 L).length none (joinR 2 1 2 0 L) = joinR 2 1 2 1 L :=
  rawUrl_go_segs L hv _ none (le_refl _) (Or.inl rfl)

theorem c9Seg_not_ws (c : Char) (h : c9SegChar c = true) : isJsWS c = false := by
  have hd : lcLetter c = true ∨ c = '[' ∨ c = ']' ∨ c = '/' ∨ c = '*' ∨ c = '(' ∨
      c = ')' ∨ c = ':' ∨ c = '=' ∨ c = 'B' ∨ c = 'I' ∨ c = 'U' ∨ c = 'R' ∨
      c = 'L' := by
    simpa [c9SegChar, or_assoc] using h
  rcases hd with h2 | h2 | h2 | h2 | h2 | h2 | h2 | h2 | h2 | h2 | h2 | h2 | h2 | h2
  · exact lcLetter_not_ws c h2
  all_goals (subst h2; decide)

theorem suffixSafe_italStar (m : Char) (a b : List Char)
    (ha : a.all c9SegChar = true) : SuffixSafe (italMatch m) a b := by
  intro s1 s2 he hne
  cases s2 with
  | nil => exact absurd rfl hne
  | cons c cs =>
      have hcm : c ∈ a := by
        rw [he]
        exact List.mem_append_right s1 (by simp)
      exact italMatch_none_not_ws m c _ (c9Seg_not_ws c (List.all_eq_true.mp ha c hcm))

theorem letters_itp (w : List Char) (hw : w.all lcLetter = true) :
    ∀ c ∈ w, ((c ≠ '*' : Bool) && (c ≠ '\n' : Bool)) = true := by
  intro c hc
  have hcl := List.all_eq_true.mp hw c hc
  simp [lcLetter_ne c '*' hcl (by decide), lcLetter_ne c '\n' hcl (by decide)]

theorem italMatch_fires_end (w : List Char) (hw : w.all lcLetter = true)
    (hwne : w ≠ []) :
    italMatch '*' (' ' :: ('*' :: (w ++ ['*'])))
      = some ([' '] ++ "[I]".data ++ w ++ "[/I]".data, []) := by
  simp only [italMatch]
  rw [if_pos trivial]
  rw [takeWhile_append_all _ w _ (letters_itp w hw)]
  rw [takeWhile_head_false _ _ (fun c hc => by
    cases hc
    decide)]
  rw [List.append_nil]
  rw [if_neg (show ¬((w : List Char).isEmpty = true) from by
    simp [List.isEmpty_iff]
    exact hwne)]
  rw [List.drop_left]
  rfl

theorem italMatch_fires_mid (w r2 : List Char) (hw : w.all lcLetter = true)
    (hwne : w ≠ []) :
    italMatch '*' (' ' :: ('*' :: (w ++ ('*' :: ' ' :: r2))))
      = some ([' '] ++ "[I]".data ++ w ++ "[/I]".data ++ [' '], r2) := by
  simp only [italMatch]
  rw [if_pos trivial]
  rw [takeWhile_append_all _ w _ (letters_itp w hw)]
  rw [takeWhile_head_false _ _ (fun c hc => by
    cases hc
    decide)]
  rw [List.append_nil]
  rw [if_neg (show ¬((w : List Char).isEmpty = true) from by
    simp [List.isEmpty_iff]
    exact hwne)]
  rw [List.drop_left]
  rfl

theorem segR_ital_stage (s : Seg) (hni : isItal s = false) :
    segR 2 1 2 1 s = segR 2 2 2 1 s := by
  cases s with
  | ital s2 => simp [isItal] at hni
  | plain s2 => rfl
  | bold s2 => rfl
  | link u t => rfl
  | url u => rfl

theorem segR_head_2121_nonital (sg : Seg) (hv : validSeg sg = true)
    (hni : isItal sg = false) :
    ∃ c cs, segR 2 1 2 1 sg = c :: cs ∧ (lcLetter c = true ∨ c = '[') := by
  cases sg with
  | plain s =>
      obtain ⟨hall, hne⟩ := lettersOnly_all s hv
      cases s with
      | nil => exact absurd rfl hne
      | cons c cs =>
          exact ⟨c, cs, rfl, Or.inl (List.all_eq_true.mp hall c (by simp))⟩
  | bold s => exact ⟨'[', _, rfl, by simp⟩
  | ital s => simp [isItal] at hni
  | link u t => exact ⟨'[', _, rfl, by simp⟩
  | url u => exact ⟨'[', _, rfl, by simp⟩

theorem ital_go (fuel : Nat) : ∀ (L : List Seg), validSegs L = true →
    (∀ s r, L = s :: r → isItal s = false) →
    (joinR 2 1 2 1 L).length ≤ fuel →
    replScanGo (italMatch '*') fuel (joinR 2 1 2 1 L) = joinR 2 2 2 1 L := by
  induction fuel using Nat.strong_induction_on with
  | _ fuel ih =>
  intro L hv hni hfuel
  cases L with
  | nil => cases fuel <;> rfl
  | cons s rest =>
      have hv1 := validSegs_head s rest hv
      have hsni : isItal s = false := hni s rest rfl
      have hsafe : ∀ b2, SuffixSafe (italMatch '*') (segR 2 1 2 1 s) b2 :=
        fun b2 => suffixSafe_italStar '*' _ b2 (segR_all_seg 2 1 2 1 s hv1)
      have hp : 1 ≤ (segR 2 1 2 1 s).length :=
        List.length_pos.mpr (segR_ne 2 1 2 1 s hv1)
      cases rest with
      | nil =>
          have hj : joinR 2 1 2 1 [s] = segR 2 1 2 1 s ++ [] := by
            simp [joinR, joinSegs]
          rw [hj] at hfuel ⊢
          rw [replScanGo_walk (italMatch '*') _ [] fuel (by simpa using hfuel)
            (hsafe [])]
          have hnil : replScanGo (italMatch '*')
              (fuel - (segR 2 1 2 1 s).length) [] = [] := by
            cases (fuel - (segR 2 1 2 1 s).length) <;> rfl
          rw [hnil, segR_ital_stage s hsni]
          simp [joinR, joinSegs]
      | cons s2 rest2 =>
          have hvt := validSegs_tail s s2 rest2 hv
          have hv2 := validSegs_head s2 rest2 hvt
          have hj : joinR 2 1 2 1 (s :: s2 :: rest2)
              = segR 2 1 2 1 s ++ (' ' :: joinR 2 1 2 1 (s2 :: rest2)) := rfl
          rw [hj] at hfuel ⊢
          have hla : (segR 2 1 2 1 s).length
              + (1 + (joinR 2 1 2 1 (s2 :: rest2)).length) ≤ fuel := by
            rw [List.length_append] at hfuel
            simp only [List.length_cons] at hfuel
            omega
          have hleq : (segR 2 1 2 1 s).length = (segR 2 2 2 1 s).length := by
            rw [segR_ital_stage s hsni]
          rw [replScanGo_walk (italMatch '*') _ _ fuel (by omega) (hsafe _)]
          rw [segR_ital_stage s hsni]
          by_cases hi2 : isItal s2 = true
          · obtain ⟨w, hw⟩ : ∃ w, s2 = .ital w := by
              cases s2 with
              | ital w => exact ⟨w, rfl⟩
              | plain _ => simp [isItal] at hi2
              | bold _ => simp [isItal] at hi2
              | link _ _ => simp [isItal] at hi2
              | url _ => simp [isItal] at hi2
            subst hw
            obtain ⟨hwall, hwne⟩ := lettersOnly_all w hv2
            have hst : "*".data = ['*'] := by decide
            cases rest2 with
            | nil =>
                have hsh : (' ' :: joinR 2 1 2 1 [Seg.ital w])
                    = ' ' :: ('*' :: (w ++ ['*'])) := by
                  show ' ' :: (("*".data ++ w) ++ "*".data) = _
                  simp [hst, List.append_assoc]
                rw [hsh]
                rw [replScanGo_step (italMatch '*') _ _ _ _
                  (italMatch_fires_end w hwall hwne) (by simp) (by omega)]
                have hnil2 : replScanGo (italMatch '*')
                    (fuel - (segR 2 2 2 1 s).length - 1) [] = [] := by
                  cases (fuel - (segR 2 2 2 1 s).length - 1) <;> rfl
                rw [hnil2, List.append_nil]
                show _ = segR 2 2 2 1 s
                    ++ (' ' :: (("[I]".data ++ w) ++ "[/I]".data))
                simp [List.append_assoc]
            | cons s3 rest3 =>
                have hv3 := validSegs_tail (Seg.ital w) s3 rest3 hvt
                have hni3 : isItal s3 = false := by
                  cases h6 : isItal s3
                  · rfl
                  · exfalso
                    rw [validSegs] at hvt
                    simp only [Bool.and_eq_true] at hvt
                    have h8 : (!(isItal (Seg.ital w) && isItal s3)) = true := hvt.1.2
                    rw [show isItal (Seg.ital w) = true from rfl, h6] at h8
                    exact absurd h8 (by decide)
                have hsh : (' ' :: joinR 2 1 2 1 (Seg.ital w :: s3 :: rest3))
                    = ' ' :: ('*' :: (w ++ ('*' :: ' ' ::
                        joinR 2 1 2 1 (s3 :: rest3)))) := by
                  show ' ' :: ((("*".data ++ w) ++ "*".data)
                      ++ (' ' :: joinSegs (segR 2 1 2 1) (s3 :: rest3))) = _
                  simp [hst, List.append_assoc, joinR]
                rw [hsh]
                rw [replScanGo_step (italMatch '*') _ _ _ _
                  (italMatch_fires_mid w _ hwall hwne) (by simp) (by omega)]
                have hlw : (joinR 2 1 2 1 (Seg.ital w :: s3 :: rest3)).length
                    = (segR 2 1 2 1 (Seg.ital w)).length + 1
                      + (joinR 2 1 2 1 (s3 :: rest3)).length := by
                  show (joinSegs (segR 2 1 2 1) (Seg.ital w :: s3 :: rest3)).length = _
                  rw [joinSegs_length_cons]
                  rfl
                have hpw : 1 ≤ (segR 2 1 2 1 (Seg.ital w)).length :=
                  List.length_pos.mpr (segR_ne 2 1 2 1 _ hv2)
                rw [ih (fuel - (segR 2 2 2 1 s).length - 1) (by omega)
                  (s3 :: rest3) hv3
                  (fun s' r' he => by
                    injection he with h1 h2
                    rw [← h1]
                    exact hni3)
                  (by omega)]
                show _ = segR 2 2 2 1 s ++ ' ' ::
                    ((("[I]".data ++ w) ++ "[/I]".data)
                      ++ (' ' :: joinSegs (segR 2 2 2 1) (s3 :: rest3)))
                simp [List.append_assoc, joinR]
          · have hni2 : isItal s2 = false := by simpa using hi2
            obtain ⟨c7, cs7, hc7, hp7⟩ := segR_head_2121_nonital s2 hv2 hni2
            have hsep : italMatch '*' (' ' :: joinR 2 1 2 1 (s2 :: rest2)) = none := by
              obtain ⟨tl2, htl2⟩ := joinSegs_cons (segR 2 1 2 1) s2 rest2
              rw [show joinR 2 1 2 1 (s2 :: rest2)
                  = joinSegs (segR 2 1 2 1) (s2 :: rest2) from rfl, htl2, hc7,
                List.cons_append]
              apply italMatch_none_second
              rcases hp7 with h | h
              · intro he
                rw [he] at h
                exact absurd h (by decide)
              · rw [h]
                decide
            rw [replScanGo_cons_none _ _ _ _ hsep (by omega)]
            rw [ih (fuel - (segR 2 2 2 1 s).length - 1) (by omega)
              (s2 :: rest2) hvt
              (fun s' r' he => by
                injection he with h1 h2
                rw [← h1]
                exact hni2)
              (by omega)]
            rfl

theorem md_ital_pass (L : List Seg) (hv : validText L = true) :
    replScan (italMatch '*') (joinR 2 1 2 1 L) = joinR 2 2 2 1 L := by
  unfold replScan
  cases L with
  | nil => rfl
  | cons s rest =>
      have hd : isItal s = false ∧ validSegs (s :: rest) = true := by
        rw [validText] at hv
        simp only [Bool.and_eq_true, Bool.not_eq_true'] at hv
        exact hv
      exact ital_go _ (s :: rest) hd.2
        (fun s' r' he => by
          injection he with h1 h2
          rw [← h1]
          exact hd.1)
        (le_refl _)

theorem validText_segs (L : List Seg) (hv : validText L = true) :
    validSegs L = true := by
  cases L with
  | nil => rfl
  | cons s rest =>
      rw [validText] at hv
      simp only [Bool.and_eq_true] at hv
      exact hv.2

theorem markdownToBb_render (L : List Seg) (hv : validText L = true) :
    markdownToBb (String.mk (joinR 1 1 1 0 L)) = String.mk (joinR 2 2 2 1 L) := by
  have hvs : validSegs L = true := validText_segs L hv
  simp only [markdownToBb]
  rw [md_fence_pass L hvs]
  rw [md_header_pass L hvs]
  rw [md_bold_pass L hvs]
  rw [md_boldunder_pass L hvs]
  rw [md_inlinecode_pass L hvs]
  rw [md_link_pass L hvs]
  rw [md_rawurl_pass L hvs]
  rw [md_ital_pass L hv]
  rw [md_italunder_pass L hvs]
  rw [md_strike_pass L hvs]
  rw [md_list_pass L hvs]
  rw [md_tablesep_pass L hvs]
  rw [md_tablerow_pass L hvs]
  rw [md_hr_pass L hvs]
  rw [md_quote_pass L hvs]
  rw [md_squeeze_pass L hvs]
  rw [md_trim L hvs]

/-- C9: the round trip does not return every CRM-bracket text to itself — the
counterexample above shows `[i]hello[/i]` comes back as `*hello*` — but on the
fixed sublanguage of space-joined word segments (plain words, `[b]`/`[i]`
tags, `[url=…]…[/url]` links and bare `https://` URLs with letter-only
contents) in which no italic segment comes first or follows another italic
segment, `markdownToBb ∘ bbToMarkdown` is exactly the stage-2 re-rendering:
bold becomes `[B]…[/B]`, italic `[I]…[/I]`, links `[URL=…]…[/URL]`, bare URLs
are wrapped in `[URL]…[/URL]`, and plain words are unchanged. -/
theorem c9_roundtrip_amended (L : List Seg) (hv : validText L = true) :
    markdownToBb (bbToMarkdown (String.mk (joinR 0 0 0 0 L)))
      = String.mk (joinR 2 2 2 1 L) := by
  rw [bbToMarkdown_render L (validText_segs L hv), markdownToBb_render L hv]

theorem c9_roundtrip_amended_witness :
    validText c9L0 = true ∧
      markdownToBb (bbToMarkdown (String.mk (joinR 0 0 0 0 c9L0)))
        = String.mk (joinR 2 2 2 1 c9L0) :=
  ⟨by decide, c9_roundtrip_amended c9L0 (by decide)⟩
